import Mathlib

/-!
Six degrees of collaboration: the graph engine.

A shallow embedding of `CollabGraph.cpp` (the vertex/edge store and the path
reporter) and of `6degs.cpp` (the breadth-first and depth-first traversals, the
exclusion query and the printer), followed by theorems about them.

Conventions of the embedding.

* A member function that mutates the store returns the pair of its outcome and
  of the store as it is when the call ends, so that a call that throws still
  shows what it did to the store before throwing.  A `const` member function
  returns its outcome only.
* A C++ exception is `Error.runtime_error` (thrown by the store) or
  `Error.out_of_range` (thrown by `unordered_map::at`); dereferencing a null
  pointer is `Error.null_dereference`.
* Loops whose termination is not structural (`bfs`, `dfs`, the walk of
  `report_path`) take a `fuel` argument and answer `Error.out_of_fuel` when it
  runs out; theorems about them say which fuel is enough.
* `std::stack` is a list whose head is the top; `std::queue` is a list whose
  head is the front; an output stream is the list of the lines written to it.
-/

/-- Modelled from the spec: `Artist.cpp` is absent.  The store reads an artist
only through `get_name` and `operator==`, and an entity is identified by its
name, so an artist is its name; the default constructor gives the empty name. -/
structure Artist where
  name : String
deriving DecidableEq

/-- Accessor `Artist::get_name`. -/
def Artist.get_name (a : Artist) : String := a.name

/-- Modelled from the spec: `CollabGraph.h` is absent.  An adjacency-list entry:
the neighbour and the label (the song) of the edge. -/
structure Edge where
  neighbor : Artist
  song : String
deriving DecidableEq

/-- Modelled from the spec: `CollabGraph.h` is absent.  A vertex of the store.
The `Vertex *predecessor` pointer is the key of the vertex it points to, `none`
being `nullptr`. -/
structure Vertex where
  artist : Artist
  neighbors : List Edge
  predecessor : Option String
  visited : Bool
deriving DecidableEq

/-- The store: the `unordered_map<string, Vertex*>` is the list of its values,
the key of a value being the name of its artist (`insert_vertex` is the only
place that adds a pair, and it uses that key). -/
structure CollabGraph where
  graph : List Vertex
deriving DecidableEq

/-- Outcomes other than a normal return. -/
inductive Error where
  | runtime_error (message : String)
  | out_of_range
  | null_dereference
  | out_of_fuel
deriving DecidableEq

deriving instance DecidableEq for Except

namespace CollabGraph

/-- The store made by the nullary constructor. -/
def empty : CollabGraph := ⟨[]⟩

/-- The lookup `graph.find(key)`: the vertex stored under the key, if any. -/
def find (g : CollabGraph) (key : String) : Option Vertex :=
  g.graph.find? (fun v => decide (v.artist.get_name = key))

/-- The lookup `graph.at(key)`, which throws when the key is absent. -/
def at_key (g : CollabGraph) (key : String) : Except Error Vertex :=
  match g.find key with
  | some v => .ok v
  | none => .error .out_of_range

/-- The assignment `graph.at(key)->field = value`, as a change `f` of the vertex
stored under `key` (a map holds one vertex under a key).  It is used after
`enforce_valid_vertex`, when `at` cannot throw. -/
def set_at (g : CollabGraph) (key : String) (f : Vertex → Vertex) : CollabGraph :=
  ⟨g.graph.map (fun v => if v.artist.get_name = key then f v else v)⟩

/-- Function `CollabGraph::is_vertex`. -/
def is_vertex (g : CollabGraph) (artist : Artist) : Bool :=
  (g.find artist.get_name).isSome

/-- Function `CollabGraph::enforce_valid_vertex`. -/
def enforce_valid_vertex (g : CollabGraph) (artist : Artist) : Except Error Unit :=
  if !g.is_vertex artist then
    .error (.runtime_error
      ("artist \"" ++ artist.get_name ++ "\" does not exist in the collaboration graph"))
  else .ok ()

/-- The exception that `enforce_valid_vertex` throws for `artist`. -/
def unknown_vertex (artist : Artist) : Error :=
  .runtime_error
    ("artist \"" ++ artist.get_name ++ "\" does not exist in the collaboration graph")

/-- Function `CollabGraph::insert_vertex`.  Modelled from the spec: the
constructor `Vertex(artist)` is in the absent `CollabGraph.h`; the new vertex has
no neighbour, no predecessor and is not visited. -/
def insert_vertex (g : CollabGraph) (artist : Artist) : Except Error Unit × CollabGraph :=
  if artist.get_name = "" then
    (.error (.runtime_error
      "cannot insert an improperly initialized Artist instance (name must be non-empty)"), g)
  else if !g.is_vertex artist then
    (.ok (), ⟨g.graph ++ [Vertex.mk artist [] none false]⟩)
  else (.ok (), g)

/-- The search loop of `get_edge`: the label of the first entry of the adjacency
list whose neighbour is `a2`, or the empty string. -/
def edge_scan (adj : List Edge) (a2 : Artist) : String :=
  match adj with
  | [] => ""
  | e :: rest => if e.neighbor = a2 then e.song else edge_scan rest a2

/-- Function `CollabGraph::get_edge`. -/
def get_edge (g : CollabGraph) (a1 a2 : Artist) : Except Error String :=
  match g.enforce_valid_vertex a1 with
  | .error e => .error e
  | .ok _ =>
  match g.enforce_valid_vertex a2 with
  | .error e => .error e
  | .ok _ =>
  match g.at_key a1.get_name with
  | .error e => .error e
  | .ok v => .ok (edge_scan v.neighbors a2)

/-- Function `CollabGraph::insert_edge`. -/
def insert_edge (g : CollabGraph) (a1 a2 : Artist) (edgeName : String) :
    Except Error Unit × CollabGraph :=
  match g.enforce_valid_vertex a1 with
  | .error e => (.error e, g)
  | .ok _ =>
  match g.enforce_valid_vertex a2 with
  | .error e => (.error e, g)
  | .ok _ =>
  if edgeName = "" then
    (.error (.runtime_error "the empty string is not a valid edge name"), g)
  else if a1 = a2 then
    (.error (.runtime_error "cannot insert an edge between a vertex and itself"), g)
  else
  match g.get_edge a1 a2 with
  | .error e => (.error e, g)
  | .ok song =>
  if song ≠ "" then (.ok (), g)
  else
    let g1 := g.set_at a1.get_name
      (fun v => { v with neighbors := v.neighbors ++ [Edge.mk a2 edgeName] })
    let g2 := g1.set_at a2.get_name
      (fun v => { v with neighbors := v.neighbors ++ [Edge.mk a1 edgeName] })
    (.ok (), g2)

/-- Function `CollabGraph::mark_vertex`. -/
def mark_vertex (g : CollabGraph) (artist : Artist) : Except Error Unit × CollabGraph :=
  match g.enforce_valid_vertex artist with
  | .error e => (.error e, g)
  | .ok _ => (.ok (), g.set_at artist.get_name (fun v => { v with visited := true }))

/-- Function `CollabGraph::unmark_vertex`. -/
def unmark_vertex (g : CollabGraph) (artist : Artist) : Except Error Unit × CollabGraph :=
  match g.enforce_valid_vertex artist with
  | .error e => (.error e, g)
  | .ok _ => (.ok (), g.set_at artist.get_name (fun v => { v with visited := false }))

/-- Function `CollabGraph::set_predecessor`. -/
def set_predecessor (g : CollabGraph) (to_artist from_artist : Artist) :
    Except Error Unit × CollabGraph :=
  match g.enforce_valid_vertex to_artist with
  | .error e => (.error e, g)
  | .ok _ =>
  match g.enforce_valid_vertex from_artist with
  | .error e => (.error e, g)
  | .ok _ =>
  match g.at_key to_artist.get_name with
  | .error e => (.error e, g)
  | .ok vertex =>
  match g.at_key from_artist.get_name with
  | .error e => (.error e, g)
  | .ok pred_vertex =>
  if vertex.predecessor = none then
    (.ok (), g.set_at to_artist.get_name
      (fun v => { v with predecessor := some pred_vertex.artist.get_name }))
  else (.ok (), g)

/-- Function `CollabGraph::clear_metadata`. -/
def clear_metadata (g : CollabGraph) : CollabGraph :=
  ⟨g.graph.map (fun v => { v with visited := false, predecessor := none })⟩

/-- Function `CollabGraph::is_marked`. -/
def is_marked (g : CollabGraph) (artist : Artist) : Except Error Bool :=
  match g.enforce_valid_vertex artist with
  | .error e => .error e
  | .ok _ =>
  match g.at_key artist.get_name with
  | .error e => .error e
  | .ok v => .ok v.visited

/-- Function `CollabGraph::get_predecessor`. -/
def get_predecessor (g : CollabGraph) (artist : Artist) : Except Error Artist :=
  match g.enforce_valid_vertex artist with
  | .error e => .error e
  | .ok _ =>
  match g.at_key artist.get_name with
  | .error e => .error e
  | .ok v =>
  match v.predecessor with
  | none => .ok (Artist.mk "")
  | some key =>
    match g.find key with
    | none => .error .null_dereference
    | some pred_vertex => .ok pred_vertex.artist

/-- Function `CollabGraph::get_vertex_neighbors`. -/
def get_vertex_neighbors (g : CollabGraph) (artist : Artist) : Except Error (List Artist) :=
  match g.enforce_valid_vertex artist with
  | .error e => .error e
  | .ok _ =>
  match g.at_key artist.get_name with
  | .error e => .error e
  | .ok currArtist => .ok (currArtist.neighbors.map (fun e => e.neighbor))

/-- The `while` loop of `report_path`: `pathing` is the pointer being followed
and `path` the stack built so far.  The loop condition reads `pathing->artist`
before it tests `pathing` against `nullptr`, so a null `pathing` is dereferenced. -/
def report_path_loop (g : CollabGraph) (source : Artist) :
    Nat → Option String → List Artist → Except Error (List Artist)
  | 0, _, _ => .error .out_of_fuel
  | _ + 1, none, _ => .error .null_dereference
  | fuel + 1, some key, path =>
    match g.find key with
    | none => .error .null_dereference
    | some pathing =>
      if pathing.artist ≠ source then
        report_path_loop g source fuel pathing.predecessor (pathing.artist :: path)
      else .ok (source :: path)

/-- Function `CollabGraph::report_path`.  The result is the stack, top first. -/
def report_path (fuel : Nat) (g : CollabGraph) (source dest : Artist) :
    Except Error (List Artist) :=
  match g.enforce_valid_vertex source with
  | .error e => .error e
  | .ok _ =>
  match g.enforce_valid_vertex dest with
  | .error e => .error e
  | .ok _ =>
  if source = dest then .ok []
  else
  match g.at_key dest.get_name with
  | .error e => .error e
  | .ok pathing =>
  if pathing.predecessor = none then .ok []
  else report_path_loop g source fuel (some dest.get_name) []

end CollabGraph

namespace SixDegrees

/-- The `for` loop of `bfs` over the neighbours of `currArt`: `musix` is the
queue.  The Boolean is `true` when the loop left `bfs` through `return true`. -/
def bfs_neighbors (b currArt : Artist) :
    CollabGraph → List Artist → List Artist → Except Error Bool × CollabGraph × List Artist
  | g, musix, [] => (.ok false, g, musix)
  | g, musix, temp :: rest =>
    match g.is_marked temp with
    | .error e => (.error e, g, musix)
    | .ok true => bfs_neighbors b currArt g musix rest
    | .ok false =>
      match g.set_predecessor temp currArt with
      | (.error e, g1) => (.error e, g1, musix)
      | (.ok _, g1) =>
        if temp = b then (.ok true, g1, musix ++ [temp])
        else bfs_neighbors b currArt g1 (musix ++ [temp]) rest

/-- The `while` loop of `bfs` over the queue `musix`. -/
def bfs_loop (b : Artist) : Nat → CollabGraph → List Artist → Except Error Bool × CollabGraph
  | 0, g, _ => (.error .out_of_fuel, g)
  | _ + 1, g, [] => (.ok false, g)
  | fuel + 1, g, currArt :: musix =>
    match g.mark_vertex currArt with
    | (.error e, g1) => (.error e, g1)
    | (.ok _, g1) =>
      match g1.get_vertex_neighbors currArt with
      | .error e => (.error e, g1)
      | .ok neighbors =>
        match bfs_neighbors b currArt g1 musix neighbors with
        | (.error e, g2, _) => (.error e, g2)
        | (.ok true, g2, _) => (.ok true, g2)
        | (.ok false, g2, musix2) => bfs_loop b fuel g2 musix2

/-- Function `SixDegrees::bfs`, on the store `g`. -/
def bfs (fuel : Nat) (g : CollabGraph) (a b : Artist) : Except Error Bool × CollabGraph :=
  if a = b then (.ok false, g)
  else
  match g.is_marked a with
  | .error e => (.error e, g)
  | .ok true => (.ok false, g)
  | .ok false => bfs_loop b fuel g [a]

/-- The `for` loop of `dfs` over the neighbours of `a`; `rec_dfs` is the
recursive call `dfs(temp, b)`, whose Boolean the loop drops. -/
def dfs_neighbors (rec_dfs : CollabGraph → Artist → Except Error Bool × CollabGraph)
    (a : Artist) : CollabGraph → List Artist → Except Error Unit × CollabGraph
  | g, [] => (.ok (), g)
  | g, temp :: rest =>
    match g.is_marked temp with
    | .error e => (.error e, g)
    | .ok true => dfs_neighbors rec_dfs a g rest
    | .ok false =>
      match g.set_predecessor temp a with
      | (.error e, g1) => (.error e, g1)
      | (.ok _, g1) =>
        match rec_dfs g1 temp with
        | (.error e, g2) => (.error e, g2)
        | (.ok _, g2) => dfs_neighbors rec_dfs a g2 rest

/-- Function `SixDegrees::dfs`, on the store `g`; `fuel` bounds the depth of the
recursion. -/
def dfs : Nat → CollabGraph → Artist → Artist → Except Error Bool × CollabGraph
  | 0, g, _, _ => (.error .out_of_fuel, g)
  | fuel + 1, g, a, b =>
    match g.mark_vertex a with
    | (.error e, g1) => (.error e, g1)
    | (.ok _, g1) =>
      if a = b then (.ok true, g1)
      else
        match g1.get_vertex_neighbors a with
        | .error e => (.error e, g1)
        | .ok neighbors =>
          match dfs_neighbors (fun g2 temp => dfs fuel g2 temp b) a g1 neighbors with
          | (.error e, g3) => (.error e, g3)
          | (.ok _, g3) => (.ok false, g3)

/-- Function `SixDegrees::printBadArt`: the line it writes. -/
def printBadArt (name : String) (output : List String) : List String :=
  output ++ ["\"" ++ name ++ "\" was not found in the dataset :("]

/-- Function `SixDegrees::checkDFSBFS`. -/
def checkDFSBFS (g : CollabGraph) (a b : Artist) (output : List String) :
    Bool × List String :=
  let valid := true
  let (valid, output) :=
    if !g.is_vertex a then (false, printBadArt a.get_name output) else (valid, output)
  let (valid, output) :=
    if !g.is_vertex b then (false, printBadArt b.get_name output) else (valid, output)
  (valid, output)

/-- The `for` loop of `checkNot`. -/
def checkNot_loop (g : CollabGraph) : List Artist → Bool → List String → Bool × List String
  | [], legit, output => (legit, output)
  | c :: rest, legit, output =>
    if !g.is_vertex c then checkNot_loop g rest false (printBadArt c.get_name output)
    else checkNot_loop g rest legit output

/-- Function `SixDegrees::checkNot`. -/
def checkNot (g : CollabGraph) (check : List Artist) (output : List String) :
    Bool × List String :=
  let (legit, output) := checkNot_loop g check true output
  if legit = false then (false, output) else (legit, output)

/-- The line written when no path is reported. -/
def no_path_line (a b : Artist) : String :=
  "A path does not exist between \"" ++ a.get_name ++ "\" and \"" ++ b.get_name ++ "\"."

/-- The line written for one step of a path.  Modelled from the spec: the
`operator<<` of `Artist` is absent; it writes the name. -/
def step_line (temp before : Artist) (song : String) : String :=
  "\"" ++ temp.get_name ++ "\" collaborated with \"" ++ before.get_name ++ "\" in \""
    ++ song ++ "\"."

/-- The `while` loop of `print` over the stack `path`. -/
def print_loop (g : CollabGraph) : List Artist → List String → Except Error Unit × List String
  | [], output => (.ok (), output)
  | [_], output => (.ok (), output)
  | temp :: before :: rest, output =>
    match g.get_edge temp before with
    | .error e => (.error e, output)
    | .ok song => print_loop g (before :: rest) (output ++ [step_line temp before song])

/-- Function `SixDegrees::print`. -/
def print (fuel : Nat) (g : CollabGraph) (output : List String) (a b : Artist) :
    Except Error Unit × List String :=
  match g.report_path fuel a b with
  | .error e => (.error e, output)
  | .ok path =>
    if path.isEmpty || a = b then (.ok (), output ++ [no_path_line a b])
    else
      match print_loop g path output with
      | (.error e, output) => (.error e, output)
      | (.ok _, output) => (.ok (), output ++ ["***"])

/-- The call `getline(input, line)`: the line read (empty when the read fails)
and the rest of the input. -/
def getline (input : List String) : String × List String :=
  match input with
  | [] => ("", [])
  | line :: rest => (line, rest)

/-- Function `SixDegrees::prepBFS`: the outcome, the store, the rest of the
input and the output. -/
def prepBFS (fuel : Nat) (g : CollabGraph) (input output : List String) :
    Except Error Unit × CollabGraph × List String × List String :=
  let g := g.clear_metadata
  let (source, input) := getline input
  let (dest, input) := getline input
  let a := Artist.mk source
  let b := Artist.mk dest
  match checkDFSBFS g a b output with
  | (false, output) => (.ok (), g, input, output)
  | (true, output) =>
    match bfs fuel g a b with
    | (.error e, g) => (.error e, g, input, output)
    | (.ok _, g) =>
      match print fuel g output a b with
      | (.error e, output) => (.error e, g, input, output)
      | (.ok _, output) => (.ok (), g, input, output)

/-- Function `SixDegrees::prepDFS`. -/
def prepDFS (fuel : Nat) (g : CollabGraph) (input output : List String) :
    Except Error Unit × CollabGraph × List String × List String :=
  let g := g.clear_metadata
  let (source, input) := getline input
  let (dest, input) := getline input
  let a := Artist.mk source
  let b := Artist.mk dest
  match checkDFSBFS g a b output with
  | (false, output) => (.ok (), g, input, output)
  | (true, output) =>
    match dfs fuel g a b with
    | (.error e, g) => (.error e, g, input, output)
    | (.ok _, g) =>
      match print fuel g output a b with
      | (.error e, output) => (.error e, g, input, output)
      | (.ok _, output) => (.ok (), g, input, output)

/-- The reading loop of `prepNot`: lines up to the first `*` line, or to the end
of the input. -/
def read_exclusions : List String → List Artist → List Artist × List String
  | [], exclusions => (exclusions, [])
  | newArtist :: input, exclusions =>
    if newArtist ≠ "*" then read_exclusions input (exclusions ++ [Artist.mk newArtist])
    else (exclusions, input)

/-- The marking loop of `prepNot`, over the entries of `exclusions` from index 2 on. -/
def mark_exclusions : CollabGraph → List Artist → Except Error Unit × CollabGraph
  | g, [] => (.ok (), g)
  | g, e :: rest =>
    match g.mark_vertex e with
    | (.error err, g1) => (.error err, g1)
    | (.ok _, g1) => mark_exclusions g1 rest

/-- The call `exclusions.at(i)`, which throws when `i` is out of range. -/
def vector_at (v : List Artist) (i : Nat) : Except Error Artist :=
  match v.get? i with
  | some a => .ok a
  | none => .error .out_of_range

/-- Function `SixDegrees::prepNot`. -/
def prepNot (fuel : Nat) (g : CollabGraph) (input output : List String) :
    Except Error Unit × CollabGraph × List String × List String :=
  let g := g.clear_metadata
  let (exclusions, input) := read_exclusions input []
  match checkNot g exclusions output with
  | (false, output) => (.ok (), g, input, output)
  | (true, output) =>
    match mark_exclusions g (exclusions.drop 2) with
    | (.error e, g) => (.error e, g, input, output)
    | (.ok _, g) =>
      match vector_at exclusions 0 with
      | .error e => (.error e, g, input, output)
      | .ok a =>
      match vector_at exclusions 1 with
      | .error e => (.error e, g, input, output)
      | .ok b =>
      match bfs fuel g a b with
      | (.error e, g) => (.error e, g, input, output)
      | (.ok _, g) =>
        match print fuel g output a b with
        | (.error e, output) => (.error e, g, input, output)
        | (.ok _, output) => (.ok (), g, input, output)

end SixDegrees

/-- A call of the construction interface of the store. -/
inductive Call where
  | insert_vertex (artist : Artist)
  | insert_edge (a1 a2 : Artist) (edgeName : String)

/-- The store after a call, whether the call returned or threw. -/
def Call.run (g : CollabGraph) : Call → CollabGraph
  | .insert_vertex artist => (g.insert_vertex artist).2
  | .insert_edge a1 a2 edgeName => (g.insert_edge a1 a2 edgeName).2

/-- The store built from the empty store by a sequence of calls. -/
def build (calls : List Call) : CollabGraph :=
  calls.foldl Call.run CollabGraph.empty

namespace CollabGraph

/-- The visited flag of the vertex of `a` (`false` when `a` is not a vertex). -/
def vis (g : CollabGraph) (a : Artist) : Bool :=
  match g.find a.get_name with
  | some v => v.visited
  | none => false

/-- The adjacency list of the vertex of `a` (empty when `a` is not a vertex). -/
def edges (g : CollabGraph) (a : Artist) : List Edge :=
  match g.find a.get_name with
  | some v => v.neighbors
  | none => []

/-- The neighbours of `a`, in adjacency-list order. -/
def nbrs (g : CollabGraph) (a : Artist) : List Artist :=
  (g.edges a).map (fun e => e.neighbor)

/-- The artist whose vertex the predecessor pointer of `a` points to. -/
def prd (g : CollabGraph) (a : Artist) : Option Artist :=
  match g.find a.get_name with
  | some v => v.predecessor.map Artist.mk
  | none => none

/-- Every neighbour named in an adjacency list is a vertex, and every label is
non-empty. -/
structure WellFormed (g : CollabGraph) : Prop where
  closed : ∀ a w, w ∈ g.nbrs a → g.is_vertex w = true
  labelled : ∀ a e, e ∈ g.edges a → e.song ≠ ""

/-- The store `h` has the vertices and adjacency lists of `g`. -/
def SameShape (g h : CollabGraph) : Prop :=
  ∀ a, h.is_vertex a = g.is_vertex a ∧ h.edges a = g.edges a

/-- The test "`get_edge(u, v)` returns a non-empty label". -/
def adjacent (g : CollabGraph) (u v : Artist) : Bool :=
  match g.get_edge u v with
  | .ok song => decide (song ≠ "")
  | .error _ => false

/-- An edge joins `u` to `v`: `get_edge` returns a non-empty label. -/
def Adj (g : CollabGraph) (u v : Artist) : Prop :=
  g.adjacent u v = true

instance (g : CollabGraph) (u v : Artist) : Decidable (g.Adj u v) :=
  inferInstanceAs (Decidable (g.adjacent u v = true))

/-- A path of the store: a non-empty sequence of vertices, each joined to the
next by an edge, from `a` to `b`. -/
def IsPath (g : CollabGraph) (a b : Artist) (p : List Artist) : Prop :=
  p.head? = some a ∧ p.getLast? = some b ∧ List.Chain' g.Adj p

/-- The number `n` is the graph distance from `a` to `b`: some path from `a` to
`b` has `n` edges and no path from `a` to `b` has fewer. -/
def IsDistance (g : CollabGraph) (a b : Artist) (n : Nat) : Prop :=
  (∃ p, g.IsPath a b p ∧ p.length - 1 = n) ∧ ∀ p, g.IsPath a b p → n ≤ p.length - 1

/-- Edge labels are symmetric between vertices. -/
def Symmetric (g : CollabGraph) : Prop :=
  ∀ a b, g.is_vertex a = true → g.is_vertex b = true →
    edge_scan (g.edges a) b = edge_scan (g.edges b) a

end CollabGraph

/-- A walk of `n` edges from `a` to a vertex, every vertex after `a` being
unmarked in `g`. -/
inductive ReachN (g : CollabGraph) (a : Artist) : Nat → Artist → Prop
  | base : ReachN g a 0 a
  | step {n : Nat} {u w : Artist} :
      ReachN g a n u → w ∈ g.nbrs u → g.vis w = false → ReachN g a (n + 1) w

/-- The invariant of the breadth-first search started at `a` on the store `g0`:
`g` is the current store, `q1 ++ q2` the queue, `k` the level of the unmarked
entries of `q1`, and `x` the vertex whose neighbours `rest` are still to be
scanned. -/
structure BfsInv (g0 : CollabGraph) (a : Artist) (k : Nat) (g : CollabGraph)
    (q1 q2 : List Artist) (x : Artist) (rest : List Artist) : Prop where
  shape : g0.SameShape g
  mono : ∀ v, g0.vis v = true → g.vis v = true
  below : ∀ j v, j < k → ReachN g0 a j v → g.vis v = true
  level : ∀ v, g.vis v = true → g0.vis v = false → ∃ j, j ≤ k ∧ ReachN g0 a j v
  front : ∀ v, v ∈ q1 →
    g0.vis v = false ∧ g0.is_vertex v = true ∧ (g.vis v = false → ReachN g0 a k v)
  back : ∀ v, v ∈ q2 →
    g0.vis v = false ∧ g0.is_vertex v = true ∧
      (g.vis v = false → ∃ j, j ≤ k + 1 ∧ ReachN g0 a j v)
  queued : ∀ v, g.vis v = false → ReachN g0 a k v → v ∈ q1
  frontier : ∀ u w, g.vis u = true → g0.vis u = false → w ∈ g0.nbrs u → g.vis w = false →
    w ∈ q1 ++ q2 ∨ (u = x ∧ w ∈ rest)
  pred_ok : ∀ v p, g.prd v = some p →
    g0.vis v = false ∧ v ∈ g0.nbrs p ∧ g.vis p = true ∧ g0.vis p = false ∧
      ∃ j, ReachN g0 a j p ∧ ∀ i, i ≤ j → ¬ ReachN g0 a i v
  found : ∀ v, (v ∈ q1 ++ q2 ∨ (g.vis v = true ∧ g0.vis v = false)) → v = a ∨ g.prd v ≠ none
  pred_found : ∀ v p, g.prd v = some p → v ∈ q1 ++ q2 ∨ (g.vis v = true ∧ g0.vis v = false)

/-- The artists of the scenario of the specification. -/
def artistX : Artist := ⟨"X"⟩

/-- The second artist of the scenario. -/
def artistY : Artist := ⟨"Y"⟩

/-- The third artist of the scenario. -/
def artistZ : Artist := ⟨"Z"⟩

/-- The calls that build the scenario: `X`-`Y` share `S1`, `Y`-`Z` share `S2`. -/
def callsXYZ : List Call :=
  [.insert_vertex artistX, .insert_vertex artistY, .insert_vertex artistZ,
   .insert_edge artistX artistY "S1", .insert_edge artistY artistZ "S2"]

/-- The vertex is linked to `a0` by `n` predecessor links of the store `g`, each
of them an adjacency-list step. -/
inductive LinkedN (g : CollabGraph) (a0 : Artist) : Nat → Artist → Prop
  | root : LinkedN g a0 0 a0
  | link {n : Nat} {v p : Artist} :
      g.prd v = some p → v ∈ g.nbrs p → LinkedN g a0 n p → LinkedN g a0 (n + 1) v

/-- What a call of `dfs` started from `a0` with destination `b` guarantees
between the store `g` it receives and the store `h` it leaves. -/
structure DfsPost (a0 b : Artist) (g h : CollabGraph) : Prop where
  shape : g.SameShape h
  mono : ∀ v, g.vis v = true → h.vis v = true
  ext : ∀ v p, g.prd v = some p → h.prd v = some p
  fresh : ∀ v, h.vis v = false → h.prd v = none
  linked : ∀ v, h.vis v = true → ∃ n, LinkedN h a0 n v
  closure : ∀ u, h.vis u = true → g.vis u = false → u ≠ b →
    ∀ w, w ∈ h.nbrs u → h.vis w = true

/-- The line that `printBadArt` writes for `name`. -/
def SixDegrees.not_found_line (name : String) : String :=
  "\"" ++ name ++ "\" was not found in the dataset :("

/-- The neighbour loop of the early-exit variant of `dfs`.  The variant is not
in the source: it is the depth-first search that the design notes of the
specification describe, the loop of `dfs` (same neighbour order, same
`set_predecessor` calls) except that it keeps the Boolean of the recursive call
and leaves the loop as soon as that Boolean says the destination was found. -/
def SixDegrees.dfs_early_neighbors
    (rec_dfs : CollabGraph → Artist → Except Error Bool × CollabGraph) (a : Artist) :
    CollabGraph → List Artist → Except Error Bool × CollabGraph
  | g, [] => (.ok false, g)
  | g, temp :: rest =>
    match g.is_marked temp with
    | .error e => (.error e, g)
    | .ok true => dfs_early_neighbors rec_dfs a g rest
    | .ok false =>
      match g.set_predecessor temp a with
      | (.error e, g1) => (.error e, g1)
      | (.ok _, g1) =>
        match rec_dfs g1 temp with
        | (.error e, g2) => (.error e, g2)
        | (.ok true, g2) => (.ok true, g2)
        | (.ok false, g2) => dfs_early_neighbors rec_dfs a g2 rest

/-- The early-exit variant of `dfs`: as `dfs`, but it stops exploring as soon as
the destination `b` has been found, and returns whether it was found. -/
def SixDegrees.dfs_early_exit :
    Nat → CollabGraph → Artist → Artist → Except Error Bool × CollabGraph
  | 0, g, _, _ => (.error .out_of_fuel, g)
  | fuel + 1, g, a, b =>
    match g.mark_vertex a with
    | (.error e, g1) => (.error e, g1)
    | (.ok _, g1) =>
      if a = b then (.ok true, g1)
      else
        match g1.get_vertex_neighbors a with
        | .error e => (.error e, g1)
        | .ok neighbors =>
          dfs_early_neighbors (fun g2 temp => dfs_early_exit fuel g2 temp b) a g1 neighbors

/-- A fourth artist, for stores with several paths. -/
def artistW : Artist := ⟨"W"⟩

/-- The calls that build a store with two paths from `X` to `W`: the edges are
`X`-`Y`, `X`-`Z`, `Y`-`W` and `Z`-`W`. -/
def callsDiamond : List Call :=
  [.insert_vertex artistX, .insert_vertex artistY, .insert_vertex artistZ,
   .insert_vertex artistW, .insert_edge artistX artistY "S1",
   .insert_edge artistX artistZ "S2", .insert_edge artistY artistW "S3",
   .insert_edge artistZ artistW "S4"]

/-- The store `h` keeps the vertices, the adjacency lists and the predecessor
links of `g`: a predecessor that is set in `g` is the same in `h`. -/
def CollabGraph.Extends (g h : CollabGraph) : Prop :=
  g.SameShape h ∧ ∀ v p, g.prd v = some p → h.prd v = some p

/-- Every predecessor link of the store is an adjacency-list step, from a vertex
that predecessor links join to `s`. -/
def PredLinked (s : Artist) (g : CollabGraph) : Prop :=
  ∀ v p, g.prd v = some p → v ∈ g.nbrs p ∧ ∃ n, LinkedN g s n p

/-- How a call of the early-exit search, with outcome and store `E`, compares
with the same call of `dfs`, with outcome and store `X`, both started on the
store `g` at the vertex `x` with destination `b`: both keep what `g` holds; if
the links of `g` lead to `s`, so do theirs; when the early-exit search finds `b`,
`dfs` only adds to its store, and `b` has a predecessor unless the call was on
`b`; otherwise the two calls are the same. -/
def DfsSim (s b x : Artist) (g : CollabGraph) (E X : Except Error Bool × CollabGraph) : Prop :=
  g.Extends E.2 ∧ g.Extends X.2 ∧
  (PredLinked s g → (∃ n, LinkedN g s n x) → PredLinked s E.2 ∧ PredLinked s X.2) ∧
  (E.1 = .ok true → E.2.Extends X.2 ∧ (x = b ∨ E.2.prd b ≠ none)) ∧
  (E.1 ≠ .ok true → X = E)

open CollabGraph SixDegrees

/-! ## The store: lookups and updates -/

namespace CollabGraph

theorem find_name {g : CollabGraph} {k : String} {v : Vertex} (h : g.find k = some v) :
    v.artist.get_name = k := by
  have := List.find?_some h
  simpa using this

theorem find_map_graph (l : List Vertex) (k2 : String) (h : Vertex → Vertex)
    (hh : ∀ v, (h v).artist = v.artist) :
    (CollabGraph.mk (l.map h)).find k2 = ((CollabGraph.mk l).find k2).map h := by
  simp only [find]
  induction l with
  | nil => simp
  | cons v l ih =>
    simp only [List.map_cons, List.find?_cons, hh]
    split
    · simp
    · exact ih

theorem find_set_at (g : CollabGraph) (k k2 : String) (f : Vertex → Vertex)
    (hf : ∀ v, (f v).artist = v.artist) :
    (g.set_at k f).find k2 = if k2 = k then (g.find k2).map f else g.find k2 := by
  obtain ⟨l⟩ := g
  have h1 := find_map_graph l k2 (fun v => if v.artist.get_name = k then f v else v)
    (by intro v; dsimp only; split <;> simp [hf])
  simp only [set_at]
  rw [h1]
  cases hfind : (CollabGraph.mk l).find k2 with
  | none => simp
  | some v =>
    have hn := find_name hfind
    by_cases hk : k2 = k
    · simp [hn, hk]
    · have : ¬ v.artist.get_name = k := by rw [hn]; exact hk
      simp [this, hk]

end CollabGraph

namespace CollabGraph

theorem name_eq_iff (x y : Artist) : x.get_name = y.get_name ↔ x = y := by
  cases x; cases y; simp [Artist.get_name]

theorem is_vertex_iff {g : CollabGraph} {a : Artist} :
    g.is_vertex a = true ↔ ∃ v, g.find a.get_name = some v := by
  simp [is_vertex, Option.isSome_iff_exists]

theorem enforce_ok {g : CollabGraph} {a : Artist} (h : g.is_vertex a = true) :
    g.enforce_valid_vertex a = .ok () := by
  simp [enforce_valid_vertex, h]

theorem enforce_error {g : CollabGraph} {a : Artist} (h : g.is_vertex a = false) :
    g.enforce_valid_vertex a = .error (.runtime_error
      ("artist \"" ++ a.get_name ++ "\" does not exist in the collaboration graph")) := by
  simp [enforce_valid_vertex, h]

theorem vis_vertex {g : CollabGraph} {a : Artist} (h : g.vis a = true) :
    g.is_vertex a = true := by
  unfold vis at h
  cases hf : g.find a.get_name with
  | none => simp [hf] at h
  | some v => simp [is_vertex, hf]

theorem nbrs_vertex {g : CollabGraph} {a w : Artist} (h : w ∈ g.nbrs a) :
    g.is_vertex a = true := by
  unfold nbrs edges at h
  cases hf : g.find a.get_name with
  | none => simp [hf] at h
  | some v => simp [is_vertex, hf]

theorem prd_vertex {g : CollabGraph} {a p : Artist} (h : g.prd a = some p) :
    g.is_vertex a = true := by
  unfold prd at h
  cases hf : g.find a.get_name with
  | none => simp [hf] at h
  | some v => simp [is_vertex, hf]

theorem is_marked_eq {g : CollabGraph} {a : Artist} (h : g.is_vertex a = true) :
    g.is_marked a = .ok (g.vis a) := by
  obtain ⟨v, hv⟩ := is_vertex_iff.1 h
  simp [is_marked, enforce_ok h, at_key, hv, vis]

theorem get_vertex_neighbors_eq {g : CollabGraph} {a : Artist} (h : g.is_vertex a = true) :
    g.get_vertex_neighbors a = .ok (g.nbrs a) := by
  obtain ⟨v, hv⟩ := is_vertex_iff.1 h
  simp [get_vertex_neighbors, enforce_ok h, at_key, hv, nbrs, edges]

theorem get_edge_eq {g : CollabGraph} {a1 a2 : Artist} (h1 : g.is_vertex a1 = true)
    (h2 : g.is_vertex a2 = true) :
    g.get_edge a1 a2 = .ok (edge_scan (g.edges a1) a2) := by
  obtain ⟨v, hv⟩ := is_vertex_iff.1 h1
  simp [get_edge, enforce_ok h1, enforce_ok h2, at_key, hv, edges]

theorem set_at_is_vertex (g : CollabGraph) (k : String) (f : Vertex → Vertex)
    (hf : ∀ v, (f v).artist = v.artist) (a : Artist) :
    (g.set_at k f).is_vertex a = g.is_vertex a := by
  simp only [is_vertex, find_set_at g k _ f hf]
  split <;> simp

theorem set_at_edges (g : CollabGraph) (k : String) (f : Vertex → Vertex)
    (hf : ∀ v, (f v).artist = v.artist) (hn : ∀ v, (f v).neighbors = v.neighbors)
    (a : Artist) : (g.set_at k f).edges a = g.edges a := by
  simp only [edges, find_set_at g k _ f hf]
  by_cases hk : a.get_name = k
  · cases g.find a.get_name <;> simp [hk, hn]
  · simp [hk]

theorem set_at_sameShape (g : CollabGraph) (k : String) (f : Vertex → Vertex)
    (hf : ∀ v, (f v).artist = v.artist) (hn : ∀ v, (f v).neighbors = v.neighbors) :
    SameShape g (g.set_at k f) :=
  fun a => ⟨set_at_is_vertex g k f hf a, set_at_edges g k f hf hn a⟩

theorem SameShape.refl (g : CollabGraph) : SameShape g g := fun _ => ⟨rfl, rfl⟩

theorem SameShape.trans {g h k : CollabGraph} (h1 : SameShape g h) (h2 : SameShape h k) :
    SameShape g k :=
  fun a => ⟨(h2 a).1.trans (h1 a).1, (h2 a).2.trans (h1 a).2⟩

theorem SameShape.symm {g h : CollabGraph} (h1 : SameShape g h) : SameShape h g :=
  fun a => ⟨(h1 a).1.symm, (h1 a).2.symm⟩

theorem SameShape.nbrs {g h : CollabGraph} (h1 : SameShape g h) (a : Artist) :
    h.nbrs a = g.nbrs a := by
  simp [CollabGraph.nbrs, (h1 a).2]

theorem SameShape.wellFormed {g h : CollabGraph} (h1 : SameShape g h) (hw : g.WellFormed) :
    h.WellFormed := by
  refine ⟨fun a w hwa => ?_, fun a e he => ?_⟩
  · rw [(h1 w).1]
    rw [h1.nbrs] at hwa
    exact hw.closed a w hwa
  · rw [(h1 a).2] at he
    exact hw.labelled a e he

theorem set_at_vis (g : CollabGraph) (k : String) (f : Vertex → Vertex)
    (hf : ∀ v, (f v).artist = v.artist) (a : Artist) :
    (g.set_at k f).vis a =
      if a.get_name = k then
        (match g.find a.get_name with
          | some v => (f v).visited
          | none => false)
      else g.vis a := by
  unfold vis
  rw [find_set_at g k _ f hf]
  by_cases hk : a.get_name = k
  · cases g.find a.get_name <;> simp [hk]
  · simp [hk]

theorem set_at_prd (g : CollabGraph) (k : String) (f : Vertex → Vertex)
    (hf : ∀ v, (f v).artist = v.artist) (a : Artist) :
    (g.set_at k f).prd a =
      if a.get_name = k then
        (match g.find a.get_name with
          | some v => (f v).predecessor.map Artist.mk
          | none => none)
      else g.prd a := by
  unfold prd
  rw [find_set_at g k _ f hf]
  by_cases hk : a.get_name = k
  · cases g.find a.get_name <;> simp [hk]
  · simp [hk]

/-- The effect of `mark_vertex` on an existing vertex. -/
theorem mark_vertex_spec {g : CollabGraph} {x : Artist} (h : g.is_vertex x = true) :
    ∃ g1, g.mark_vertex x = (.ok (), g1) ∧ SameShape g g1 ∧
      (∀ y, g1.vis y = (decide (y = x) || g.vis y)) ∧ (∀ y, g1.prd y = g.prd y) := by
  refine ⟨g.set_at x.get_name (fun v => { v with visited := true }),
    by simp [mark_vertex, enforce_ok h], ?_, ?_, ?_⟩
  · exact set_at_sameShape _ _ _ (fun _ => rfl) (fun _ => rfl)
  · intro y
    obtain ⟨v, hv⟩ := is_vertex_iff.1 h
    rw [set_at_vis]
    · by_cases hy : y = x
      · subst hy; simp [hv]
      · simp [hy, name_eq_iff]
    · intro _; rfl
  · intro y
    rw [set_at_prd]
    · by_cases hk : y.get_name = x.get_name
      · simp only [hk, if_true, prd]
      · simp [hk]
    · intro _; rfl

/-- The effect of `set_predecessor` on existing vertices: first write wins. -/
theorem set_predecessor_spec {g : CollabGraph} {t c : Artist} (ht : g.is_vertex t = true)
    (hc : g.is_vertex c = true) :
    ∃ g1, g.set_predecessor t c = (.ok (), g1) ∧ SameShape g g1 ∧
      (∀ y, g1.vis y = g.vis y) ∧
      (∀ y, g1.prd y = if y = t ∧ g.prd t = none then some c else g.prd y) := by
  obtain ⟨v, hv⟩ := is_vertex_iff.1 ht
  obtain ⟨u, hu⟩ := is_vertex_iff.1 hc
  have hun : u.artist = c := by
    have := find_name hu
    exact (name_eq_iff _ _).1 this
  by_cases hp : v.predecessor = none
  · refine ⟨g.set_at t.get_name (fun v => { v with predecessor := some u.artist.get_name }),
      by simp [set_predecessor, enforce_ok ht, enforce_ok hc, at_key, hv, hu, hp], ?_, ?_, ?_⟩
    · exact set_at_sameShape _ _ _ (fun _ => rfl) (fun _ => rfl)
    · intro y
      rw [set_at_vis]
      · by_cases hk : y.get_name = t.get_name
        · simp only [hk, if_true, vis]
        · simp [hk]
      · intro _; rfl
    · intro y
      have hpt : g.prd t = none := by simp [prd, hv, hp]
      rw [set_at_prd]
      · by_cases hy : y = t
        · subst hy
          simp [hv, hpt, hun]
          rfl
        · simp [hy, name_eq_iff]
      · intro _; rfl
  · refine ⟨g, by simp [set_predecessor, enforce_ok ht, enforce_ok hc, at_key, hv, hu, hp],
      SameShape.refl g, fun _ => rfl, ?_⟩
    intro y
    have : g.prd t ≠ none := by simp [prd, hv, hp]
    simp [this]

end CollabGraph


theorem ReachN.zero_eq {g : CollabGraph} {a v : Artist} (h : ReachN g a 0 v) : v = a := by
  cases h; rfl

theorem ReachN.unmarked {g : CollabGraph} {a v : Artist} {n : Nat} (ha : g.vis a = false)
    (h : ReachN g a n v) : g.vis v = false := by
  cases h with
  | base => exact ha
  | step _ _ hv => exact hv

theorem BfsInv.init {g0 : CollabGraph} {a : Artist} (ha : g0.is_vertex a = true)
    (hva : g0.vis a = false) (hp : ∀ v, g0.prd v = none) :
    BfsInv g0 a 0 g0 [a] [] a [] where
  shape := SameShape.refl g0
  mono := fun _ h => h
  below := fun j v hj => absurd hj (Nat.not_lt_zero j)
  level := fun v h1 h2 => by simp [h1] at h2
  front := fun v hv => by
    simp only [List.mem_singleton] at hv
    subst hv
    exact ⟨hva, ha, fun _ => ReachN.base⟩
  back := fun v hv => by simp at hv
  queued := fun v _ hr => by simp [hr.zero_eq]
  frontier := fun u w h1 h2 => by simp [h1] at h2
  pred_ok := fun v p h => by simp [hp v] at h
  found := fun v h => by
    rcases h with h | ⟨h1, h2⟩
    · left; simpa using h
    · simp [h1] at h2
  pred_found := fun v p h => by simp [hp v] at h

theorem BfsInv.pop {g0 g g1 : CollabGraph} {a x y : Artist} {k : Nat} {q1 q2 : List Artist}
    (h : BfsInv g0 a k g (x :: q1) q2 y []) (hs : g.SameShape g1)
    (hv : ∀ z, g1.vis z = (decide (z = x) || g.vis z)) (hp : ∀ z, g1.prd z = g.prd z) :
    BfsInv g0 a k g1 q1 q2 x (g0.nbrs x) where
  shape := h.shape.trans hs
  mono := fun v h0 => by simp [hv, h.mono v h0]
  below := fun j v hj hr => by simp [hv, h.below j v hj hr]
  level := fun v h1 h2 => by
    by_cases hx : v = x
    · subst hx
      have hf := h.front v (List.mem_cons_self _ _)
      cases hg : g.vis v with
      | false => exact ⟨k, le_refl k, hf.2.2 hg⟩
      | true => exact h.level v hg h2
    · have : g.vis v = true := by simpa [hv, hx] using h1
      exact h.level v this h2
  front := fun v hq => by
    have hf := h.front v (List.mem_cons_of_mem _ hq)
    refine ⟨hf.1, hf.2.1, fun h1 => hf.2.2 ?_⟩
    have := hv v
    rw [h1] at this
    simpa using (Bool.or_eq_false_iff.1 this.symm).2
  back := fun v hq => by
    have hf := h.back v hq
    refine ⟨hf.1, hf.2.1, fun h1 => hf.2.2 ?_⟩
    have := hv v
    rw [h1] at this
    simpa using (Bool.or_eq_false_iff.1 this.symm).2
  queued := fun v h1 hr => by
    have h2 := hv v
    rw [h1] at h2
    have h3 := Bool.or_eq_false_iff.1 h2.symm
    have hne : v ≠ x := by simpa using h3.1
    have := h.queued v h3.2 hr
    simpa [hne] using this
  frontier := fun u w h1 h2 h3 h4 => by
    have h5 := hv w
    rw [h4] at h5
    have h6 := Bool.or_eq_false_iff.1 h5.symm
    have hne : w ≠ x := by simpa using h6.1
    by_cases hx : u = x
    · right; subst hx; exact ⟨rfl, h3⟩
    · left
      have hu : g.vis u = true := by simpa [hv, hx] using h1
      have := h.frontier u w hu h2 h3 h6.2
      simpa [hne] using this
  pred_ok := fun v p hvp => by
    rw [hp] at hvp
    obtain ⟨c1, c2, c3, c4, c5⟩ := h.pred_ok v p hvp
    exact ⟨c1, c2, by simp [hv, c3], c4, c5⟩
  found := fun v hq => by
    rw [hp]
    rcases hq with hq | ⟨h1, h2⟩
    · exact h.found v (Or.inl (by simp at hq ⊢; tauto))
    · by_cases hx : v = x
      · subst hx
        exact h.found v (Or.inl (by simp))
      · have : g.vis v = true := by simpa [hv, hx] using h1
        exact h.found v (Or.inr ⟨this, h2⟩)
  pred_found := fun v p hvp => by
    rw [hp] at hvp
    rcases h.pred_found v p hvp with hq | ⟨h1, h2⟩
    · by_cases hx : v = x
      · right
        subst hx
        exact ⟨by simp [hv], (h.front v (List.mem_cons_self _ _)).1⟩
      · left
        simpa [hx] using hq
    · right
      exact ⟨by simp [hv, h1], h2⟩

theorem BfsInv.skip {g0 g : CollabGraph} {a x t : Artist} {k : Nat} {q1 q2 rest : List Artist}
    (h : BfsInv g0 a k g q1 q2 x (t :: rest)) (ht : g.vis t = true) :
    BfsInv g0 a k g q1 q2 x rest :=
  { h with
    frontier := fun u w h1 h2 h3 h4 => by
      rcases h.frontier u w h1 h2 h3 h4 with hq | ⟨hu, hw⟩
      · exact Or.inl hq
      · right
        refine ⟨hu, ?_⟩
        rcases List.mem_cons.1 hw with hw | hw
        · subst hw; simp [ht] at h4
        · exact hw }

theorem BfsInv.push {g0 g g1 : CollabGraph} {a x t : Artist} {k : Nat}
    {q1 q2 rest : List Artist} (h : BfsInv g0 a k g q1 q2 x (t :: rest))
    (hw : g0.WellFormed) (ht : g.vis t = false) (hx : g.vis x = true) (hx0 : g0.vis x = false)
    (hta : t ∈ g0.nbrs x) (hat : g.vis a = true) (hs : g.SameShape g1)
    (hv : ∀ z, g1.vis z = g.vis z)
    (hp : ∀ z, g1.prd z = if z = t ∧ g.prd t = none then some x else g.prd z) :
    BfsInv g0 a k g1 q1 (q2 ++ [t]) x rest := by
  have ht0 : g0.vis t = false := by
    cases h0 : g0.vis t with
    | false => rfl
    | true => rw [h.mono t h0] at ht; exact absurd ht (by simp)
  obtain ⟨jx, hjx, hrx⟩ := h.level x hx hx0
  have hne : ∀ z, g.prd z ≠ none → g1.prd z ≠ none := by
    intro z hz
    rw [hp]
    split
    · simp
    · exact hz
  exact
  { shape := h.shape.trans hs
    mono := fun v h0 => by rw [hv]; exact h.mono v h0
    below := fun j v hj hr => by rw [hv]; exact h.below j v hj hr
    level := fun v h1 h2 => h.level v (by rw [← hv]; exact h1) h2
    front := fun v hq => by
      have hf := h.front v hq
      exact ⟨hf.1, hf.2.1, fun h1 => hf.2.2 (by rw [← hv]; exact h1)⟩
    back := fun v hq => by
      rcases List.mem_append.1 hq with hq | hq
      · have hf := h.back v hq
        exact ⟨hf.1, hf.2.1, fun h1 => hf.2.2 (by rw [← hv]; exact h1)⟩
      · simp only [List.mem_singleton] at hq
        subst hq
        exact ⟨ht0, hw.closed x v hta, fun _ => ⟨jx + 1, by omega, ReachN.step hrx hta ht0⟩⟩
    queued := fun v h1 hr => h.queued v (by rw [← hv]; exact h1) hr
    frontier := fun u w h1 h2 h3 h4 => by
      rw [hv] at h1 h4
      rcases h.frontier u w h1 h2 h3 h4 with hq | ⟨hu, hw⟩
      · left
        simp only [List.mem_append] at hq ⊢
        tauto
      · rcases List.mem_cons.1 hw with hw | hw
        · left; subst hw; simp
        · exact Or.inr ⟨hu, hw⟩
    pred_ok := fun v p hvp => by
      rw [hp] at hvp
      by_cases hc : v = t ∧ g.prd t = none
      · rw [if_pos hc] at hvp
        obtain ⟨hvt, hpt⟩ := hc
        subst hvt
        have hpx : p = x := by simpa using hvp.symm
        subst hpx
        refine ⟨ht0, hta, by rw [hv]; exact hx, hx0, jx, hrx, fun i hi hr => ?_⟩
        by_cases hik : i < k
        · have := h.below i v hik hr
          rw [ht] at this
          exact absurd this (by simp)
        · have hik2 : i = k := by omega
          subst hik2
          have hq := h.queued v ht hr
          rcases h.found v (Or.inl (List.mem_append_left _ hq)) with h1 | h1
          · subst h1
            rw [ht] at hat
            exact absurd hat (by simp)
          · exact h1 hpt
      · rw [if_neg hc] at hvp
        obtain ⟨c1, c2, c3, c4, c5⟩ := h.pred_ok v p hvp
        exact ⟨c1, c2, by rw [hv]; exact c3, c4, c5⟩
    found := fun v hq => by
      by_cases hvt : v = t
      · right
        subst hvt
        rw [hp]
        by_cases hpt : g.prd v = none
        · simp [hpt]
        · simp [hpt]
      · have hq2 : v ∈ q1 ++ q2 ∨ (g.vis v = true ∧ g0.vis v = false) := by
          rcases hq with hq | hq
          · left
            simp only [List.mem_append, List.mem_singleton] at hq ⊢
            tauto
          · right
            rw [hv] at hq
            exact hq
        rcases h.found v hq2 with h1 | h1
        · exact Or.inl h1
        · exact Or.inr (hne v h1)
    pred_found := fun v p hvp => by
      rw [hp] at hvp
      by_cases hc : v = t ∧ g.prd t = none
      · left
        rw [hc.1]
        simp
      · rw [if_neg hc] at hvp
        rcases h.pred_found v p hvp with hq | hq
        · left
          simp only [List.mem_append] at hq ⊢
          tauto
        · right
          rw [hv]
          exact hq }

theorem BfsInv.shift {g0 g : CollabGraph} {a x : Artist} {k : Nat} {q2 : List Artist}
    (h : BfsInv g0 a k g [] q2 x []) (ha0 : g0.vis a = false) :
    BfsInv g0 a (k + 1) g q2 [] x [] := by
  have hbelow : ∀ j v, j < k + 1 → ReachN g0 a j v → g.vis v = true := by
    intro j v hj hr
    by_cases hjk : j < k
    · exact h.below j v hjk hr
    · have hjk2 : j = k := by omega
      subst hjk2
      cases hg : g.vis v with
      | true => rfl
      | false => exact absurd (h.queued v hg hr) (by simp)
  exact
  { shape := h.shape
    mono := h.mono
    below := hbelow
    level := fun v h1 h2 => by
      obtain ⟨j, hj, hr⟩ := h.level v h1 h2
      exact ⟨j, by omega, hr⟩
    front := fun v hq => by
      have hf := h.back v hq
      refine ⟨hf.1, hf.2.1, fun h1 => ?_⟩
      obtain ⟨j, hj, hr⟩ := hf.2.2 h1
      by_cases hjk : j < k + 1
      · have := hbelow j v hjk hr
        rw [h1] at this
        exact absurd this (by simp)
      · have : j = k + 1 := by omega
        subst this
        exact hr
    back := fun v hq => by simp at hq
    queued := fun v h1 hr => by
      cases hr with
      | step hr2 hmem hv0 =>
        rename_i u
        have hu := hbelow k u (by omega) hr2
        have hu0 := hr2.unmarked ha0
        rcases h.frontier u v hu hu0 hmem h1 with hq | ⟨_, hq⟩
        · simpa using hq
        · simp at hq
    frontier := fun u w h1 h2 h3 h4 => by
      rcases h.frontier u w h1 h2 h3 h4 with hq | ⟨_, hq⟩
      · left; simpa using hq
      · simp at hq
    pred_ok := h.pred_ok
    found := fun v hq => h.found v (by simpa using hq)
    pred_found := fun v p hvp => by simpa using h.pred_found v p hvp }


theorem bfs_neighbors_spec {g0 : CollabGraph} (hw : g0.WellFormed) {a b x : Artist} {k : Nat}
    {q1 : List Artist} :
    ∀ (rest : List Artist) (g : CollabGraph) (q2 : List Artist),
      BfsInv g0 a k g q1 q2 x rest → g.vis x = true → g0.vis x = false → g.vis a = true →
      (∀ t, t ∈ rest → t ∈ g0.nbrs x) → b ∉ q1 ++ q2 →
      ∃ r g1 q3, bfs_neighbors b x g (q1 ++ q2) rest = (.ok r, g1, q1 ++ q3) ∧
        (∀ z, g1.vis z = g.vis z) ∧
        (∃ pushed, q3 = q2 ++ pushed ∧ ∀ v, v ∈ pushed → g.vis v = false) ∧
        (r = false → BfsInv g0 a k g1 q1 q3 x [] ∧ b ∉ q1 ++ q3) ∧
        (r = true → ∃ rest2, BfsInv g0 a k g1 q1 q3 x rest2 ∧ b ∈ q3) := by
  intro rest
  induction rest with
  | nil =>
    intro g q2 h _ _ _ _ hb
    exact ⟨false, g, q2, by simp [bfs_neighbors], fun _ => rfl, ⟨[], by simp, by simp⟩,
      fun _ => ⟨h, hb⟩, fun hr => by simp at hr⟩
  | cons t rest ih =>
    intro g q2 h hx hx0 hat hsub hb
    have hta : t ∈ g0.nbrs x := hsub t (List.mem_cons_self _ _)
    have htv : g.is_vertex t = true := by
      rw [(h.shape t).1]; exact hw.closed x t hta
    have hsub2 : ∀ u, u ∈ rest → u ∈ g0.nbrs x := fun u hu => hsub u (List.mem_cons_of_mem _ hu)
    cases hvt : g.vis t with
    | true =>
      obtain ⟨r, g1, q3, e1, e2, e3, e4, e5⟩ := ih g q2 (h.skip hvt) hx hx0 hat hsub2 hb
      refine ⟨r, g1, q3, ?_, e2, e3, e4, e5⟩
      simp only [bfs_neighbors, is_marked_eq htv, hvt]
      exact e1
    | false =>
      obtain ⟨g1, s1, s2, s3, s4⟩ := set_predecessor_spec htv (vis_vertex hx)
      have hpush := h.push hw hvt hx hx0 hta hat s2 s3 s4
      by_cases htb : t = b
      · subst htb
        refine ⟨true, g1, q2 ++ [t], ?_, s3, ⟨[t], rfl, ?_⟩, fun hr => by simp at hr,
          fun _ => ⟨rest, hpush, by simp⟩⟩
        · simp only [bfs_neighbors, is_marked_eq htv, hvt, s1]
          simp
        · intro v hv
          simp only [List.mem_singleton] at hv
          rw [hv]; exact hvt
      · have hb2 : b ∉ q1 ++ (q2 ++ [t]) := by
          simp only [List.mem_append, List.mem_singleton] at hb ⊢
          have := Ne.symm htb
          tauto
        obtain ⟨r, g2, q3, e1, e2, ⟨pushed, e3, e3b⟩, e4, e5⟩ :=
          ih g1 (q2 ++ [t]) hpush (by rw [s3]; exact hx) hx0 (by rw [s3]; exact hat) hsub2 hb2
        refine ⟨r, g2, q3, ?_, fun z => (e2 z).trans (s3 z), ⟨t :: pushed, by simp [e3], ?_⟩,
          e4, e5⟩
        · simp only [bfs_neighbors, is_marked_eq htv, hvt, s1, htb]
          simp only [if_false]
          rw [List.append_assoc]
          exact e1
        · intro v hv
          rcases List.mem_cons.1 hv with hv | hv
          · rw [hv]; exact hvt
          · rw [← s3]; exact e3b v hv

theorem countP_lt_of_mem {α : Type} (l : List α) (p p2 : α → Bool)
    (hsub : ∀ z, p2 z = true → p z = true) (x : α) (hx : x ∈ l) (hpx : p x = true)
    (hpx2 : p2 x = false) : l.countP p2 < l.countP p := by
  induction l with
  | nil => simp at hx
  | cons y l ih =>
    have hmono : l.countP p2 ≤ l.countP p := List.countP_mono_left (fun z _ => hsub z)
    rcases List.mem_cons.1 hx with hxy | hxl
    · subst hxy
      rw [List.countP_cons_of_pos _ _ hpx, List.countP_cons_of_neg _ _ (by simp [hpx2])]
      omega
    · have := ih hxl
      rw [List.countP_cons, List.countP_cons]
      have h2 : (if p2 y = true then 1 else 0) ≤ (if p y = true then 1 else 0) := by
        by_cases hy : p2 y = true
        · simp [hy, hsub y hy]
        · simp [hy]
      omega

theorem mem_graph_of_is_vertex {g : CollabGraph} {x : Artist} (h : g.is_vertex x = true) :
    x ∈ g.graph.map (fun v => v.artist) := by
  obtain ⟨v, hv⟩ := is_vertex_iff.1 h
  have hmem : v ∈ g.graph := List.mem_of_find?_eq_some hv
  have hn : v.artist = x := (name_eq_iff _ _).1 (find_name hv)
  exact List.mem_map.2 ⟨v, hmem, hn⟩

theorem bfs_loop_spec {g0 : CollabGraph} (hw : g0.WellFormed) {a b : Artist}
    (ha0 : g0.vis a = false) (V : List Artist) (hV : ∀ x, g0.is_vertex x = true → x ∈ V) :
    ∀ (m c : Nat) (g : CollabGraph) (q : List Artist) (k : Nat) (q1 q2 : List Artist)
      (y : Artist),
      V.countP (fun v => !g.vis v) ≤ m → q.countP g.vis ≤ c → q = q1 ++ q2 →
      BfsInv g0 a k g q1 q2 y [] → (g.vis a = true ∨ q1 = [a]) → b ∉ q →
      (g.vis b = true → g0.vis b = true) →
      ∃ n r g2, (∀ fuel, n ≤ fuel → bfs_loop b fuel g q = (.ok r, g2)) ∧
        ∃ k2 p1 p2 x rest, BfsInv g0 a k2 g2 p1 p2 x rest ∧
          (r = true → b ∈ p1 ++ p2) ∧
          (r = false → p1 = [] ∧ p2 = [] ∧ rest = [] ∧ g2.vis a = true ∧
            (g2.vis b = true → g0.vis b = true)) := by
  intro m
  induction m using Nat.strong_induction_on with
  | _ m ihm =>
  intro c
  induction c using Nat.strong_induction_on with
  | _ c ihc =>
  intro g q k q1 q2 y hm hc hq h hat hb hbv
  cases q with
  | nil =>
    have hq1 : q1 = [] := by
      cases q1 with
      | nil => rfl
      | cons _ _ => simp at hq
    have hq2 : q2 = [] := by
      cases q2 with
      | nil => rfl
      | cons _ _ => simp [hq1] at hq
    subst hq1 hq2
    refine ⟨1, false, g, ?_, k, [], [], y, [], h, by simp, fun _ => ⟨rfl, rfl, rfl, ?_, hbv⟩⟩
    · intro fuel hf
      obtain ⟨f, rfl⟩ : ∃ f, fuel = f + 1 := ⟨fuel - 1, by omega⟩
      simp [bfs_loop]
    · rcases hat with hat | hat
      · exact hat
      · simp at hat
  | cons x q3 =>
    -- bring the front of the queue into the first segment
    obtain ⟨k1, r1, r2, hq3, h1, hat1⟩ : ∃ k1 r1 r2, q3 = r1 ++ r2 ∧
        BfsInv g0 a k1 g (x :: r1) r2 y [] ∧ (g.vis a = true ∨ x = a) := by
      cases q1 with
      | nil =>
        simp only [List.nil_append] at hq
        subst hq
        refine ⟨k + 1, q3, [], by simp, h.shift ha0, ?_⟩
        rcases hat with hat | hat
        · exact Or.inl hat
        · simp at hat
      | cons z q4 =>
        simp only [List.cons_append, List.cons.injEq] at hq
        obtain ⟨hxz, hq⟩ := hq
        subst hxz
        refine ⟨k, q4, q2, hq, h, ?_⟩
        rcases hat with hat | hat
        · exact Or.inl hat
        · simp only [List.cons.injEq] at hat
          exact Or.inr hat.1
    have hf := h1.front x (List.mem_cons_self _ _)
    have hxv : g.is_vertex x = true := by rw [(h1.shape x).1]; exact hf.2.1
    obtain ⟨g1, m1, m2, m3, m4⟩ := mark_vertex_spec hxv
    have h2 := h1.pop m2 m3 m4
    have hx1 : g1.vis x = true := by simp [m3]
    have ha1 : g1.vis a = true := by
      rcases hat1 with hat1 | hat1
      · simp [m3, hat1]
      · subst hat1; exact hx1
    have hb3 : b ∉ r1 ++ r2 := by
      rw [← hq3]
      exact fun hmem => hb (List.mem_cons_of_mem _ hmem)
    have hbx : b ≠ x := fun hbx => hb (by simp [hbx])
    obtain ⟨r, g2, p2, e1, e2, ⟨pushed, e3, e3b⟩, e4, e5⟩ :=
      bfs_neighbors_spec hw (b := b) (g0.nbrs x) g1 r2 h2 hx1 hf.1 ha1 (fun _ ht => ht) hb3
    have hnb : g1.get_vertex_neighbors x = .ok (g0.nbrs x) := by
      rw [get_vertex_neighbors_eq (by rw [← (m2 x).1] at hxv; exact hxv),
        (h1.shape.trans m2).nbrs]
    have hstep : ∀ f, bfs_loop b (f + 1) g (x :: q3) =
        (match r with
          | true => (.ok true, g2)
          | false => bfs_loop b f g2 (r1 ++ p2)) := by
      intro f
      simp only [bfs_loop, m1, hnb, hq3, e1]
      cases r <;> rfl
    cases r with
    | true =>
      obtain ⟨rest2, e6, e7⟩ := e5 rfl
      refine ⟨1, true, g2, ?_, k1, r1, p2, x, rest2, e6,
        fun _ => List.mem_append_right _ e7, fun hr => by simp at hr⟩
      intro fuel hfu
      obtain ⟨f, rfl⟩ : ∃ f, fuel = f + 1 := ⟨fuel - 1, by omega⟩
      rw [hstep]
    | false =>
      obtain ⟨e6, e7⟩ := e4 rfl
      have hvis2 : ∀ z, g2.vis z = (decide (z = x) || g.vis z) := fun z => (e2 z).trans (m3 z)
      have ha2 : g2.vis a = true := by rw [e2]; exact ha1
      have hbv2 : g2.vis b = true → g0.vis b = true := by
        intro hb2
        rw [hvis2] at hb2
        simp only [hbx, decide_False, Bool.false_or] at hb2
        exact hbv hb2
      have hrec : ∃ n r g3, (∀ fuel, n ≤ fuel → bfs_loop b fuel g2 (r1 ++ p2) = (.ok r, g3)) ∧
          ∃ k2 p1 p2 x rest, BfsInv g0 a k2 g3 p1 p2 x rest ∧
            (r = true → b ∈ p1 ++ p2) ∧
            (r = false → p1 = [] ∧ p2 = [] ∧ rest = [] ∧ g3.vis a = true ∧
              (g3.vis b = true → g0.vis b = true)) := by
        cases hgx : g.vis x with
        | false =>
          have hlt : V.countP (fun v => !g2.vis v) < V.countP (fun v => !g.vis v) := by
            apply countP_lt_of_mem V _ _ _ x (hV x hf.2.1)
            · simp [hgx]
            · simp [hvis2]
            · intro z hz
              rw [hvis2] at hz
              simp only [Bool.not_eq_true', Bool.or_eq_false_iff] at hz
              simp [hz.2]
          exact ihm _ (lt_of_lt_of_le hlt hm) _ g2 (r1 ++ p2) k1 r1 p2 x (le_refl _) (le_refl _)
            rfl e6 (Or.inl ha2) e7 hbv2
        | true =>
          have hsame : ∀ z, g2.vis z = g.vis z := by
            intro z
            rw [hvis2]
            by_cases hz : z = x
            · subst hz; simp [hgx]
            · simp [hz]
          have hm2 : V.countP (fun v => !g2.vis v) ≤ m := by
            have : (fun v => !g2.vis v) = (fun v => !g.vis v) := by
              funext v; rw [hsame]
            rw [this]; exact hm
          have hc2 : (r1 ++ p2).countP g2.vis < c := by
            have e8 : g2.vis = g.vis := by
              funext v; rw [hsame]
            rw [e8, e3, List.countP_append, List.countP_append]
            have hz : pushed.countP g.vis = 0 := by
              rw [List.countP_eq_zero]
              intro v hv
              have := e3b v hv
              rw [m3] at this
              simp only [Bool.or_eq_false_iff] at this
              simp [this.2]
            rw [hz]
            rw [hq3, List.countP_cons_of_pos _ _ hgx, List.countP_append] at hc
            omega
          exact ihc _ hc2 g2 (r1 ++ p2) k1 r1 p2 x hm2 (le_refl _) rfl e6 (Or.inl ha2) e7 hbv2
      obtain ⟨n, r, g3, hn, hpost⟩ := hrec
      refine ⟨n + 1, r, g3, ?_, hpost⟩
      intro fuel hfu
      obtain ⟨f, rfl⟩ : ∃ f, fuel = f + 1 := ⟨fuel - 1, by omega⟩
      rw [hstep]
      exact hn f (by omega)


theorem report_path_loop_stop {g : CollabGraph} {a : Artist} (ha : g.is_vertex a = true)
    (f : Nat) (path : List Artist) :
    g.report_path_loop a (f + 1) (some a.get_name) path = .ok (a :: path) := by
  obtain ⟨v, hv⟩ := is_vertex_iff.1 ha
  have hn : v.artist = a := (name_eq_iff _ _).1 (find_name hv)
  simp [report_path_loop, hv, hn]

theorem report_path_loop_step {g : CollabGraph} {a v : Artist} (hv : g.is_vertex v = true)
    (hne : v ≠ a) (f : Nat) (path : List Artist) :
    g.report_path_loop a (f + 1) (some v.get_name) path =
      g.report_path_loop a f ((g.prd v).map Artist.get_name) (v :: path) := by
  obtain ⟨vx, hvx⟩ := is_vertex_iff.1 hv
  have hn : vx.artist = v := (name_eq_iff _ _).1 (find_name hvx)
  have hp : (g.prd v).map Artist.get_name = vx.predecessor := by
    simp only [prd, hvx, Option.map_map]
    cases vx.predecessor <;> rfl
  simp [report_path_loop, hvx, hn, hne, hp]

/-- Following the predecessor links from a discovered vertex gives a shortest walk. -/
theorem bfs_chain {g0 g : CollabGraph} {a x : Artist} {k : Nat} {q1 q2 rest : List Artist}
    (h : BfsInv g0 a k g q1 q2 x rest) (ha : g0.is_vertex a = true) :
    ∀ (j : Nat) (v p : Artist), g.prd v = some p → ReachN g0 a j p →
      (∀ i, i ≤ j → ¬ ReachN g0 a i v) →
      ∃ chain : List Artist, chain.length = j + 2 ∧ chain.head? = some a ∧
        chain.getLast? = some v ∧ List.Chain' (fun u w => w ∈ g0.nbrs u) chain ∧
        (∀ u, u ∈ chain → u ≠ a → g0.vis u = false) ∧
        ∀ fuel path, j + 2 ≤ fuel →
          g.report_path_loop a fuel (some v.get_name) path = .ok (chain ++ path) := by
  intro j
  induction j using Nat.strong_induction_on with
  | _ j ih =>
  intro v p hvp hrp hmin
  obtain ⟨c1, c2, c3, c4, _⟩ := h.pred_ok v p hvp
  have hva : v ≠ a := by
    intro hva
    subst hva
    exact hmin 0 (Nat.zero_le _) ReachN.base
  have hvv : g.is_vertex v = true := prd_vertex hvp
  have hjmin : ∀ i, i < j → ¬ ReachN g0 a i p := by
    intro i hi hr
    exact hmin (i + 1) (by omega) (ReachN.step hr c2 c1)
  by_cases hpa : p = a
  · subst hpa
    have hj0 : j = 0 := by
      by_contra hj
      exact hjmin 0 (by omega) ReachN.base
    subst hj0
    refine ⟨[p, v], rfl, rfl, rfl, by simp [c2], ?_, ?_⟩
    · intro u hu hup
      simp only [List.mem_cons, List.mem_singleton, List.not_mem_nil, or_false] at hu
      rcases hu with hu | hu
      · exact absurd hu hup
      · rw [hu]; exact c1
    · intro fuel path hfu
      obtain ⟨f, rfl⟩ : ∃ f, fuel = f + 2 := ⟨fuel - 2, by omega⟩
      rw [report_path_loop_step hvv hva, hvp]
      simp only [Option.map_some']
      rw [report_path_loop_stop (by rw [(h.shape p).1]; exact ha)]
      rfl
  · have hpp : g.prd p ≠ none := by
      rcases h.found p (Or.inr ⟨c3, c4⟩) with h1 | h1
      · exact absurd h1 hpa
      · exact h1
    obtain ⟨p2, hp2⟩ := Option.ne_none_iff_exists'.1 hpp
    obtain ⟨d1, d2, d3, d4, j2, hr2, hmin2⟩ := h.pred_ok p p2 hp2
    have hlt : j2 < j := by
      by_contra hge
      exact hmin2 j (by omega) hrp
    have hj : j = j2 + 1 := by
      have := hjmin j2
      by_contra hne
      exact hjmin (j2 + 1) (by omega) (ReachN.step hr2 d2 d1)
    obtain ⟨chain, e1, e2, e3, e4, e5, e6⟩ := ih j2 hlt p p2 hp2 hr2 hmin2
    refine ⟨chain ++ [v], by simp [e1, hj], ?_, by simp, ?_, ?_, ?_⟩
    · cases chain with
      | nil => simp at e1
      | cons c cs => simpa using e2
    · rw [List.chain'_append]
      refine ⟨e4, by simp, ?_⟩
      intro u hu w hw
      simp only [List.head?_cons, Option.mem_def, Option.some.injEq] at hw
      subst hw
      rw [e3] at hu
      simp only [Option.mem_def, Option.some.injEq] at hu
      subst hu
      exact c2
    · intro u hu hua
      rcases List.mem_append.1 hu with hu | hu
      · exact e5 u hu hua
      · simp only [List.mem_singleton] at hu
        rw [hu]; exact c1
    · intro fuel path hfu
      obtain ⟨f, rfl⟩ : ∃ f, fuel = f + 1 := ⟨fuel - 1, by omega⟩
      rw [report_path_loop_step hvv hva, hvp]
      simp only [Option.map_some']
      rw [e6 f (v :: path) (by omega)]
      simp

theorem bfs_all_marked {g0 g : CollabGraph} {a x : Artist} {k : Nat}
    (h : BfsInv g0 a k g [] [] x []) (ha0 : g0.vis a = false) (hat : g.vis a = true) :
    ∀ (n : Nat) (v : Artist), ReachN g0 a n v → g.vis v = true := by
  intro n v hr
  induction hr with
  | base => exact hat
  | step hr2 hmem hv0 ih =>
    rename_i m u w
    cases hw : g.vis w with
    | true => rfl
    | false =>
      rcases h.frontier u w ih (hr2.unmarked ha0) hmem hw with hq | ⟨_, hq⟩
      · simp at hq
      · simp at hq

theorem bfs_main {g0 : CollabGraph} (hw : g0.WellFormed) (hp : ∀ v, g0.prd v = none)
    {a b : Artist} (ha : g0.is_vertex a = true) (hab : a ≠ b) (ha0 : g0.vis a = false) :
    ∃ n r g2, (∀ fuel, n ≤ fuel → bfs fuel g0 a b = (.ok r, g2)) ∧ g0.SameShape g2 ∧
      (∀ v, g0.vis v = true → g2.vis v = true) ∧
      (r = false → (∀ j, ¬ ReachN g0 a j b) ∧ g2.prd b = none) ∧
      (r = true → ∃ (j : Nat) (chain : List Artist), chain.length = j + 2 ∧
        chain.head? = some a ∧ chain.getLast? = some b ∧
        List.Chain' (fun u w => w ∈ g0.nbrs u) chain ∧
        (∀ u, u ∈ chain → u ≠ a → g0.vis u = false) ∧
        (∀ i, i ≤ j → ¬ ReachN g0 a i b) ∧ g2.prd b ≠ none ∧
        ∀ fuel, j + 2 ≤ fuel →
          g2.report_path_loop a fuel (some b.get_name) [] = .ok chain) := by
  have hinit := BfsInv.init ha ha0 hp
  obtain ⟨n, r, g2, hn, k2, p1, p2, x, rest, hinv, ht, hf⟩ :=
    bfs_loop_spec hw (b := b) ha0 (g0.graph.map (fun v => v.artist))
      (fun x hx => mem_graph_of_is_vertex hx) _ _ g0 [a] 0 [a] [] a (le_refl _) (le_refl _)
      rfl hinit (Or.inr rfl) (by simpa using Ne.symm hab) (fun h => h)
  refine ⟨n, r, g2, ?_, hinv.shape, hinv.mono, ?_, ?_⟩
  · intro fuel hfu
    simp only [bfs, hab, if_false, is_marked_eq ha, ha0]
    exact hn fuel hfu
  · intro hr
    obtain ⟨rfl, rfl, rfl, hat, hbv⟩ := hf hr
    have hall := bfs_all_marked hinv ha0 hat
    refine ⟨fun j hj => ?_, ?_⟩
    · have h1 := hbv (hall j b hj)
      have h2 : g0.vis b = false := by
        cases hj with
        | base => exact absurd rfl hab
        | step _ _ hv => exact hv
      rw [h1] at h2
      exact absurd h2 (by simp)
    · cases hpb : g2.prd b with
      | none => rfl
      | some p =>
        rcases hinv.pred_found b p hpb with hq | ⟨h1, h2⟩
        · simp at hq
        · rw [hbv h1] at h2
          exact absurd h2 (by simp)
  · intro hr
    have hbq := ht hr
    have hpb : g2.prd b ≠ none := by
      rcases hinv.found b (Or.inl hbq) with h1 | h1
      · exact absurd h1.symm hab
      · exact h1
    obtain ⟨p, hp2⟩ := Option.ne_none_iff_exists'.1 hpb
    obtain ⟨_, _, _, _, j, hrj, hmin⟩ := hinv.pred_ok b p hp2
    obtain ⟨chain, e1, e2, e3, e4, e5, e6⟩ := bfs_chain hinv ha j b p hp2 hrj hmin
    refine ⟨j, chain, e1, e2, e3, e4, e5, hmin, hpb, fun fuel hfu => ?_⟩
    have := e6 fuel [] hfu
    simpa using this

theorem report_path_none {g : CollabGraph} {a b : Artist} (ha : g.is_vertex a = true)
    (hb : g.is_vertex b = true) (hp : g.prd b = none) (fuel : Nat) :
    g.report_path fuel a b = .ok [] := by
  obtain ⟨v, hv⟩ := is_vertex_iff.1 hb
  have : v.predecessor = none := by
    simp only [prd, hv] at hp
    cases hvp : v.predecessor with
    | none => rfl
    | some k => simp [hvp] at hp
  simp [report_path, enforce_ok ha, enforce_ok hb, at_key, hv, this]

theorem report_path_same (g : CollabGraph) (a : Artist) (ha : g.is_vertex a = true)
    (fuel : Nat) : g.report_path fuel a a = .ok [] := by
  simp [report_path, enforce_ok ha]

theorem report_path_some {g : CollabGraph} {a b : Artist} (ha : g.is_vertex a = true)
    (hb : g.is_vertex b = true) (hab : a ≠ b) (hp : g.prd b ≠ none) (fuel : Nat) :
    g.report_path fuel a b = g.report_path_loop a fuel (some b.get_name) [] := by
  obtain ⟨v, hv⟩ := is_vertex_iff.1 hb
  have : v.predecessor ≠ none := by
    intro h
    apply hp
    simp [prd, hv, h]
  simp [report_path, enforce_ok ha, enforce_ok hb, at_key, hv, this, hab]


namespace CollabGraph

theorem edge_scan_eq_empty_of_not_mem (l : List Edge) (b : Artist)
    (h : b ∉ l.map (fun e => e.neighbor)) : edge_scan l b = "" := by
  induction l with
  | nil => rfl
  | cons e l ih =>
    simp only [List.map_cons, List.mem_cons, not_or] at h
    simp only [edge_scan, if_neg (Ne.symm h.1)]
    exact ih h.2

theorem edge_scan_mem (l : List Edge) (b : Artist) (h : b ∈ l.map (fun e => e.neighbor)) :
    ∃ e, e ∈ l ∧ e.neighbor = b ∧ edge_scan l b = e.song := by
  induction l with
  | nil => simp at h
  | cons e l ih =>
    by_cases he : e.neighbor = b
    · exact ⟨e, List.mem_cons_self _ _, he, by simp [edge_scan, he]⟩
    · simp only [List.map_cons, List.mem_cons] at h
      rcases h with h | h
      · exact absurd h.symm he
      · obtain ⟨e2, h1, h2, h3⟩ := ih h
        exact ⟨e2, List.mem_cons_of_mem _ h1, h2, by simp [edge_scan, he, h3]⟩

theorem edge_scan_append_single (l : List Edge) (e : Edge) (y : Artist) :
    edge_scan (l ++ [e]) y =
      if y ∈ l.map (fun e => e.neighbor) then edge_scan l y
      else if e.neighbor = y then e.song else "" := by
  induction l with
  | nil => simp [edge_scan]
  | cons d l ih =>
    by_cases hd : d.neighbor = y
    · simp [edge_scan, hd]
    · have : ¬ y = d.neighbor := fun h => hd h.symm
      simp only [List.cons_append, edge_scan, hd, if_false, List.map_cons, List.mem_cons,
        this, false_or]
      exact ih

theorem mem_nbrs_iff_scan {g : CollabGraph} (hw : g.WellFormed) (u v : Artist) :
    v ∈ g.nbrs u ↔ edge_scan (g.edges u) v ≠ "" := by
  constructor
  · intro h
    obtain ⟨e, h1, _, h3⟩ := edge_scan_mem (g.edges u) v h
    rw [h3]
    exact hw.labelled u e h1
  · intro h
    by_contra hn
    exact h (edge_scan_eq_empty_of_not_mem _ _ hn)

theorem adj_iff {g : CollabGraph} (hw : g.WellFormed) (u v : Artist) :
    g.Adj u v ↔ v ∈ g.nbrs u := by
  constructor
  · intro h
    unfold Adj adjacent at h
    have hu : g.is_vertex u = true := by
      cases h2 : g.is_vertex u with
      | true => rfl
      | false => simp [get_edge, enforce_error h2] at h
    have hv : g.is_vertex v = true := by
      cases h2 : g.is_vertex v with
      | true => rfl
      | false => simp [get_edge, enforce_ok hu, enforce_error h2] at h
    rw [get_edge_eq hu hv] at h
    exact (mem_nbrs_iff_scan hw u v).2 (by simpa using h)
  · intro h
    have hu := nbrs_vertex h
    have hv := hw.closed u v h
    unfold Adj adjacent
    rw [get_edge_eq hu hv]
    simpa using (mem_nbrs_iff_scan hw u v).1 h

theorem find_append_single (l : List Vertex) (v : Vertex) (k : String) :
    (CollabGraph.mk (l ++ [v])).find k =
      match (CollabGraph.mk l).find k with
      | some x => some x
      | none => if v.artist.get_name = k then some v else none := by
  simp only [find, List.find?_append]
  cases h : List.find? (fun v => decide (v.artist.get_name = k)) l with
  | some x => simp
  | none =>
    simp only [List.find?_cons, List.find?_nil, Option.none_or]
    by_cases hv : v.artist.get_name = k <;> simp [hv]

/-- The effect of `insert_vertex`. -/
theorem insert_vertex_spec (g : CollabGraph) (c : Artist) :
    (∀ a, (g.insert_vertex c).2.is_vertex a = true →
      g.is_vertex a = true ∨ a = c) ∧
    (∀ a, g.is_vertex a = true → (g.insert_vertex c).2.is_vertex a = true) ∧
    (∀ a, (g.insert_vertex c).2.edges a = g.edges a) := by
  by_cases hn : c.get_name = ""
  · have : (g.insert_vertex c).2 = g := by simp [insert_vertex, hn]
    rw [this]
    exact ⟨fun a h => Or.inl h, fun a h => h, fun a => rfl⟩
  · by_cases hc : g.is_vertex c = true
    · have : (g.insert_vertex c).2 = g := by simp [insert_vertex, hn, hc]
      rw [this]
      exact ⟨fun a h => Or.inl h, fun a h => h, fun a => rfl⟩
    · unfold insert_vertex
      simp only [hn, if_false, hc, Bool.not_eq_true, Bool.not_false, if_true]
      simp only [Bool.not_eq_true] at hc
      refine ⟨?_, ?_, ?_⟩
      · intro a ha
        simp only [is_vertex, find_append_single] at ha ⊢
        cases hf : (CollabGraph.mk g.graph).find a.get_name with
        | some x => left; simp [show g.find a.get_name = some x from hf]
        | none =>
          right
          rw [hf] at ha
          simp only at ha
          by_cases hca : c.get_name = a.get_name
          · exact ((name_eq_iff _ _).1 hca).symm
          · simp [hca] at ha
      · intro a ha
        simp only [is_vertex, find_append_single] at ha ⊢
        obtain ⟨x, hx⟩ := Option.isSome_iff_exists.1 ha
        rw [show (CollabGraph.mk g.graph).find a.get_name = some x from hx]
        rfl
      · intro a
        simp only [edges, find_append_single]
        cases hf : (CollabGraph.mk g.graph).find a.get_name with
        | some x => simp [show g.find a.get_name = some x from hf]
        | none =>
          simp only [show g.find a.get_name = none from hf]
          by_cases hca : c.get_name = a.get_name
          · simp [hca]
          · simp [hca]

end CollabGraph

namespace CollabGraph

theorem edges_of_not_vertex {g : CollabGraph} {a : Artist} (h : g.is_vertex a = false) :
    g.edges a = [] := by
  unfold is_vertex at h
  unfold edges
  cases hf : g.find a.get_name with
  | none => rfl
  | some v => simp [hf] at h

theorem set_at_edges_append (g : CollabGraph) (k : Artist) (e : Edge) (x : Artist)
    (hk : g.is_vertex k = true) :
    (g.set_at k.get_name (fun v => { v with neighbors := v.neighbors ++ [e] })).edges x =
      if x = k then g.edges x ++ [e] else g.edges x := by
  unfold edges
  rw [find_set_at]
  · by_cases hx : x = k
    · subst hx
      obtain ⟨v, hv⟩ := is_vertex_iff.1 hk
      simp [hv]
    · simp [hx, name_eq_iff]
  · intro _; rfl

theorem set_at_append_is_vertex (g : CollabGraph) (k : Artist) (e : Edge) (x : Artist) :
    (g.set_at k.get_name (fun v => { v with neighbors := v.neighbors ++ [e] })).is_vertex x =
      g.is_vertex x := by
  rw [set_at_is_vertex]
  intro _; rfl

/-- The effect of `insert_edge`: either the store is unchanged, or the edge is
appended to both adjacency lists. -/
theorem insert_edge_spec (g : CollabGraph) (a1 a2 : Artist) (l : String) :
    (g.insert_edge a1 a2 l).2 = g ∨
    (a1 ≠ a2 ∧ g.is_vertex a1 = true ∧ g.is_vertex a2 = true ∧ l ≠ "" ∧
      edge_scan (g.edges a1) a2 = "" ∧ (g.insert_edge a1 a2 l).1 = .ok () ∧
      (∀ x, (g.insert_edge a1 a2 l).2.is_vertex x = g.is_vertex x) ∧
      (∀ x, (g.insert_edge a1 a2 l).2.edges x =
        if x = a1 then g.edges x ++ [Edge.mk a2 l]
        else if x = a2 then g.edges x ++ [Edge.mk a1 l] else g.edges x)) := by
  cases h1 : g.is_vertex a1 with
  | false => left; simp [insert_edge, enforce_error h1]
  | true =>
  cases h2 : g.is_vertex a2 with
  | false => left; simp [insert_edge, enforce_ok h1, enforce_error h2]
  | true =>
  by_cases hl : l = ""
  · left; simp [insert_edge, enforce_ok h1, enforce_ok h2, hl]
  by_cases ha : a1 = a2
  · left; simp [insert_edge, enforce_ok h1, enforce_ok h2, hl, ha]
  by_cases hs : edge_scan (g.edges a1) a2 = ""
  · right
    have hfst : g.insert_edge a1 a2 l = (.ok (),
        (g.set_at a1.get_name (fun v => { v with neighbors := v.neighbors ++ [Edge.mk a2 l] })).set_at
          a2.get_name (fun v => { v with neighbors := v.neighbors ++ [Edge.mk a1 l] })) := by
      simp [insert_edge, enforce_ok h1, enforce_ok h2, hl, ha, get_edge_eq h1 h2, hs]
    rw [hfst]
    refine ⟨ha, rfl, rfl, hl, hs, rfl, ?_, ?_⟩
    · intro x
      simp only
      rw [set_at_append_is_vertex, set_at_append_is_vertex]
    · intro x
      simp only
      have h2b : (g.set_at a1.get_name
          (fun v => { v with neighbors := v.neighbors ++ [Edge.mk a2 l] })).is_vertex a2 = true := by
        rw [set_at_append_is_vertex]; exact h2
      rw [set_at_edges_append _ a2 _ x h2b, set_at_edges_append _ a1 _ x h1]
      by_cases hx1 : x = a1
      · have : ¬ x = a2 := fun h => ha (hx1.symm.trans h)
        simp [hx1, ha]
      · simp [hx1]
  · left
    simp [insert_edge, enforce_ok h1, enforce_ok h2, hl, ha, get_edge_eq h1 h2, hs]

end CollabGraph

namespace CollabGraph

/-- After a call of `insert_edge` that changed a well-formed store, the label
between two artists is the new label for the inserted pair and the old label
for every other pair. -/
theorem insert_edge_scan {g : CollabGraph} (hw : g.WellFormed) (hsym : g.Symmetric)
    (a1 a2 : Artist) (l : String) (hne : (g.insert_edge a1 a2 l).2 ≠ g) (x y : Artist) :
    edge_scan ((g.insert_edge a1 a2 l).2.edges x) y =
      if (x = a1 ∧ y = a2) ∨ (x = a2 ∧ y = a1) then l else edge_scan (g.edges x) y := by
  rcases insert_edge_spec g a1 a2 l with h | ⟨ha, h1, h2, _, hs, _, _, he⟩
  · exact absurd h hne
  · have hs2 : edge_scan (g.edges a2) a1 = "" := by rw [← hsym a1 a2 h1 h2]; exact hs
    have hn1 : a2 ∉ g.nbrs a1 := fun h => (mem_nbrs_iff_scan hw a1 a2).1 h hs
    have hn2 : a1 ∉ g.nbrs a2 := fun h => (mem_nbrs_iff_scan hw a2 a1).1 h hs2
    rw [he]
    by_cases hx1 : x = a1
    · subst hx1
      simp only [if_true, edge_scan_append_single, true_and]
      by_cases hy : y = a2
      · subst hy
        have : y ∉ List.map (fun e => e.neighbor) (g.edges x) := hn1
        simp [this]
      · have hxy : ¬ (x = a2 ∧ y = x) := fun h => ha h.1
        simp only [hy, hxy, or_self, if_false, Ne.symm hy]
        split
        · rfl
        · rename_i hmem
          exact (edge_scan_eq_empty_of_not_mem _ _ hmem).symm
    · by_cases hx2 : x = a2
      · subst hx2
        simp only [hx1, if_false, if_true, edge_scan_append_single, false_and, true_and,
          false_or]
        by_cases hy : y = a1
        · subst hy
          have : y ∉ List.map (fun e => e.neighbor) (g.edges x) := hn2
          simp [this]
        · simp only [hy, if_false, Ne.symm hy]
          split
          · rfl
          · rename_i hmem
            exact (edge_scan_eq_empty_of_not_mem _ _ hmem).symm
      · simp [hx1, hx2]

theorem insert_vertex_inv {g : CollabGraph} (hw : g.WellFormed) (hsym : g.Symmetric)
    (c : Artist) : (g.insert_vertex c).2.WellFormed ∧ (g.insert_vertex c).2.Symmetric := by
  obtain ⟨s1, s2, s3⟩ := insert_vertex_spec g c
  have hnb : ∀ a, (g.insert_vertex c).2.nbrs a = g.nbrs a := fun a => by simp [nbrs, s3]
  refine ⟨⟨fun a w h => ?_, fun a e h => ?_⟩, fun a b ha hb => ?_⟩
  · rw [hnb] at h
    exact s2 w (hw.closed a w h)
  · rw [s3] at h
    exact hw.labelled a e h
  · rw [s3, s3]
    cases hga : g.is_vertex a with
    | true =>
      cases hgb : g.is_vertex b with
      | true => exact hsym a b hga hgb
      | false =>
        rw [edges_of_not_vertex hgb]
        have : b ∉ g.nbrs a := fun h => by
          have := hw.closed a b h
          rw [hgb] at this
          exact absurd this (by simp)
        rw [edge_scan_eq_empty_of_not_mem _ _ this]
        rfl
    | false =>
      rw [edges_of_not_vertex hga]
      have : a ∉ g.nbrs b := fun h => by
        have := hw.closed b a h
        rw [hga] at this
        exact absurd this (by simp)
      rw [edge_scan_eq_empty_of_not_mem _ _ this]
      rfl

theorem insert_edge_inv {g : CollabGraph} (hw : g.WellFormed) (hsym : g.Symmetric)
    (a1 a2 : Artist) (l : String) :
    (g.insert_edge a1 a2 l).2.WellFormed ∧ (g.insert_edge a1 a2 l).2.Symmetric := by
  by_cases hne : (g.insert_edge a1 a2 l).2 = g
  · rw [hne]; exact ⟨hw, hsym⟩
  · rcases insert_edge_spec g a1 a2 l with h | ⟨ha, h1, h2, hl, hs, _, hv, he⟩
    · exact absurd h hne
    · refine ⟨⟨fun a w h => ?_, fun a e h => ?_⟩, fun a b _ _ => ?_⟩
      · rw [hv]
        simp only [nbrs, he] at h
        by_cases hx1 : a = a1
        · simp only [hx1, if_true, List.map_append, List.mem_append, List.map_cons,
            List.map_nil, List.mem_singleton] at h
          rcases h with h | h
          · exact hw.closed a1 w h
          · rw [h]; exact h2
        · by_cases hx2 : a = a2
          · subst hx2
            simp only [hx1, if_false, if_true, List.map_append, List.mem_append,
              List.map_cons, List.map_nil, List.mem_singleton] at h
            rcases h with h | h
            · exact hw.closed a w h
            · rw [h]; exact h1
          · simp only [hx1, hx2, if_false] at h
            exact hw.closed a w h
      · rw [he] at h
        by_cases hx1 : a = a1
        · simp only [hx1, if_true, List.mem_append, List.mem_singleton] at h
          rcases h with h | h
          · exact hw.labelled a1 e h
          · rw [h]; exact hl
        · by_cases hx2 : a = a2
          · subst hx2
            simp only [hx1, if_false, if_true, List.mem_append, List.mem_singleton] at h
            rcases h with h | h
            · exact hw.labelled a e h
            · rw [h]; exact hl
          · simp only [hx1, hx2, if_false] at h
            exact hw.labelled a e h
      · rw [insert_edge_scan hw hsym a1 a2 l hne, insert_edge_scan hw hsym a1 a2 l hne]
        by_cases hc : (a = a1 ∧ b = a2) ∨ (a = a2 ∧ b = a1)
        · have hc2 : (b = a1 ∧ a = a2) ∨ (b = a2 ∧ a = a1) := by tauto
          simp [hc, hc2]
        · have hc2 : ¬ ((b = a1 ∧ a = a2) ∨ (b = a2 ∧ a = a1)) := by tauto
          simp only [hc, hc2, if_false]
          by_cases hva : g.is_vertex a = true
          · by_cases hvb : g.is_vertex b = true
            · exact hsym a b hva hvb
            · simp only [Bool.not_eq_true] at hvb
              rw [edges_of_not_vertex hvb]
              have : b ∉ g.nbrs a := fun h => by
                have := hw.closed a b h
                rw [hvb] at this
                exact absurd this (by simp)
              rw [edge_scan_eq_empty_of_not_mem _ _ this]
              rfl
          · simp only [Bool.not_eq_true] at hva
            rw [edges_of_not_vertex hva]
            have : a ∉ g.nbrs b := fun h => by
              have := hw.closed b a h
              rw [hva] at this
              exact absurd this (by simp)
            rw [edge_scan_eq_empty_of_not_mem _ _ this]
            rfl

end CollabGraph

theorem build_snoc (calls : List Call) (c : Call) :
    build (calls ++ [c]) = Call.run (build calls) c := by
  simp [build, List.foldl_append]

theorem empty_wellFormed : CollabGraph.empty.WellFormed :=
  ⟨fun a w h => by simp [CollabGraph.nbrs, CollabGraph.edges, CollabGraph.find,
      CollabGraph.empty] at h,
   fun a e h => by simp [CollabGraph.edges, CollabGraph.find, CollabGraph.empty] at h⟩

theorem build_inv (calls : List Call) : (build calls).WellFormed ∧ (build calls).Symmetric := by
  induction calls using List.reverseRecOn with
  | nil =>
    refine ⟨empty_wellFormed, fun a b ha => ?_⟩
    simp [build, CollabGraph.is_vertex, CollabGraph.find, CollabGraph.empty] at ha
  | append_singleton calls c ih =>
    rw [build_snoc]
    cases c with
    | insert_vertex artist => exact CollabGraph.insert_vertex_inv ih.1 ih.2 artist
    | insert_edge a1 a2 l => exact CollabGraph.insert_edge_inv ih.1 ih.2 a1 a2 l


namespace CollabGraph

/-- The effect of `clear_metadata`. -/
theorem clear_metadata_spec (g : CollabGraph) :
    g.SameShape g.clear_metadata ∧ (∀ v, g.clear_metadata.vis v = false) ∧
      (∀ v, g.clear_metadata.prd v = none) := by
  have hfind : ∀ k, g.clear_metadata.find k =
      (g.find k).map (fun v => { v with visited := false, predecessor := none }) := by
    intro k
    obtain ⟨l⟩ := g
    exact find_map_graph l k _ (fun _ => rfl)
  refine ⟨fun a => ⟨?_, ?_⟩, fun v => ?_, fun v => ?_⟩
  · simp only [is_vertex, hfind]
    cases g.find a.get_name <;> rfl
  · simp only [edges, hfind]
    cases g.find a.get_name <;> rfl
  · simp only [vis, hfind]
    cases g.find v.get_name <;> rfl
  · simp only [prd, hfind]
    cases g.find v.get_name <;> rfl

end CollabGraph

/-- The effect of the marking loop of `prepNot` on existing vertices. -/
theorem mark_exclusions_spec :
    ∀ (E : List Artist) (g : CollabGraph), (∀ e, e ∈ E → g.is_vertex e = true) →
      ∃ g1, mark_exclusions g E = (.ok (), g1) ∧ g.SameShape g1 ∧
        (∀ y, g1.vis y = (decide (y ∈ E) || g.vis y)) ∧ (∀ y, g1.prd y = g.prd y) := by
  intro E
  induction E with
  | nil =>
    intro g _
    exact ⟨g, rfl, SameShape.refl g, fun y => by simp, fun _ => rfl⟩
  | cons e E ih =>
    intro g hE
    obtain ⟨g1, m1, m2, m3, m4⟩ := mark_vertex_spec (hE e (List.mem_cons_self _ _))
    obtain ⟨g2, n1, n2, n3, n4⟩ := ih g1 (fun x hx => by
      rw [(m2 x).1]; exact hE x (List.mem_cons_of_mem _ hx))
    refine ⟨g2, by simp [mark_exclusions, m1, n1], m2.trans n2, fun y => ?_, fun y => ?_⟩
    · rw [n3, m3]
      by_cases h1 : y = e
      · simp [h1]
      · by_cases h2 : y ∈ E <;> simp [h1, h2]
    · rw [n4, m4]

/-- A chain of adjacency-list steps from `a` whose vertices are unmarked is a
walk counted by `ReachN`. -/
theorem reachN_of_chain (g0 : CollabGraph) (a : Artist) :
    ∀ (p : List Artist) (b : Artist), p.head? = some a → p.getLast? = some b →
      List.Chain' (fun u w => w ∈ g0.nbrs u) p → (∀ v, v ∈ p → g0.vis v = false) →
      ReachN g0 a (p.length - 1) b := by
  intro p
  induction p using List.reverseRecOn with
  | nil => intro b h; simp at h
  | append_singleton l x ih =>
    intro b hh hl hc hv
    have hxb : x = b := by simpa using hl
    subst hxb
    cases l with
    | nil =>
      have : x = a := by simpa using hh
      subst this
      exact ReachN.base
    | cons y l2 =>
      obtain ⟨u, hu⟩ : ∃ u, (y :: l2).getLast? = some u :=
        ⟨(y :: l2).getLast (by simp), List.getLast?_eq_getLast _ _⟩
      have hc2 := List.chain'_append.1 hc
      have hstep : x ∈ g0.nbrs u := hc2.2.2 u hu x (by simp)
      have hr := ih u (by simpa using hh) hu hc2.1
        (fun v hv2 => hv v (List.mem_append_left _ hv2))
      have hx0 : g0.vis x = false := hv x (by simp)
      have := ReachN.step hr hstep hx0
      simpa using this

/-- A path of the store in the sense of `get_edge`, seen from a store of the
same shape. -/
theorem chain_of_isPath {g g0 : CollabGraph} (hw : g.WellFormed) (hs : g.SameShape g0)
    {p : List Artist} (h : List.Chain' g.Adj p) :
    List.Chain' (fun u w => w ∈ g0.nbrs u) p := by
  refine List.Chain'.imp ?_ h
  intro u w huw
  rw [hs.nbrs]
  exact (adj_iff hw u w).1 huw

theorem isPath_of_chain {g g0 : CollabGraph} (hw : g.WellFormed) (hs : g.SameShape g0)
    {p : List Artist} (h : List.Chain' (fun u w => w ∈ g0.nbrs u) p) :
    List.Chain' g.Adj p := by
  refine List.Chain'.imp ?_ h
  intro u w huw
  rw [hs.nbrs] at huw
  exact (adj_iff hw u w).2 huw

/-- A walk counted by `ReachN` is a path of the store whose vertices after the
first are unmarked. -/
theorem chain_of_reachN {g0 : CollabGraph} {a b : Artist} {n : Nat} (h : ReachN g0 a n b) :
    ∃ p : List Artist, p.head? = some a ∧ p.getLast? = some b ∧ p.length = n + 1 ∧
      List.Chain' (fun u w => w ∈ g0.nbrs u) p ∧ ∀ v, v ∈ p → v ≠ a → g0.vis v = false := by
  induction h with
  | base => exact ⟨[a], rfl, rfl, rfl, by simp, fun v hv hne => by simp at hv; exact absurd hv hne⟩
  | step hr hmem hv0 ih =>
    rename_i m u w
    obtain ⟨p, h1, h2, h3, h4, h5⟩ := ih
    refine ⟨p ++ [w], ?_, by simp, by simp [h3], ?_, ?_⟩
    · cases p with
      | nil => simp at h1
      | cons c cs => simpa using h1
    · rw [List.chain'_append]
      refine ⟨h4, by simp, ?_⟩
      intro x hx y hy
      rw [h2] at hx
      simp only [Option.mem_def, Option.some.injEq] at hx
      simp only [List.head?_cons, Option.mem_def, Option.some.injEq] at hy
      subst hx hy
      exact hmem
    · intro v hv hne
      rcases List.mem_append.1 hv with hv | hv
      · exact h5 v hv hne
      · simp only [List.mem_singleton] at hv
        rw [hv]; exact hv0

/-- The exclusion query on a well-formed store: outcome of `bfs` and of
`report_path` after `clear_metadata` and the marking of the vertices of `E`. -/
theorem not_query_main {g : CollabGraph} (hw : g.WellFormed) (E : List Artist)
    (hE : ∀ e, e ∈ E → g.is_vertex e = true) {a b : Artist} (ha : g.is_vertex a = true)
    (hb : g.is_vertex b = true) (hab : a ≠ b) :
    ∃ (g0 : CollabGraph) (n : Nat) (r : Bool) (g2 : CollabGraph) (path : List Artist),
      mark_exclusions g.clear_metadata E = (.ok (), g0) ∧
      (∀ fuel, n ≤ fuel →
        bfs fuel g0 a b = (.ok r, g2) ∧ g2.report_path fuel a b = .ok path) ∧
      g.SameShape g2 ∧
      (r = true ↔ ∃ p, g.IsPath a b p ∧ ∀ v, v ∈ p → v ∉ E) ∧
      (r = false → path = []) ∧
      (r = true → g.IsPath a b path ∧ (∀ v, v ∈ path → v ∉ E) ∧
        ∀ p, g.IsPath a b p → (∀ v, v ∈ p → v ∉ E) → path.length ≤ p.length) := by
  obtain ⟨c1, c2, c3⟩ := g.clear_metadata_spec
  obtain ⟨g0, m1, m2, m3, m4⟩ := mark_exclusions_spec E g.clear_metadata
    (fun e he => by rw [(c1 e).1]; exact hE e he)
  have hs0 : g.SameShape g0 := c1.trans m2
  have hw0 : g0.WellFormed := hs0.wellFormed hw
  have hvis : ∀ y, g0.vis y = decide (y ∈ E) := fun y => by rw [m3, c2]; simp
  have hprd : ∀ y, g0.prd y = none := fun y => by rw [m4, c3]
  have ha0 : g0.is_vertex a = true := by rw [(hs0 a).1]; exact ha
  have hb0 : g0.is_vertex b = true := by rw [(hs0 b).1]; exact hb
  have hreach : ∀ p, g.IsPath a b p → (∀ v, v ∈ p → v ∉ E) →
      ReachN g0 a (p.length - 1) b := by
    intro p hp hav
    exact reachN_of_chain g0 a p b hp.1 hp.2.1 (chain_of_isPath hw hs0 hp.2.2)
      (fun v hv => by rw [hvis]; simpa using hav v hv)
  by_cases haE : a ∈ E
  · refine ⟨g0, 0, false, g0, [], m1, fun fuel _ => ⟨?_, report_path_none ha0 hb0 (hprd b) fuel⟩, hs0,
      ?_, fun _ => rfl, fun h => by simp at h⟩
    · have : g0.vis a = true := by rw [hvis]; simpa using haE
      simp [bfs, hab, is_marked_eq ha0, this]
    · constructor
      · intro h; simp at h
      · rintro ⟨p, hp, hav⟩
        have : a ∈ p := by
          have := hp.1
          cases p with
          | nil => simp at this
          | cons c cs =>
            simp only [List.head?_cons, Option.some.injEq] at this
            simp [this]
        exact absurd haE (hav a this)
  · have hva0 : g0.vis a = false := by rw [hvis]; simpa using haE
    obtain ⟨n, r, g2, hn, hs2, _, hF, hT⟩ := bfs_main hw0 hprd (b := b) ha0 hab hva0
    have ha2 : g2.is_vertex a = true := by rw [(hs2 a).1]; exact ha0
    have hb2 : g2.is_vertex b = true := by rw [(hs2 b).1]; exact hb0
    cases r with
    | false =>
      obtain ⟨hno, hpb⟩ := hF rfl
      refine ⟨g0, n, false, g2, [], m1, fun fuel hfu => ⟨hn fuel hfu, report_path_none ha2 hb2 hpb fuel⟩,
        hs0.trans hs2, ?_, fun _ => rfl, fun h => by simp at h⟩
      constructor
      · intro h; simp at h
      · rintro ⟨p, hp, hav⟩
        exact absurd (hreach p hp hav) (hno _)
    | true =>
      obtain ⟨j, chain, e1, e2, e3, e4, e5, e6, e7, e8⟩ := hT rfl
      have hpath : g.IsPath a b chain := ⟨e2, e3, isPath_of_chain hw hs0 e4⟩
      have havoid : ∀ v, v ∈ chain → v ∉ E := by
        intro v hv
        by_cases hva : v = a
        · rw [hva]; exact haE
        · have := e5 v hv hva
          rw [hvis] at this
          simpa using this
      refine ⟨g0, max n (j + 2), true, g2, chain, m1, fun fuel hfu => ⟨hn fuel (by omega), ?_⟩,
        hs0.trans hs2, ?_, fun h => by simp at h, fun _ => ⟨hpath, havoid, ?_⟩⟩
      · rw [report_path_some ha2 hb2 hab e7]
        exact e8 fuel (by omega)
      · exact ⟨fun _ => ⟨chain, hpath, havoid⟩, fun _ => rfl⟩
      · intro p hp hav
        have hr := hreach p hp hav
        have : ¬ p.length - 1 ≤ j := fun hle => e6 _ hle hr
        omega

/-- The path `X`, `Y`, `Z` of the scenario. -/
theorem isPath_XYZ : (build callsXYZ).IsPath artistX artistZ [artistX, artistY, artistZ] :=
  ⟨by decide, by decide,
    List.Chain'.cons (by decide) (List.Chain'.cons (by decide) (List.chain'_singleton _))⟩

/-- C1. BFS optimality: on a store built by `insert_vertex` and `insert_edge`,
for existing vertices `a ≠ b` with `b` reachable from `a`, `bfs(a,b)` run on
cleared metadata succeeds, and the sequence then returned by `report_path(a,b)`
has a number of edges (its length minus one) equal to the graph distance from
`a` to `b`: it is a path from `a` to `b`, and no path from `a` to `b` has fewer
edges. -/
theorem bfs_reports_shortest_path (calls : List Call) (a b : Artist)
    (ha : (build calls).is_vertex a = true) (hb : (build calls).is_vertex b = true)
    (hab : a ≠ b) (hreach : ∃ p, (build calls).IsPath a b p) :
    ∃ (n : Nat) (g2 : CollabGraph) (path : List Artist),
      (∀ fuel, n ≤ fuel →
        bfs fuel (build calls).clear_metadata a b = (.ok true, g2) ∧
        g2.report_path fuel a b = .ok path) ∧
      (build calls).IsDistance a b (path.length - 1) := by
  obtain ⟨g0, n, r, g2, path, h0, h1, _, h3, _, h5⟩ :=
    not_query_main (build_inv calls).1 [] (fun e he => by simp at he) ha hb hab
  have hg0 : g0 = (build calls).clear_metadata := by
    simp only [mark_exclusions, Prod.mk.injEq, true_and] at h0
    exact h0.symm
  subst hg0
  have hr : r = true := by
    obtain ⟨p, hp⟩ := hreach
    exact h3.2 ⟨p, hp, fun v _ => by simp⟩
  subst hr
  obtain ⟨e1, _, e3⟩ := h5 rfl
  refine ⟨n, g2, path, h1, ⟨path, e1, rfl⟩, fun p hp => ?_⟩
  have := e3 p hp (fun v _ => by simp)
  omega

/-- C1, on the scenario `X`-`Y`-`Z`: the query from `X` to `Z`. -/
theorem bfs_reports_shortest_path_witness :
    (build callsXYZ).is_vertex artistX = true ∧ (build callsXYZ).is_vertex artistZ = true ∧
    artistX ≠ artistZ ∧ (∃ p, (build callsXYZ).IsPath artistX artistZ p) ∧
    (∃ (n : Nat) (g2 : CollabGraph) (path : List Artist),
      (∀ fuel, n ≤ fuel →
        bfs fuel (build callsXYZ).clear_metadata artistX artistZ = (.ok true, g2) ∧
        g2.report_path fuel artistX artistZ = .ok path) ∧
      (build callsXYZ).IsDistance artistX artistZ (path.length - 1)) ∧
    (bfs 10 (build callsXYZ).clear_metadata artistX artistZ).2.report_path 10 artistX artistZ =
      .ok [artistX, artistY, artistZ] :=
  ⟨by decide, by decide, by decide, ⟨[artistX, artistY, artistZ], isPath_XYZ⟩,
    bfs_reports_shortest_path callsXYZ artistX artistZ (by decide) (by decide) (by decide)
      ⟨[artistX, artistY, artistZ], isPath_XYZ⟩, by decide⟩

/-- C2. The Boolean returned by `bfs` says whether a path is possible: on a
store built by `insert_vertex` and `insert_edge`, with cleared metadata and
existing vertices `a ≠ b`, `bfs(a,b)` returns, and it returns `true` if and only
if some path of edges leads from `a` to `b`. -/
theorem bfs_true_iff_path (calls : List Call) (a b : Artist)
    (ha : (build calls).is_vertex a = true) (hb : (build calls).is_vertex b = true)
    (hab : a ≠ b) :
    ∃ (n : Nat) (r : Bool) (g2 : CollabGraph),
      (∀ fuel, n ≤ fuel → bfs fuel (build calls).clear_metadata a b = (.ok r, g2)) ∧
      (r = true ↔ ∃ p, (build calls).IsPath a b p) := by
  obtain ⟨g0, n, r, g2, path, h0, h1, _, h3, _, _⟩ :=
    not_query_main (build_inv calls).1 [] (fun e he => by simp at he) ha hb hab
  have hg0 : g0 = (build calls).clear_metadata := by
    simp only [mark_exclusions, Prod.mk.injEq, true_and] at h0
    exact h0.symm
  subst hg0
  refine ⟨n, r, g2, fun fuel hfu => (h1 fuel hfu).1, ?_⟩
  rw [h3]
  constructor
  · rintro ⟨p, hp, _⟩; exact ⟨p, hp⟩
  · rintro ⟨p, hp⟩; exact ⟨p, hp, fun v _ => by simp⟩

/-- C2, on the scenario `X`-`Y`-`Z`: the query from `X` to `Z`. -/
theorem bfs_true_iff_path_witness :
    (build callsXYZ).is_vertex artistX = true ∧ (build callsXYZ).is_vertex artistZ = true ∧
    artistX ≠ artistZ ∧
    (∃ (n : Nat) (r : Bool) (g2 : CollabGraph),
      (∀ fuel, n ≤ fuel →
        bfs fuel (build callsXYZ).clear_metadata artistX artistZ = (.ok r, g2)) ∧
      (r = true ↔ ∃ p, (build callsXYZ).IsPath artistX artistZ p)) ∧
    (bfs 10 (build callsXYZ).clear_metadata artistX artistZ).1 = .ok true ∧
    (bfs 10 (build callsXYZ).clear_metadata artistZ artistX).1 = .ok true :=
  ⟨by decide, by decide, by decide,
    bfs_true_iff_path callsXYZ artistX artistZ (by decide) (by decide) (by decide),
    by decide, by decide⟩

/-- C4. Exclusion removes reachability: on a built store, for existing
vertices `a ≠ b`, (i) for every list `E` of existing vertices the `not` query
(`clear_metadata`, mark every vertex of `E`, `bfs(a,b)`, `report_path(a,b)`)
reports a non-empty path if and only if the store has a path from `a` to `b`
none of whose vertices belongs to `E`; (ii) when there is a path from `a` to
`b` and every such path passes through `c`, excluding `c` makes `bfs` return
`false` and `report_path` return the empty path, while plain `bfs(a,b)` on
cleared metadata returns `true`. -/
theorem exclusion_removes_reachability (calls : List Call) (a b : Artist)
    (ha : (build calls).is_vertex a = true) (hb : (build calls).is_vertex b = true)
    (hab : a ≠ b) :
    (∀ E : List Artist, (∀ e, e ∈ E → (build calls).is_vertex e = true) →
      ∃ (g0 : CollabGraph) (n : Nat) (r : Bool) (g2 : CollabGraph) (path : List Artist),
        mark_exclusions (build calls).clear_metadata E = (.ok (), g0) ∧
        (∀ fuel, n ≤ fuel →
          bfs fuel g0 a b = (.ok r, g2) ∧ g2.report_path fuel a b = .ok path) ∧
        (path ≠ [] ↔ ∃ p, (build calls).IsPath a b p ∧ ∀ v, v ∈ p → v ∉ E)) ∧
    (∀ c : Artist, (build calls).is_vertex c = true → (∃ p, (build calls).IsPath a b p) →
      (∀ p, (build calls).IsPath a b p → c ∈ p) →
      ∃ (g0 : CollabGraph) (n : Nat) (g2 g3 : CollabGraph),
        mark_exclusions (build calls).clear_metadata [c] = (.ok (), g0) ∧
        ∀ fuel, n ≤ fuel →
          bfs fuel g0 a b = (.ok false, g2) ∧ g2.report_path fuel a b = .ok [] ∧
          bfs fuel (build calls).clear_metadata a b = (.ok true, g3)) := by
  have hw := (build_inv calls).1
  constructor
  · intro E hE
    obtain ⟨g0, n, r, g2, path, h0, h1, _, h3, h4, h5⟩ := not_query_main hw E hE ha hb hab
    refine ⟨g0, n, r, g2, path, h0, h1, ?_⟩
    rw [← h3]
    cases r with
    | false => simp [h4 rfl]
    | true =>
      have := (h5 rfl).1.1
      constructor
      · intro _; rfl
      · intro _ hnil
        rw [hnil] at this
        simp at this
  · intro c hc hex hall
    obtain ⟨g0, n, r, g2, path, h0, h1, _, h3, h4, _⟩ :=
      not_query_main hw [c] (fun e he => by simp at he; rw [he]; exact hc) ha hb hab
    obtain ⟨g1, n1, r1, g3, path1, k0, k1, _, k3, _, _⟩ :=
      not_query_main hw [] (fun e he => by simp at he) ha hb hab
    have hg1 : g1 = (build calls).clear_metadata := by
      simp only [mark_exclusions, Prod.mk.injEq, true_and] at k0
      exact k0.symm
    subst hg1
    have hr : r = false := by
      cases r with
      | false => rfl
      | true =>
        obtain ⟨p, hp, hav⟩ := h3.1 rfl
        exact absurd (by simp) (hav c (hall p hp))
    have hr1 : r1 = true := by
      obtain ⟨p, hp⟩ := hex
      exact k3.2 ⟨p, hp, fun v _ => by simp⟩
    subst hr hr1
    have hpath := h4 rfl
    subst hpath
    refine ⟨g0, max n n1, g2, g3, h0, fun fuel hfu => ?_⟩
    exact ⟨(h1 fuel (by omega)).1, (h1 fuel (by omega)).2, (k1 fuel (by omega)).1⟩

/-- C4, on the scenario `X`-`Y`-`Z`: the query from `X` to `Z`. -/
theorem exclusion_removes_reachability_witness :
    (build callsXYZ).is_vertex artistX = true ∧ (build callsXYZ).is_vertex artistZ = true ∧
    artistX ≠ artistZ ∧
    ((∀ E : List Artist, (∀ e, e ∈ E → (build callsXYZ).is_vertex e = true) →
      ∃ (g0 : CollabGraph) (n : Nat) (r : Bool) (g2 : CollabGraph) (path : List Artist),
        mark_exclusions (build callsXYZ).clear_metadata E = (.ok (), g0) ∧
        (∀ fuel, n ≤ fuel →
          bfs fuel g0 artistX artistZ = (.ok r, g2) ∧
          g2.report_path fuel artistX artistZ = .ok path) ∧
        (path ≠ [] ↔
          ∃ p, (build callsXYZ).IsPath artistX artistZ p ∧ ∀ v, v ∈ p → v ∉ E)) ∧
    (∀ c : Artist, (build callsXYZ).is_vertex c = true →
      (∃ p, (build callsXYZ).IsPath artistX artistZ p) →
      (∀ p, (build callsXYZ).IsPath artistX artistZ p → c ∈ p) →
      ∃ (g0 : CollabGraph) (n : Nat) (g2 g3 : CollabGraph),
        mark_exclusions (build callsXYZ).clear_metadata [c] = (.ok (), g0) ∧
        ∀ fuel, n ≤ fuel →
          bfs fuel g0 artistX artistZ = (.ok false, g2) ∧
          g2.report_path fuel artistX artistZ = .ok [] ∧
          bfs fuel (build callsXYZ).clear_metadata artistX artistZ = (.ok true, g3))) ∧
    (prepNot 10 (build callsXYZ) ["X", "Z", "Y", "*"] []).2.2.2 =
      ["A path does not exist between \"X\" and \"Z\"."] :=
  ⟨by decide, by decide, by decide,
    exclusion_removes_reachability callsXYZ artistX artistZ (by decide) (by decide) (by decide),
    by decide⟩

/-- C6. If an endpoint of a `not` query is in the exclusion set, the query
reports no path: on a built store, for existing vertices `a`, `b` and a list
`E` of existing vertices containing `a` or `b`, after `clear_metadata` and the
marking of `E`, `bfs(a,b)` returns `false` and `report_path(a,b)` is empty. -/
theorem excluded_endpoint_no_path (calls : List Call) (E : List Artist) (a b : Artist)
    (hE : ∀ e, e ∈ E → (build calls).is_vertex e = true)
    (ha : (build calls).is_vertex a = true) (hb : (build calls).is_vertex b = true)
    (hin : a ∈ E ∨ b ∈ E) :
    ∃ (g0 : CollabGraph) (n : Nat) (g2 : CollabGraph),
      mark_exclusions (build calls).clear_metadata E = (.ok (), g0) ∧
      ∀ fuel, n ≤ fuel →
        bfs fuel g0 a b = (.ok false, g2) ∧ g2.report_path fuel a b = .ok [] := by
  have hw := (build_inv calls).1
  by_cases hab : a = b
  · subst hab
    obtain ⟨c1, _, _⟩ := (build calls).clear_metadata_spec
    obtain ⟨g0, m1, m2, _, _⟩ := mark_exclusions_spec E (build calls).clear_metadata
      (fun e he => by rw [(c1 e).1]; exact hE e he)
    refine ⟨g0, 0, g0, m1, fun fuel _ => ⟨by simp [bfs], ?_⟩⟩
    exact report_path_same g0 a (by rw [(m2 a).1, (c1 a).1]; exact ha) fuel
  · obtain ⟨g0, n, r, g2, path, h0, h1, _, h3, h4, _⟩ := not_query_main hw E hE ha hb hab
    have hr : r = false := by
      cases r with
      | false => rfl
      | true =>
        obtain ⟨p, hp, hav⟩ := h3.1 rfl
        have hap : a ∈ p := by
          have := hp.1
          cases p with
          | nil => simp at this
          | cons c cs =>
            simp only [List.head?_cons, Option.some.injEq] at this
            simp [this]
        have hbp : b ∈ p := List.mem_of_mem_getLast? hp.2.1
        rcases hin with hin | hin
        · exact absurd hin (hav a hap)
        · exact absurd hin (hav b hbp)
    subst hr
    have hpath := h4 rfl
    subst hpath
    exact ⟨g0, n, g2, h0, h1⟩

/-- C6, on the scenario: `X` and `Y` are adjacent and `Y`, the destination, is
excluded. -/
theorem excluded_endpoint_no_path_witness :
    (∀ e, e ∈ [artistY] → (build callsXYZ).is_vertex e = true) ∧
    (build callsXYZ).is_vertex artistX = true ∧ (build callsXYZ).is_vertex artistY = true ∧
    (artistX ∈ [artistY] ∨ artistY ∈ [artistY]) ∧
    (∃ (g0 : CollabGraph) (n : Nat) (g2 : CollabGraph),
      mark_exclusions (build callsXYZ).clear_metadata [artistY] = (.ok (), g0) ∧
      ∀ fuel, n ≤ fuel →
        bfs fuel g0 artistX artistY = (.ok false, g2) ∧
        g2.report_path fuel artistX artistY = .ok []) ∧
    (build callsXYZ).get_edge artistX artistY = .ok "S1" ∧
    (prepNot 10 (build callsXYZ) ["X", "Y", "Y", "*"] []).2.2.2 =
      ["A path does not exist between \"X\" and \"Y\"."] :=
  ⟨by decide, by decide, by decide, by decide,
    excluded_endpoint_no_path callsXYZ [artistY] artistX artistY (by decide) (by decide)
      (by decide) (by decide), by decide, by decide⟩


theorem unknown_ne_empty (x : String) :
    "artist \"" ++ x ++ "\" does not exist in the collaboration graph" ≠
      "the empty string is not a valid edge name" := by
  intro h
  have := congrArg String.data h
  simp at this

theorem unknown_ne_loop (x : String) :
    "artist \"" ++ x ++ "\" does not exist in the collaboration graph" ≠
      "cannot insert an edge between a vertex and itself" := by
  intro h
  have := congrArg String.data h
  simp at this

theorem report_path_loop_vertices (g : CollabGraph) (source : Artist)
    (hs : g.is_vertex source = true) :
    ∀ (fuel : Nat) (p : Option String) (acc path : List Artist),
      g.report_path_loop source fuel p acc = .ok path →
      (∀ v, v ∈ acc → g.is_vertex v = true) → ∀ v, v ∈ path → g.is_vertex v = true := by
  intro fuel
  induction fuel with
  | zero => intro p acc path h; simp [report_path_loop] at h
  | succ f ih =>
    intro p acc path h hacc
    cases p with
    | none => simp [report_path_loop] at h
    | some key =>
      cases hf : g.find key with
      | none => simp [report_path_loop, hf] at h
      | some pathing =>
        have hpv : g.is_vertex pathing.artist = true := by
          rw [is_vertex_iff]
          exact ⟨pathing, by rw [find_name hf]; exact hf⟩
        by_cases hne : pathing.artist = source
        · simp only [report_path_loop, hf, hne, ne_eq, not_true_eq_false, if_false,
            Except.ok.injEq] at h
          intro v hv
          rw [← h] at hv
          rcases List.mem_cons.1 hv with hv | hv
          · rw [hv]; exact hs
          · exact hacc v hv
        · simp only [report_path_loop, hf, ne_eq, hne, not_false_eq_true, if_true] at h
          refine ih _ _ _ h ?_
          intro v hv
          rcases List.mem_cons.1 hv with hv | hv
          · rw [hv]; exact hpv
          · exact hacc v hv

theorem report_path_vertices {g : CollabGraph} {fuel : Nat} {a b : Artist}
    {path : List Artist} (h : g.report_path fuel a b = .ok path) :
    (path ≠ [] → a ≠ b) ∧ ∀ v, v ∈ path → g.is_vertex v = true := by
  cases ha : g.is_vertex a with
  | false => simp [report_path, enforce_error ha] at h
  | true =>
  cases hb : g.is_vertex b with
  | false => simp [report_path, enforce_ok ha, enforce_error hb] at h
  | true =>
  obtain ⟨v, hv⟩ := is_vertex_iff.1 hb
  by_cases hab : a = b
  · simp only [report_path, enforce_ok ha, enforce_ok hb, hab, if_true, Except.ok.injEq] at h
    subst h
    exact ⟨fun h => absurd rfl h, fun v hv => by simp at hv⟩
  · refine ⟨fun _ => hab, ?_⟩
    by_cases hp : v.predecessor = none
    · simp only [report_path, enforce_ok ha, enforce_ok hb, hab, if_false, at_key, hv, hp,
        if_true, Except.ok.injEq] at h
      subst h
      intro v hv
      simp at hv
    · simp only [report_path, enforce_ok ha, enforce_ok hb, hab, if_false, at_key, hv, hp] at h
      exact report_path_loop_vertices g a ha _ _ _ _ h (fun v hv => by simp at hv)

theorem print_loop_spec (g : CollabGraph) :
    ∀ (path : List Artist) (output : List String), (∀ v, v ∈ path → g.is_vertex v = true) →
      print_loop g path output = (.ok (), output ++
        List.zipWith (fun u v => step_line u v (edge_scan (g.edges u) v)) path path.tail) := by
  intro path
  induction path with
  | nil => intro output _; simp [print_loop]
  | cons u rest ih =>
    intro output hv
    cases rest with
    | nil => simp [print_loop]
    | cons w rest2 =>
      have hu := hv u (List.mem_cons_self _ _)
      have hw := hv w (List.mem_cons_of_mem _ (List.mem_cons_self _ _))
      simp only [print_loop, get_edge_eq hu hw, List.tail_cons, List.zipWith_cons_cons]
      rw [ih _ (fun x hx => hv x (List.mem_cons_of_mem _ hx))]
      simp

/-- C7. Output contract of `print`: whenever `report_path(a,b)` is a non-empty
path, `print` writes one line for each pair of consecutive vertices of the path,
in source-to-destination order, the line of the pair `u`, `v` being
`"u" collaborated with "v" in "L".` with `L` the label returned by
`get_edge(u, v)`, and then the line `***`; the number of step lines is the
number of edges of the path. -/
theorem print_output_contract (g : CollabGraph) (fuel : Nat) (a b : Artist)
    (path : List Artist) (output : List String)
    (hpath : g.report_path fuel a b = .ok path) (hne : path ≠ []) :
    print fuel g output a b = (.ok (), output ++
      List.zipWith (fun u v => step_line u v (edge_scan (g.edges u) v)) path path.tail ++
      ["***"]) ∧
    (List.zipWith (fun u v => step_line u v (edge_scan (g.edges u) v)) path
      path.tail).length = path.length - 1 ∧
    ∀ u v, (u, v) ∈ List.zip path path.tail →
      g.get_edge u v = .ok (edge_scan (g.edges u) v) := by
  obtain ⟨h1, h2⟩ := report_path_vertices hpath
  have hab := h1 hne
  refine ⟨?_, by simp, ?_⟩
  · have hemp : path.isEmpty = false := by
      cases path with
      | nil => exact absurd rfl hne
      | cons _ _ => rfl
    simp only [print, hpath, hemp, hab, decide_False, Bool.or_self, Bool.false_eq_true,
      if_false, print_loop_spec g path output h2]
  · intro u v huv
    have hu := h2 u (List.of_mem_zip huv).1
    have hv := h2 v (List.mem_of_mem_tail (List.of_mem_zip huv).2)
    exact get_edge_eq hu hv

/-- C7, on the scenario `X`-`Y`-`Z`: the output of the `bfs` query from `X` to
`Z`, by the contract and by evaluation of `prepBFS`. -/
theorem print_output_contract_witness :
    (bfs 10 (build callsXYZ).clear_metadata artistX artistZ).2.report_path 10 artistX artistZ
      = .ok [artistX, artistY, artistZ] ∧
    [artistX, artistY, artistZ] ≠ [] ∧
    print 10 (bfs 10 (build callsXYZ).clear_metadata artistX artistZ).2 [] artistX artistZ =
      (.ok (), ["\"X\" collaborated with \"Y\" in \"S1\".",
        "\"Y\" collaborated with \"Z\" in \"S2\".", "***"]) ∧
    (prepBFS 10 (build callsXYZ) ["X", "Z"] []).2.2.2 =
      ["\"X\" collaborated with \"Y\" in \"S1\".",
        "\"Y\" collaborated with \"Z\" in \"S2\".", "***"] :=
  ⟨by decide, by decide,
    ((print_output_contract (bfs 10 (build callsXYZ).clear_metadata artistX artistZ).2 10
      artistX artistZ [artistX, artistY, artistZ] [] (by decide) (by decide)).1).trans
      (by decide),
    by decide⟩

/-- C5. Same-entity query: for every store and every existing vertex `a`, on
cleared metadata `bfs(a,a)` returns `false` and leaves the store as it is,
`dfs(a,a)` returns (with `true`), after either of them `report_path(a,a)` is the
empty path and `print` writes the single line "A path does not exist ...", and so
do the `bfs` and `dfs` queries read from the input. -/
theorem same_entity_query (g : CollabGraph) (a : Artist) (ha : g.is_vertex a = true)
    (fuel : Nat) (input output : List String) :
    bfs fuel g.clear_metadata a a = (.ok false, g.clear_metadata) ∧
    g.clear_metadata.report_path fuel a a = .ok [] ∧
    print fuel g.clear_metadata output a a = (.ok (), output ++ [no_path_line a a]) ∧
    prepBFS fuel g (a.get_name :: a.get_name :: input) output =
      (.ok (), g.clear_metadata, input, output ++ [no_path_line a a]) ∧
    ∃ g1, dfs (fuel + 1) g.clear_metadata a a = (.ok true, g1) ∧
      g1.report_path fuel a a = .ok [] ∧
      print fuel g1 output a a = (.ok (), output ++ [no_path_line a a]) ∧
      prepDFS (fuel + 1) g (a.get_name :: a.get_name :: input) output =
        (.ok (), g1, input, output ++ [no_path_line a a]) := by
  have hc : g.clear_metadata.is_vertex a = true := by
    rw [(g.clear_metadata_spec.1 a).1]; exact ha
  have hbfs : bfs fuel g.clear_metadata a a = (.ok false, g.clear_metadata) := by
    simp [bfs]
  have hrp := report_path_same g.clear_metadata a hc fuel
  have hprint : ∀ (f : Nat) (h : CollabGraph), h.is_vertex a = true →
      print f h output a a = (.ok (), output ++ [no_path_line a a]) := by
    intro f h hh
    simp [print, report_path_same h a hh f]
  have hmk : Artist.mk a.get_name = a := rfl
  have hcheck : checkDFSBFS g.clear_metadata a a output = (true, output) := by
    simp [checkDFSBFS, hc]
  refine ⟨hbfs, hrp, hprint fuel _ hc, ?_, ?_⟩
  · simp only [prepBFS, getline, hmk, hcheck, hbfs, hprint fuel _ hc]
  · obtain ⟨g1, m1, m2, _, _⟩ := mark_vertex_spec hc
    have h1 : g1.is_vertex a = true := by rw [(m2 a).1]; exact hc
    have hdfs : ∀ f, dfs (f + 1) g.clear_metadata a a = (.ok true, g1) := by
      intro f
      simp [dfs, m1]
    refine ⟨g1, hdfs fuel, report_path_same g1 a h1 fuel, hprint fuel g1 h1, ?_⟩
    simp only [prepDFS, getline, hmk, hcheck, hdfs fuel, hprint (fuel + 1) g1 h1]

/-- C5, on the scenario: `Y` has two neighbours. -/
theorem same_entity_query_witness :
    (build callsXYZ).is_vertex artistY = true ∧
    (build callsXYZ).get_vertex_neighbors artistY = .ok [artistX, artistZ] ∧
    (bfs 5 (build callsXYZ).clear_metadata artistY artistY =
      (.ok false, (build callsXYZ).clear_metadata) ∧
    (build callsXYZ).clear_metadata.report_path 5 artistY artistY = .ok [] ∧
    print 5 (build callsXYZ).clear_metadata [] artistY artistY =
      (.ok (), [] ++ [no_path_line artistY artistY]) ∧
    prepBFS 5 (build callsXYZ) (artistY.get_name :: artistY.get_name :: []) [] =
      (.ok (), (build callsXYZ).clear_metadata, [], [] ++ [no_path_line artistY artistY]) ∧
    ∃ g1, dfs (5 + 1) (build callsXYZ).clear_metadata artistY artistY = (.ok true, g1) ∧
      g1.report_path 5 artistY artistY = .ok [] ∧
      print 5 g1 [] artistY artistY = (.ok (), [] ++ [no_path_line artistY artistY]) ∧
      prepDFS (5 + 1) (build callsXYZ) (artistY.get_name :: artistY.get_name :: []) [] =
        (.ok (), g1, [], [] ++ [no_path_line artistY artistY])) :=
  ⟨by decide, by decide, same_entity_query (build callsXYZ) artistY (by decide) 5 [] []⟩

/-- C8. Edge symmetry: in every store built from the empty store by a sequence
of `insert_vertex` and `insert_edge` calls (failed calls included),
`get_edge(a,b)` equals `get_edge(b,a)` for all existing vertices `a` and `b`. -/
theorem edge_symmetry (calls : List Call) (a b : Artist)
    (ha : (build calls).is_vertex a = true) (hb : (build calls).is_vertex b = true) :
    (build calls).get_edge a b = (build calls).get_edge b a := by
  rw [get_edge_eq ha hb, get_edge_eq hb ha, (build_inv calls).2 a b ha hb]

/-- C8, on the scenario with a failed call added: the label between `X` and `Y`. -/
theorem edge_symmetry_witness :
    (build (callsXYZ ++ [.insert_edge artistX artistX "S3"])).is_vertex artistX = true ∧
    (build (callsXYZ ++ [.insert_edge artistX artistX "S3"])).is_vertex artistY = true ∧
    (build (callsXYZ ++ [.insert_edge artistX artistX "S3"])).get_edge artistX artistY =
      (build (callsXYZ ++ [.insert_edge artistX artistX "S3"])).get_edge artistY artistX :=
  ⟨by decide, by decide,
    edge_symmetry (callsXYZ ++ [.insert_edge artistX artistX "S3"]) artistX artistY
      (by decide) (by decide)⟩

/-- C9. No self-loops: for every store, every artist `a` (present or absent)
and every label (empty or not), `insert_edge(a,a,label)` throws and leaves the
store exactly as it was. -/
theorem no_self_loops (g : CollabGraph) (a : Artist) (label : String) :
    ∃ e, g.insert_edge a a label = (.error e, g) := by
  cases h1 : g.is_vertex a with
  | false =>
    exact ⟨.runtime_error
      ("artist \"" ++ a.get_name ++ "\" does not exist in the collaboration graph"),
      by simp [insert_edge, enforce_error h1]⟩
  | true =>
    by_cases hl : label = ""
    · exact ⟨.runtime_error "the empty string is not a valid edge name",
        by simp [insert_edge, enforce_ok h1, hl]⟩
    · exact ⟨.runtime_error "cannot insert an edge between a vertex and itself",
        by simp [insert_edge, enforce_ok h1, hl]⟩

/-- C10. `insert_edge` fails exactly in the documented cases: it throws the
unknown-vertex error if and only if an endpoint is not a vertex; when both
endpoints are vertices it throws an invalid-edge error if and only if the label
is empty or `a1 = a2`; when both endpoints are vertices, the label is non-empty
and `a1 ≠ a2` it returns without error; and whenever it throws, the store is
unchanged. -/
theorem insert_edge_failure_cases (g : CollabGraph) (a1 a2 : Artist) (l : String) :
    ((∃ x : Artist, (g.insert_edge a1 a2 l).1 = .error (.runtime_error
        ("artist \"" ++ x.get_name ++ "\" does not exist in the collaboration graph"))) ↔
      (g.is_vertex a1 = false ∨ g.is_vertex a2 = false)) ∧
    (g.is_vertex a1 = true → g.is_vertex a2 = true →
      (((g.insert_edge a1 a2 l).1 =
          .error (.runtime_error "the empty string is not a valid edge name") ∨
        (g.insert_edge a1 a2 l).1 =
          .error (.runtime_error "cannot insert an edge between a vertex and itself")) ↔
        (l = "" ∨ a1 = a2))) ∧
    (g.is_vertex a1 = true → g.is_vertex a2 = true → l ≠ "" → a1 ≠ a2 →
      (g.insert_edge a1 a2 l).1 = .ok ()) ∧
    (∀ e, (g.insert_edge a1 a2 l).1 = .error e → (g.insert_edge a1 a2 l).2 = g) := by
  cases h1 : g.is_vertex a1 with
  | false =>
    have hv : g.insert_edge a1 a2 l = (.error (.runtime_error
        ("artist \"" ++ a1.get_name ++ "\" does not exist in the collaboration graph")), g) := by
      simp [insert_edge, enforce_error h1]
    rw [hv]
    refine ⟨⟨fun _ => Or.inl rfl, fun _ => ⟨a1, rfl⟩⟩, fun h => by simp at h,
      fun h => by simp at h, fun _ _ => rfl⟩
  | true =>
  cases h2 : g.is_vertex a2 with
  | false =>
    have hv : g.insert_edge a1 a2 l = (.error (.runtime_error
        ("artist \"" ++ a2.get_name ++ "\" does not exist in the collaboration graph")), g) := by
      simp [insert_edge, enforce_ok h1, enforce_error h2]
    rw [hv]
    refine ⟨⟨fun _ => Or.inr rfl, fun _ => ⟨a2, rfl⟩⟩, fun _ h => by simp at h,
      fun _ h => by simp at h, fun _ _ => rfl⟩
  | true =>
  by_cases hl : l = ""
  · have hv : g.insert_edge a1 a2 l =
        (.error (.runtime_error "the empty string is not a valid edge name"), g) := by
      simp [insert_edge, enforce_ok h1, enforce_ok h2, hl]
    rw [hv]
    refine ⟨⟨?_, fun h => by simp at h⟩, fun _ _ => ⟨fun _ => Or.inl hl, fun _ => Or.inl rfl⟩,
      fun _ _ h => absurd hl h, fun _ _ => rfl⟩
    rintro ⟨x, hx⟩
    simp only [Except.error.injEq, Error.runtime_error.injEq] at hx
    exact absurd hx.symm (unknown_ne_empty x.get_name)
  by_cases ha : a1 = a2
  · have hv : g.insert_edge a1 a2 l =
        (.error (.runtime_error "cannot insert an edge between a vertex and itself"), g) := by
      simp [insert_edge, enforce_ok h1, enforce_ok h2, hl, ha]
    rw [hv]
    refine ⟨⟨?_, fun h => by simp at h⟩, fun _ _ => ⟨fun _ => Or.inr ha, fun _ => Or.inr rfl⟩,
      fun _ _ _ h => absurd ha h, fun _ _ => rfl⟩
    rintro ⟨x, hx⟩
    simp only [Except.error.injEq, Error.runtime_error.injEq] at hx
    exact absurd hx.symm (unknown_ne_loop x.get_name)
  · have hv : (g.insert_edge a1 a2 l).1 = .ok () := by
      by_cases hs : edge_scan (g.edges a1) a2 = ""
      · simp [insert_edge, enforce_ok h1, enforce_ok h2, hl, ha, get_edge_eq h1 h2, hs]
      · simp [insert_edge, enforce_ok h1, enforce_ok h2, hl, ha, get_edge_eq h1 h2, hs]
    rw [hv]
    refine ⟨⟨fun ⟨x, hx⟩ => by simp at hx, fun h => by simp at h⟩,
      fun _ _ => ⟨fun h => by simp at h, fun h => ?_⟩, fun _ _ _ _ => rfl,
      fun e h => by simp at h⟩
    rcases h with h | h
    · exact absurd h hl
    · exact absurd h ha


theorem LinkedN.mono {g h : CollabGraph} {s v : Artist} {n : Nat} (hl : LinkedN g s n v)
    (hs : g.SameShape h) (hext : ∀ v p, g.prd v = some p → h.prd v = some p) :
    LinkedN h s n v := by
  induction hl with
  | root => exact LinkedN.root
  | link hp hm _ ih => exact LinkedN.link (hext _ _ hp) (by rw [hs.nbrs]; exact hm) ih

/-- Following the predecessor links from a linked vertex reaches the source. -/
theorem linked_chain {g : CollabGraph} {s v : Artist} {n : Nat} (hl : LinkedN g s n v)
    (ha : g.is_vertex s = true) :
    ∃ chain : List Artist, chain.head? = some s ∧ chain.getLast? = some v ∧
      List.Chain' (fun u w => w ∈ g.nbrs u) chain ∧
      ∀ fuel acc, n + 1 ≤ fuel →
        g.report_path_loop s fuel (some v.get_name) acc = .ok (chain ++ acc) := by
  induction hl with
  | root =>
    refine ⟨[s], rfl, rfl, by simp, fun fuel acc hfu => ?_⟩
    obtain ⟨f, rfl⟩ : ∃ f, fuel = f + 1 := ⟨fuel - 1, by omega⟩
    rw [report_path_loop_stop ha]
    rfl
  | link hp hm hl2 ih =>
    rename_i m v p
    obtain ⟨chain, e1, e2, e3, e4⟩ := ih
    by_cases hva : v = s
    · subst hva
      refine ⟨[v], rfl, rfl, by simp, fun fuel acc hfu => ?_⟩
      obtain ⟨f, rfl⟩ : ∃ f, fuel = f + 1 := ⟨fuel - 1, by omega⟩
      rw [report_path_loop_stop ha]
      rfl
    · refine ⟨chain ++ [v], ?_, by simp, ?_, fun fuel acc hfu => ?_⟩
      · cases chain with
        | nil => simp at e1
        | cons c cs => simpa using e1
      · rw [List.chain'_append]
        refine ⟨e3, by simp, ?_⟩
        intro x hx y hy
        rw [e2] at hx
        simp only [Option.mem_def, Option.some.injEq] at hx
        simp only [List.head?_cons, Option.mem_def, Option.some.injEq] at hy
        subst hx hy
        exact hm
      · obtain ⟨f, rfl⟩ : ∃ f, fuel = f + 1 := ⟨fuel - 1, by omega⟩
        rw [report_path_loop_step (prd_vertex hp) hva, hp]
        simp only [Option.map_some']
        rw [e4 f (v :: acc) (by omega)]
        simp

theorem DfsPost.comp {s b : Artist} {g h k : CollabGraph} (h1 : DfsPost s b g h)
    (h2 : DfsPost s b h k) : DfsPost s b g k where
  shape := h1.shape.trans h2.shape
  mono := fun v hv => h2.mono v (h1.mono v hv)
  ext := fun v p hp => h2.ext v p (h1.ext v p hp)
  fresh := h2.fresh
  linked := h2.linked
  closure := fun u hu hg hub w hw => by
    cases hh : h.vis u with
    | false => exact h2.closure u hu hh hub w hw
    | true =>
      rw [h2.shape.nbrs] at hw
      exact h2.mono w (h1.closure u hh hg hub w hw)

theorem DfsPost.same {s b : Artist} {g : CollabGraph}
    (hfresh : ∀ v, g.vis v = false → g.prd v = none)
    (hlinked : ∀ v, g.vis v = true → ∃ n, LinkedN g s n v) : DfsPost s b g g where
  shape := SameShape.refl g
  mono := fun _ h => h
  ext := fun _ _ h => h
  fresh := hfresh
  linked := hlinked
  closure := fun u h1 h2 => by rw [h1] at h2; exact absurd h2 (by simp)

/-- A step that changes no mark and only adds predecessors, before a call. -/
theorem DfsPost.after_step {s b : Artist} {g g1 h : CollabGraph} (hp : DfsPost s b g1 h)
    (hs : g.SameShape g1) (hv : ∀ v, g.vis v = true → g1.vis v = true)
    (hv2 : ∀ v, g.vis v = false → v ≠ b → g1.vis v = true →
      ∀ w, w ∈ h.nbrs v → h.vis w = true)
    (hext : ∀ v p, g.prd v = some p → g1.prd v = some p) : DfsPost s b g h where
  shape := hs.trans hp.shape
  mono := fun v h0 => hp.mono v (hv v h0)
  ext := fun v p h0 => hp.ext v p (hext v p h0)
  fresh := hp.fresh
  linked := hp.linked
  closure := fun u hu hg hub w hw => by
    cases h1 : g1.vis u with
    | false => exact hp.closure u hu h1 hub w hw
    | true => exact hv2 u hg hub h1 w hw

theorem countP_unmarked_le {g h : CollabGraph} (V : List Artist)
    (hmono : ∀ v, g.vis v = true → h.vis v = true) :
    V.countP (fun v => !h.vis v) ≤ V.countP (fun v => !g.vis v) := by
  apply List.countP_mono_left
  intro v _ hv
  cases hg : g.vis v with
  | false => rfl
  | true => rw [hmono v hg] at hv; simp at hv

theorem dfs_neighbors_spec {g0 : CollabGraph} (hw : g0.WellFormed) {s b a : Artist}
    (V : List Artist) (m : Nat)
    (rec_dfs : Nat → CollabGraph → Artist → Except Error Bool × CollabGraph)
    (hrec : ∀ (g : CollabGraph) (t : Artist), g0.SameShape g → g.is_vertex t = true →
      g.vis t = false → (∀ v, v ≠ t → g.vis v = false → g.prd v = none) →
      (∀ v, g.vis v = true → ∃ n, LinkedN g s n v) → (∃ n, LinkedN g s n t) →
      V.countP (fun v => !g.vis v) ≤ m →
      ∃ r h, (∀ f, m ≤ f → rec_dfs f g t = (.ok r, h)) ∧ DfsPost s b g h ∧
        h.vis t = true) :
    ∀ (rest : List Artist) (g : CollabGraph), g0.SameShape g → g.vis a = true →
      (∀ t, t ∈ rest → t ∈ g0.nbrs a) → (∀ v, g.vis v = false → g.prd v = none) →
      (∀ v, g.vis v = true → ∃ n, LinkedN g s n v) → V.countP (fun v => !g.vis v) ≤ m →
      ∃ h, (∀ f, m ≤ f → dfs_neighbors (rec_dfs f) a g rest = (.ok (), h)) ∧
        DfsPost s b g h ∧ ∀ t, t ∈ rest → h.vis t = true := by
  intro rest
  induction rest with
  | nil =>
    intro g _ _ _ hfresh hlinked _
    exact ⟨g, fun _ _ => rfl, DfsPost.same hfresh hlinked, fun t ht => by simp at ht⟩
  | cons t rest ih =>
    intro g hs ha hsub hfresh hlinked hcount
    have hta : t ∈ g0.nbrs a := hsub t (List.mem_cons_self _ _)
    have htv : g.is_vertex t = true := by rw [(hs t).1]; exact hw.closed a t hta
    have hsub2 : ∀ u, u ∈ rest → u ∈ g0.nbrs a := fun u hu => hsub u (List.mem_cons_of_mem _ hu)
    cases hvt : g.vis t with
    | true =>
      obtain ⟨h, e1, e2, e3⟩ := ih g hs ha hsub2 hfresh hlinked hcount
      refine ⟨h, ?_, e2, ?_⟩
      · intro f hf
        simp only [dfs_neighbors, is_marked_eq htv, hvt]
        exact e1 f hf
      · intro u hu
        rcases List.mem_cons.1 hu with hu | hu
        · rw [hu]; exact e2.mono t hvt
        · exact e3 u hu
    | false =>
      obtain ⟨g1, s1, s2, s3, s4⟩ := set_predecessor_spec htv (vis_vertex ha)
      have hpt : g.prd t = none := hfresh t hvt
      have hext : ∀ v p, g.prd v = some p → g1.prd v = some p := by
        intro v p hvp
        rw [s4]
        by_cases hc : v = t ∧ g.prd t = none
        · rw [hc.1, hpt] at hvp
          exact absurd hvp (by simp)
        · rw [if_neg hc]; exact hvp
      have hlinked1 : ∀ v, g1.vis v = true → ∃ n, LinkedN g1 s n v := by
        intro v hv
        rw [s3] at hv
        obtain ⟨n, hn⟩ := hlinked v hv
        exact ⟨n, hn.mono s2 hext⟩
      have hlt : ∃ n, LinkedN g1 s n t := by
        obtain ⟨n, hn⟩ := hlinked1 a (by rw [s3]; exact ha)
        refine ⟨n + 1, LinkedN.link ?_ ?_ hn⟩
        · rw [s4]; simp [hpt]
        · rw [(hs.trans s2).nbrs]; exact hta
      have hc1 : V.countP (fun v => !g1.vis v) ≤ m := by
        have : (fun v => !g1.vis v) = (fun v => !g.vis v) := by
          funext v; rw [s3]
        rw [this]; exact hcount
      obtain ⟨r, g2, r1, r2, r3⟩ := hrec g1 t (hs.trans s2) (by rw [(s2 t).1]; exact htv)
        (by rw [s3]; exact hvt)
        (fun v hvne hv => by
          rw [s4]
          have hc : ¬ (v = t ∧ g.prd t = none) := fun h => hvne h.1
          rw [if_neg hc]
          exact hfresh v (by rw [← s3]; exact hv))
        hlinked1 hlt hc1
      have hpost2 : DfsPost s b g g2 := by
        refine r2.after_step s2 (fun v hv => by rw [s3]; exact hv) ?_ hext
        intro v hv _ hv1
        rw [s3, hv] at hv1
        exact absurd hv1 (by simp)
      obtain ⟨h, e1, e2, e3⟩ := ih g2 ((hs.trans s2).trans r2.shape)
        (r2.mono a (by rw [s3]; exact ha)) hsub2 r2.fresh r2.linked
        (le_trans (countP_unmarked_le V r2.mono) hc1)
      refine ⟨h, ?_, hpost2.comp e2, ?_⟩
      · intro f hf
        simp only [dfs_neighbors, is_marked_eq htv, hvt, s1, r1 f hf]
        exact e1 f hf
      · intro u hu
        rcases List.mem_cons.1 hu with hu | hu
        · rw [hu]; exact e2.mono t r3
        · exact e3 u hu

theorem dfs_spec {g0 : CollabGraph} (hw : g0.WellFormed) {s b : Artist} (V : List Artist)
    (hV : ∀ x, g0.is_vertex x = true → x ∈ V) :
    ∀ (m : Nat) (g : CollabGraph) (x : Artist), g0.SameShape g →
      g.is_vertex x = true → g.vis x = false →
      (∀ v, v ≠ x → g.vis v = false → g.prd v = none) →
      (∀ v, g.vis v = true → ∃ n, LinkedN g s n v) → (∃ n, LinkedN g s n x) →
      V.countP (fun v => !g.vis v) ≤ m →
      ∃ h, (∀ fuel, m ≤ fuel → dfs fuel g x b = (.ok (decide (x = b)), h)) ∧
        DfsPost s b g h ∧ h.vis x = true := by
  intro m
  induction m with
  | zero =>
    intro g x hs hx hvx _ _ _ hcount
    have hxV : x ∈ V := hV x (by rw [← (hs x).1]; exact hx)
    have : 0 < V.countP (fun v => !g.vis v) :=
      List.countP_pos_iff.2 ⟨x, hxV, by simp [hvx]⟩
    omega
  | succ m ih =>
    intro g x hs hx hvx hfresh hlinked hlx hcount
    obtain ⟨g1, m1, m2, m3, m4⟩ := mark_vertex_spec hx
    have hxV : x ∈ V := hV x (by rw [← (hs x).1]; exact hx)
    have hx1 : g1.vis x = true := by simp [m3]
    have hmono1 : ∀ v, g.vis v = true → g1.vis v = true := fun v hv => by simp [m3, hv]
    have hc1 : V.countP (fun v => !g1.vis v) ≤ m := by
      have hlt : V.countP (fun v => !g1.vis v) < V.countP (fun v => !g.vis v) := by
        apply countP_lt_of_mem V _ _ _ x hxV
        · simp [hvx]
        · simp [hx1]
        · intro z hz
          cases hg : g.vis z with
          | false => rfl
          | true => rw [hmono1 z hg] at hz; simp at hz
      omega
    have hext1 : ∀ v p, g.prd v = some p → g1.prd v = some p := fun v p h => by
      rw [m4]; exact h
    have hfresh1 : ∀ v, g1.vis v = false → g1.prd v = none := by
      intro v hv
      rw [m3] at hv
      simp only [Bool.or_eq_false_iff, decide_eq_false_iff_not] at hv
      rw [m4]
      exact hfresh v hv.1 hv.2
    have hlinked1 : ∀ v, g1.vis v = true → ∃ n, LinkedN g1 s n v := by
      intro v hv
      by_cases hvx2 : v = x
      · obtain ⟨n, hn⟩ := hlx
        rw [hvx2]
        exact ⟨n, hn.mono m2 hext1⟩
      · rw [m3] at hv
        simp only [hvx2, decide_False, Bool.false_or] at hv
        obtain ⟨n, hn⟩ := hlinked v hv
        exact ⟨n, hn.mono m2 hext1⟩
    by_cases hxb : x = b
    · refine ⟨g1, ?_, ?_, hx1⟩
      · intro fuel hfu
        obtain ⟨f, rfl⟩ : ∃ f, fuel = f + 1 := ⟨fuel - 1, by omega⟩
        subst hxb
        simp [dfs, m1]
      · refine (DfsPost.same hfresh1 hlinked1).after_step m2 hmono1 ?_ hext1
        intro v hv hvb hv1
        rw [m3, hv] at hv1
        simp only [Bool.or_false, decide_eq_true_eq] at hv1
        rw [hv1, hxb] at hvb
        exact absurd rfl hvb
    · have hnb : g1.get_vertex_neighbors x = .ok (g0.nbrs x) := by
        rw [get_vertex_neighbors_eq (by rw [(m2 x).1]; exact hx), (hs.trans m2).nbrs]
      obtain ⟨h, e1, e2, e3⟩ := dfs_neighbors_spec hw (s := s) (b := b) (a := x) V m
        (fun f g2 temp => dfs f g2 temp b)
        (fun g2 t c1 c2 c3 c4 c5 c6 c7 => by
          obtain ⟨h, d1, d2, d3⟩ := ih g2 t c1 c2 c3 c4 c5 c6 c7
          exact ⟨_, h, d1, d2, d3⟩)
        (g0.nbrs x) g1 (hs.trans m2) hx1 (fun _ ht => ht) hfresh1 hlinked1 hc1
      refine ⟨h, ?_, ?_, e2.mono x hx1⟩
      · intro fuel hfu
        obtain ⟨f, rfl⟩ : ∃ f, fuel = f + 1 := ⟨fuel - 1, by omega⟩
        simp only [dfs, m1, hxb, if_false, hnb, e1 f (by omega), decide_False]
      · refine e2.after_step m2 hmono1 ?_ hext1
        intro v hv _ hv1 w hw2
        rw [m3, hv] at hv1
        simp only [Bool.or_false, decide_eq_true_eq] at hv1
        rw [hv1, ((hs.trans m2).trans e2.shape).nbrs] at hw2
        exact e3 w hw2

/-- The depth-first search from `a` on cleared metadata of a well-formed store. -/
theorem dfs_main {g : CollabGraph} (hw : g.WellFormed) {a b : Artist}
    (ha : g.is_vertex a = true) :
    ∃ (n : Nat) (g2 : CollabGraph),
      (∀ fuel, n ≤ fuel → dfs fuel g.clear_metadata a b = (.ok (decide (a = b)), g2)) ∧
      DfsPost a b g.clear_metadata g2 ∧ g2.vis a = true := by
  obtain ⟨c1, c2, c3⟩ := g.clear_metadata_spec
  have hw0 : g.clear_metadata.WellFormed := c1.wellFormed hw
  obtain ⟨h, e1, e2, e3⟩ := dfs_spec hw0 (s := a) (b := b)
    (g.clear_metadata.graph.map (fun v => v.artist)) (fun x hx => mem_graph_of_is_vertex hx)
    _ g.clear_metadata a (SameShape.refl _) (by rw [(c1 a).1]; exact ha) (c2 a)
    (fun v _ _ => c3 v) (fun v hv => by rw [c2] at hv; exact absurd hv (by simp))
    ⟨0, LinkedN.root⟩ (le_refl _)
  exact ⟨_, h, e1, e2, e3⟩

/-- After the depth-first search, every vertex on a walk from the source is
marked, up to the first occurrence of the destination. -/
theorem dfs_marks_reachable {g0 g2 : CollabGraph} {a b : Artist} (hp : DfsPost a b g0 g2)
    (h0 : ∀ v, g0.vis v = false) (ha : g2.vis a = true) :
    ∀ (n : Nat) (v : Artist), ReachN g0 a n v → g2.vis b = true ∨ g2.vis v = true := by
  intro n v hr
  induction hr with
  | base => exact Or.inr ha
  | step hr2 hmem hw0 ih =>
    rename_i m u w
    rcases ih with ih | ih
    · exact Or.inl ih
    · by_cases hub : u = b
      · rw [hub] at ih; exact Or.inl ih
      · right
        exact hp.closure u ih (h0 u) hub w (by rw [hp.shape.nbrs]; exact hmem)

/-- C3. DFS correctness: on a store built by `insert_vertex` and `insert_edge`,
for existing vertices `a ≠ b` with `b` reachable from `a`, `dfs(a,b)` run on
cleared metadata returns, and the sequence then returned by `report_path(a,b)`
is non-empty, starts at `a`, ends at `b`, and every two consecutive vertices of
it are joined by an edge (`get_edge` of the pair is non-empty). -/
theorem dfs_reports_a_path (calls : List Call) (a b : Artist)
    (ha : (build calls).is_vertex a = true) (hb : (build calls).is_vertex b = true)
    (hab : a ≠ b) (hreach : ∃ p, (build calls).IsPath a b p) :
    ∃ (n : Nat) (r : Bool) (g2 : CollabGraph) (path : List Artist),
      (∀ fuel, n ≤ fuel →
        dfs fuel (build calls).clear_metadata a b = (.ok r, g2) ∧
        g2.report_path fuel a b = .ok path) ∧
      path ≠ [] ∧ path.head? = some a ∧ path.getLast? = some b ∧
      List.Chain' (build calls).Adj path := by
  have hw := (build_inv calls).1
  obtain ⟨c1, c2, c3⟩ := (build calls).clear_metadata_spec
  obtain ⟨n, g2, e1, e2, e3⟩ := dfs_main hw (b := b) ha
  obtain ⟨p, hp⟩ := hreach
  have hr : ReachN (build calls).clear_metadata a (p.length - 1) b :=
    reachN_of_chain _ a p b hp.1 hp.2.1 (chain_of_isPath hw c1 hp.2.2) (fun v _ => c2 v)
  have hvb : g2.vis b = true := by
    rcases dfs_marks_reachable e2 c2 e3 _ _ hr with h | h <;> exact h
  obtain ⟨k, hk⟩ := e2.linked b hvb
  have hs2 : (build calls).SameShape g2 := c1.trans e2.shape
  have ha2 : g2.is_vertex a = true := by rw [(hs2 a).1]; exact ha
  have hb2 : g2.is_vertex b = true := by rw [(hs2 b).1]; exact hb
  have hpb : g2.prd b ≠ none := by
    cases hk with
    | root => exact absurd rfl hab
    | link hpq _ _ => rw [hpq]; simp
  obtain ⟨chain, d1, d2, d3, d4⟩ := linked_chain hk ha2
  refine ⟨max n (k + 1), decide (a = b), g2, chain, fun fuel hfu => ⟨e1 fuel (by omega), ?_⟩,
    ?_, d1, d2, isPath_of_chain hw hs2 d3⟩
  · rw [report_path_some ha2 hb2 hab hpb]
    have := d4 fuel [] (by omega)
    simpa using this
  · intro hnil
    rw [hnil] at d1
    simp at d1

/-- C3, on the scenario `X`-`Y`-`Z`: the query from `X` to `Z`. -/
theorem dfs_reports_a_path_witness :
    (build callsXYZ).is_vertex artistX = true ∧ (build callsXYZ).is_vertex artistZ = true ∧
    artistX ≠ artistZ ∧ (∃ p, (build callsXYZ).IsPath artistX artistZ p) ∧
    (∃ (n : Nat) (r : Bool) (g2 : CollabGraph) (path : List Artist),
      (∀ fuel, n ≤ fuel →
        dfs fuel (build callsXYZ).clear_metadata artistX artistZ = (.ok r, g2) ∧
        g2.report_path fuel artistX artistZ = .ok path) ∧
      path ≠ [] ∧ path.head? = some artistX ∧ path.getLast? = some artistZ ∧
      List.Chain' (build callsXYZ).Adj path) ∧
    (dfs 10 (build callsXYZ).clear_metadata artistX artistZ).2.report_path 10 artistX artistZ =
      .ok [artistX, artistY, artistZ] :=
  ⟨by decide, by decide, by decide, ⟨[artistX, artistY, artistZ], isPath_XYZ⟩,
    dfs_reports_a_path callsXYZ artistX artistZ (by decide) (by decide) (by decide)
      ⟨[artistX, artistY, artistZ], isPath_XYZ⟩, by decide⟩


namespace CollabGraph

theorem is_marked_congr {g h : CollabGraph} (y : Artist)
    (hf : (h.find y.get_name).map (fun v => v.visited) =
      (g.find y.get_name).map (fun v => v.visited)) :
    h.is_marked y = g.is_marked y := by
  unfold is_marked enforce_valid_vertex is_vertex at_key
  cases h1 : h.find y.get_name <;> cases h2 : g.find y.get_name <;>
    simp [h1, h2] at hf ⊢
  exact hf

theorem get_vertex_neighbors_congr {g h : CollabGraph} (y : Artist)
    (hf : (h.find y.get_name).map (fun v => v.neighbors) =
      (g.find y.get_name).map (fun v => v.neighbors)) :
    h.get_vertex_neighbors y = g.get_vertex_neighbors y := by
  unfold get_vertex_neighbors enforce_valid_vertex is_vertex at_key
  cases h1 : h.find y.get_name <;> cases h2 : g.find y.get_name <;>
    simp [h1, h2] at hf ⊢
  rw [hf]

theorem get_predecessor_congr {g h : CollabGraph} (y : Artist)
    (ha : ∀ k, (h.find k).map (fun v => v.artist) = (g.find k).map (fun v => v.artist))
    (hf : (h.find y.get_name).map (fun v => v.predecessor) =
      (g.find y.get_name).map (fun v => v.predecessor)) :
    h.get_predecessor y = g.get_predecessor y := by
  unfold get_predecessor enforce_valid_vertex is_vertex at_key
  cases h1 : h.find y.get_name <;> cases h2 : g.find y.get_name <;>
    simp [h1, h2] at hf ⊢
  rename_i v w
  rw [hf]
  cases hp : w.predecessor with
  | none => rfl
  | some key =>
    have := ha key
    cases h3 : h.find key <;> cases h4 : g.find key <;> simp [h3, h4] at this ⊢
    exact this

theorem set_at_find_map {α : Type} (g : CollabGraph) (k : String) (f : Vertex → Vertex)
    (hf : ∀ v, (f v).artist = v.artist) (proj : Vertex → α)
    (hp : ∀ v, proj (f v) = proj v) (k2 : String) :
    ((g.set_at k f).find k2).map proj = (g.find k2).map proj := by
  rw [find_set_at g k k2 f hf]
  split
  · cases g.find k2 <;> simp [hp]
  · rfl

theorem set_at_find_other (g : CollabGraph) (k : String) (f : Vertex → Vertex)
    (hf : ∀ v, (f v).artist = v.artist) (k2 : String) (hk : k2 ≠ k) :
    (g.set_at k f).find k2 = g.find k2 := by
  rw [find_set_at g k k2 f hf, if_neg hk]

end CollabGraph

namespace CollabGraph

theorem enforce_unknown {g : CollabGraph} {a : Artist} (h : g.is_vertex a = false) :
    g.enforce_valid_vertex a = .error (unknown_vertex a) := by
  simp [enforce_valid_vertex, h, unknown_vertex]

/-- The effect of `unmark_vertex` on an existing vertex. -/
theorem unmark_vertex_spec {g : CollabGraph} {x : Artist} (h : g.is_vertex x = true) :
    ∃ g1, g.unmark_vertex x = (.ok (), g1) ∧ SameShape g g1 ∧
      (∀ y, g1.vis y = (!decide (y = x) && g.vis y)) ∧ (∀ y, g1.prd y = g.prd y) := by
  refine ⟨g.set_at x.get_name (fun v => { v with visited := false }),
    by simp [unmark_vertex, enforce_ok h], ?_, ?_, ?_⟩
  · exact set_at_sameShape _ _ _ (fun _ => rfl) (fun _ => rfl)
  · intro y
    obtain ⟨v, hv⟩ := is_vertex_iff.1 h
    rw [set_at_vis]
    · by_cases hy : y = x
      · subst hy; simp [hv]
      · simp [hy, name_eq_iff]
    · intro _; rfl
  · intro y
    rw [set_at_prd]
    · by_cases hk : y.get_name = x.get_name
      · simp only [hk, if_true, prd]
      · simp [hk]
    · intro _; rfl

theorem is_vertex_of_sameShape_find {g h : CollabGraph}
    (ha : ∀ k, (h.find k).map (fun v => v.artist) = (g.find k).map (fun v => v.artist))
    (y : Artist) : h.is_vertex y = g.is_vertex y := by
  have := ha y.get_name
  unfold is_vertex
  cases h1 : h.find y.get_name <;> cases h2 : g.find y.get_name <;> simp [h1, h2] at this ⊢

end CollabGraph

/-- C17. `mark_vertex`, `unmark_vertex` and `is_marked` throw the unknown-vertex
error when the artist is not a vertex (the mutators leaving the store as it
was) and return normally when it is, so each throws if and only if the artist
is not a vertex.  For an existing vertex `v`, `is_marked(v)` is `true` after
`mark_vertex(v)` and `false` after `unmark_vertex(v)`, and neither call changes
`is_marked` of another artist, `get_predecessor` or `get_vertex_neighbors` of
any artist, or the vertex set. -/
theorem mark_unmark_contract (g : CollabGraph) (v : Artist) :
    (g.is_vertex v = false →
      g.mark_vertex v = (.error (unknown_vertex v), g) ∧
      g.unmark_vertex v = (.error (unknown_vertex v), g) ∧
      g.is_marked v = .error (unknown_vertex v)) ∧
    (g.is_vertex v = true →
      (g.mark_vertex v).1 = .ok () ∧ (g.unmark_vertex v).1 = .ok () ∧
      (∃ m, g.is_marked v = .ok m) ∧
      (g.mark_vertex v).2.is_marked v = .ok true ∧
      (g.unmark_vertex v).2.is_marked v = .ok false ∧
      (∀ y, y ≠ v → (g.mark_vertex v).2.is_marked y = g.is_marked y ∧
        (g.unmark_vertex v).2.is_marked y = g.is_marked y) ∧
      (∀ y, (g.mark_vertex v).2.get_predecessor y = g.get_predecessor y ∧
        (g.unmark_vertex v).2.get_predecessor y = g.get_predecessor y) ∧
      (∀ y, (g.mark_vertex v).2.get_vertex_neighbors y = g.get_vertex_neighbors y ∧
        (g.unmark_vertex v).2.get_vertex_neighbors y = g.get_vertex_neighbors y) ∧
      (∀ y, (g.mark_vertex v).2.is_vertex y = g.is_vertex y ∧
        (g.unmark_vertex v).2.is_vertex y = g.is_vertex y)) := by
  constructor
  · intro h
    simp [mark_vertex, unmark_vertex, is_marked, enforce_unknown h]
  · intro h
    have hm : g.mark_vertex v =
        (.ok (), g.set_at v.get_name (fun w => { w with visited := true })) := by
      simp [mark_vertex, enforce_ok h]
    have hu : g.unmark_vertex v =
        (.ok (), g.set_at v.get_name (fun w => { w with visited := false })) := by
      simp [unmark_vertex, enforce_ok h]
    obtain ⟨w, hw⟩ := is_vertex_iff.1 h
    rw [hm, hu]
    have fm : ∀ (α : Type) (proj : Vertex → α), (∀ w : Vertex, proj { w with visited := true }
        = proj w) → ∀ k, ((g.set_at v.get_name (fun w => { w with visited := true })).find k).map
          proj = (g.find k).map proj :=
      fun α proj hp k =>
        set_at_find_map g v.get_name (fun w => { w with visited := true }) (fun _ => rfl)
          proj hp k
    have fu : ∀ (α : Type) (proj : Vertex → α), (∀ w : Vertex, proj { w with visited := false }
        = proj w) → ∀ k, ((g.set_at v.get_name (fun w => { w with visited := false })).find
          k).map proj = (g.find k).map proj :=
      fun α proj hp k =>
        set_at_find_map g v.get_name (fun w => { w with visited := false }) (fun _ => rfl)
          proj hp k
    have om : ∀ k, k ≠ v.get_name →
        (g.set_at v.get_name (fun w => { w with visited := true })).find k = g.find k :=
      fun k hk => set_at_find_other g v.get_name (fun w => { w with visited := true })
        (fun _ => rfl) k hk
    have ou : ∀ k, k ≠ v.get_name →
        (g.set_at v.get_name (fun w => { w with visited := false })).find k = g.find k :=
      fun k hk => set_at_find_other g v.get_name (fun w => { w with visited := false })
        (fun _ => rfl) k hk
    refine ⟨rfl, rfl, ⟨_, is_marked_eq h⟩, ?_, ?_, ?_, ?_, ?_, ?_⟩
    · rw [is_marked_eq (by rw [set_at_is_vertex]; exact h; intro _; rfl), set_at_vis]
      · simp [hw]
      · intro _; rfl
    · rw [is_marked_eq (by rw [set_at_is_vertex]; exact h; intro _; rfl), set_at_vis]
      · simp [hw]
      · intro _; rfl
    · intro y hy
      have hk : y.get_name ≠ v.get_name := fun hk => hy ((name_eq_iff _ _).1 hk)
      exact ⟨is_marked_congr y (by rw [om _ hk]), is_marked_congr y (by rw [ou _ hk])⟩
    · intro y
      exact ⟨get_predecessor_congr y (fm _ (fun v => v.artist) (fun _ => rfl))
          (fm _ (fun v => v.predecessor) (fun _ => rfl) _),
        get_predecessor_congr y (fu _ (fun v => v.artist) (fun _ => rfl))
          (fu _ (fun v => v.predecessor) (fun _ => rfl) _)⟩
    · intro y
      exact ⟨get_vertex_neighbors_congr y (fm _ (fun v => v.neighbors) (fun _ => rfl) _),
        get_vertex_neighbors_congr y (fu _ (fun v => v.neighbors) (fun _ => rfl) _)⟩
    · intro y
      exact ⟨is_vertex_of_sameShape_find (fm _ (fun v => v.artist) (fun _ => rfl)) y,
        is_vertex_of_sameShape_find (fu _ (fun v => v.artist) (fun _ => rfl)) y⟩

namespace CollabGraph

theorem clear_metadata_find (g : CollabGraph) (k : String) :
    g.clear_metadata.find k =
      (g.find k).map (fun v => { v with visited := false, predecessor := none }) := by
  obtain ⟨l⟩ := g
  exact find_map_graph l k (fun v => { v with visited := false, predecessor := none })
    (fun _ => rfl)

end CollabGraph

/-- C16. `clear_metadata` resets every vertex: after the call, for every vertex
`v`, `is_marked(v)` is `false` and `get_predecessor(v)` is the artist with the
empty name (no predecessor); every stored vertex has its flag cleared and a
null predecessor; the vertex set and every adjacency list (neighbours and
labels, in order) are unchanged; and `clear_metadata` is idempotent. -/
theorem clear_metadata_resets (g : CollabGraph) :
    (∀ v, g.is_vertex v = true →
      g.clear_metadata.is_marked v = .ok false ∧
      g.clear_metadata.get_predecessor v = .ok (Artist.mk "")) ∧
    (∀ x, x ∈ g.clear_metadata.graph → x.visited = false ∧ x.predecessor = none) ∧
    (∀ v, g.clear_metadata.is_vertex v = g.is_vertex v) ∧
    (∀ v, g.clear_metadata.get_vertex_neighbors v = g.get_vertex_neighbors v) ∧
    (∀ v, g.clear_metadata.edges v = g.edges v) ∧
    (∀ a b, g.clear_metadata.get_edge a b = g.get_edge a b) ∧
    g.clear_metadata.graph.map (fun x => (x.artist, x.neighbors)) =
      g.graph.map (fun x => (x.artist, x.neighbors)) ∧
    g.clear_metadata.clear_metadata = g.clear_metadata := by
  have hv : ∀ v, g.clear_metadata.is_vertex v = g.is_vertex v := fun v =>
    (g.clear_metadata_spec.1 v).1
  have he : ∀ v, g.clear_metadata.edges v = g.edges v := fun v =>
    (g.clear_metadata_spec.1 v).2
  refine ⟨?_, ?_, hv, ?_, he, ?_, ?_, ?_⟩
  · intro v h
    obtain ⟨w, hw⟩ := is_vertex_iff.1 h
    have hc : g.clear_metadata.is_vertex v = true := by rw [hv]; exact h
    constructor
    · rw [is_marked_eq hc, g.clear_metadata_spec.2.1]
    · simp [get_predecessor, enforce_ok hc, at_key, clear_metadata_find, hw]
  · intro x hx
    simp only [clear_metadata, List.mem_map] at hx
    obtain ⟨y, _, rfl⟩ := hx
    exact ⟨rfl, rfl⟩
  · intro v
    apply get_vertex_neighbors_congr
    rw [clear_metadata_find]
    cases g.find v.get_name <;> rfl
  · intro a b
    cases ha : g.is_vertex a with
    | false =>
      have hca : g.clear_metadata.is_vertex a = false := by rw [hv]; exact ha
      simp [get_edge, enforce_error ha, enforce_error hca]
    | true =>
      have hca : g.clear_metadata.is_vertex a = true := by rw [hv]; exact ha
      cases hb : g.is_vertex b with
      | false =>
        have hcb : g.clear_metadata.is_vertex b = false := by rw [hv]; exact hb
        simp [get_edge, enforce_ok ha, enforce_ok hca, enforce_error hb, enforce_error hcb]
      | true =>
        have hcb : g.clear_metadata.is_vertex b = true := by rw [hv]; exact hb
        rw [get_edge_eq ha hb, get_edge_eq hca hcb, he]
  · simp [clear_metadata, List.map_map, Function.comp_def]
  · simp [clear_metadata, List.map_map, Function.comp_def]

/-- C14. Idempotent vertex insertion: for every store and every artist whose name
is already a vertex of the store, `insert_vertex` leaves the store unchanged;
hence inserting the same artist twice gives the same store as inserting it
once. -/
theorem insert_vertex_idempotent (g : CollabGraph) (artist : Artist) :
    (g.is_vertex artist = true → (g.insert_vertex artist).2 = g) ∧
    ((g.insert_vertex artist).2.insert_vertex artist).2 = (g.insert_vertex artist).2 := by
  have h1 : g.is_vertex artist = true → (g.insert_vertex artist).2 = g := by
    intro h
    by_cases hn : artist.get_name = ""
    · simp [insert_vertex, hn]
    · simp [insert_vertex, hn, h]
  refine ⟨h1, ?_⟩
  by_cases hn : artist.get_name = ""
  · simp [insert_vertex, hn]
  · cases hv : g.is_vertex artist with
    | true => rw [h1 hv, h1 hv]
    | false =>
      have h2 : (g.insert_vertex artist).2.is_vertex artist = true := by
        simp only [insert_vertex, hn, if_false, hv, Bool.not_false, if_true]
        simp [is_vertex, find_append_single]
        cases (CollabGraph.mk g.graph).find artist.get_name <;> simp
      by_cases hn2 : artist.get_name = ""
      · exact absurd hn2 hn
      · generalize (g.insert_vertex artist).2 = g2 at h2
        simp [insert_vertex, hn, h2]

namespace CollabGraph

theorem is_vertex_iff_mem {g : CollabGraph} {c : Artist} :
    g.is_vertex c = true ↔ c ∈ g.graph.map (fun v => v.artist) := by
  constructor
  · exact mem_graph_of_is_vertex
  · intro h
    obtain ⟨v, hv, hvc⟩ := List.mem_map.1 h
    unfold is_vertex find
    rw [List.find?_isSome]
    exact ⟨v, hv, by simp [hvc]⟩

theorem set_at_artists (g : CollabGraph) (k : String) (f : Vertex → Vertex)
    (hf : ∀ v, (f v).artist = v.artist) :
    (g.set_at k f).graph.map (fun v => v.artist) = g.graph.map (fun v => v.artist) := by
  simp only [set_at, List.map_map]
  apply List.map_congr_left
  intro v _
  simp only [Function.comp]
  split
  · exact hf v
  · rfl

/-- The artists stored after `insert_edge` are those stored before. -/
theorem insert_edge_artists (g : CollabGraph) (a1 a2 : Artist) (l : String) :
    (g.insert_edge a1 a2 l).2.graph.map (fun v => v.artist) =
      g.graph.map (fun v => v.artist) := by
  cases h1 : g.is_vertex a1 with
  | false => simp [insert_edge, enforce_error h1]
  | true =>
  cases h2 : g.is_vertex a2 with
  | false => simp [insert_edge, enforce_ok h1, enforce_error h2]
  | true =>
  by_cases hl : l = ""
  · simp [insert_edge, enforce_ok h1, enforce_ok h2, hl]
  by_cases ha : a1 = a2
  · simp [insert_edge, enforce_ok h1, enforce_ok h2, hl, ha]
  by_cases hs : edge_scan (g.edges a1) a2 = ""
  · have hfst : (g.insert_edge a1 a2 l).2 =
        (g.set_at a1.get_name (fun v => { v with neighbors := v.neighbors ++ [Edge.mk a2 l] })).set_at
          a2.get_name (fun v => { v with neighbors := v.neighbors ++ [Edge.mk a1 l] }) := by
      simp [insert_edge, enforce_ok h1, enforce_ok h2, hl, ha, get_edge_eq h1 h2, hs]
    rw [hfst, set_at_artists, set_at_artists]
    · intro _; rfl
    · intro _; rfl
  · simp [insert_edge, enforce_ok h1, enforce_ok h2, hl, ha, get_edge_eq h1 h2, hs]

/-- The artists stored after `insert_vertex`. -/
theorem insert_vertex_artists (g : CollabGraph) (c : Artist) :
    (g.insert_vertex c).2.graph.map (fun v => v.artist) =
      if c.get_name ≠ "" ∧ g.is_vertex c = false then g.graph.map (fun v => v.artist) ++ [c]
      else g.graph.map (fun v => v.artist) := by
  by_cases hn : c.get_name = ""
  · simp [insert_vertex, hn]
  · cases hv : g.is_vertex c with
    | true => simp [insert_vertex, hn, hv]
    | false => simp [insert_vertex, hn, hv]

end CollabGraph

/-- Every artist stored in a built store has a non-empty name, and no two stored
vertices have the same artist. -/
theorem build_artists (calls : List Call) :
    (∀ c, c ∈ (build calls).graph.map (fun v => v.artist) → c.get_name ≠ "") ∧
    ((build calls).graph.map (fun v => v.artist)).Nodup := by
  induction calls using List.reverseRecOn with
  | nil => simp [build, CollabGraph.empty]
  | append_singleton calls c ih =>
    rw [build_snoc]
    cases c with
    | insert_vertex artist =>
      simp only [Call.run, insert_vertex_artists]
      by_cases hc : artist.get_name ≠ "" ∧ (build calls).is_vertex artist = false
      · rw [if_pos hc]
        constructor
        · intro c hcm
          rcases List.mem_append.1 hcm with h | h
          · exact ih.1 c h
          · simp only [List.mem_singleton] at h
            rw [h]; exact hc.1
        · rw [List.nodup_append]
          refine ⟨ih.2, by simp, ?_⟩
          intro x hx hy
          simp only [List.mem_singleton] at hy
          have : (build calls).is_vertex artist = true :=
            is_vertex_iff_mem.2 (by rw [← hy]; exact hx)
          rw [hc.2] at this
          exact absurd this (by simp)
      · rw [if_neg hc]; exact ih
    | insert_edge a1 a2 l =>
      simp only [Call.run, insert_edge_artists]
      exact ih

/-- C13. `insert_vertex` throws if and only if the name of the artist is the
empty string; in that case the store is unchanged; for every non-empty name the
call returns and `is_vertex(artist)` is true after it.  Consequently no store
built by `insert_vertex` and `insert_edge` holds a vertex whose name is
empty. -/
theorem insert_vertex_contract (g : CollabGraph) (artist : Artist) :
    ((∃ e, (g.insert_vertex artist).1 = .error e) ↔ artist.get_name = "") ∧
    (artist.get_name = "" → (g.insert_vertex artist).2 = g) ∧
    (artist.get_name ≠ "" →
      (g.insert_vertex artist).1 = .ok () ∧
      (g.insert_vertex artist).2.is_vertex artist = true) ∧
    (∀ calls x, x ∈ (build calls).graph → x.artist.get_name ≠ "") ∧
    (∀ calls c, (build calls).is_vertex c = true → c.get_name ≠ "") := by
  refine ⟨?_, ?_, ?_, ?_, ?_⟩
  · by_cases hn : artist.get_name = ""
    · simp [insert_vertex, hn]
    · cases hv : g.is_vertex artist <;> simp [insert_vertex, hn, hv]
  · intro hn
    simp [insert_vertex, hn]
  · intro hn
    cases hv : g.is_vertex artist with
    | true => simp [insert_vertex, hn, hv]
    | false =>
      simp only [insert_vertex, hn, if_false, hv, Bool.not_false, if_true, true_and]
      simp only [is_vertex, find_append_single]
      cases (CollabGraph.mk g.graph).find artist.get_name <;> simp
  · intro calls x hx
    exact (build_artists calls).1 x.artist (List.mem_map.2 ⟨x, hx, rfl⟩)
  · intro calls c hc
    exact (build_artists calls).1 c (is_vertex_iff_mem.1 hc)

/-- C12, as the claim states it, fails: in the scenario store, `get_edge` from
`X` to the unknown artist `W` throws instead of returning the empty string. -/
theorem get_edge_unknown_vertex_throws :
    (build callsXYZ).is_vertex (Artist.mk "W") = false ∧
    (build callsXYZ).get_edge artistX (Artist.mk "W") =
      .error (CollabGraph.unknown_vertex (Artist.mk "W")) ∧
    (build callsXYZ).get_edge artistX (Artist.mk "W") ≠ .ok "" := by
  decide

/-- C12, amended. `get_edge(a1,a2)` throws the unknown-vertex error when `a1` or
`a2` is not a vertex of the store (for `a1` if it is absent, else for `a2`);
when both are vertices it returns without throwing, and it returns the empty
string when `a2` is not in the adjacency list of `a1`. -/
theorem get_edge_contract (g : CollabGraph) (a1 a2 : Artist) :
    (g.is_vertex a1 = false → g.get_edge a1 a2 = .error (unknown_vertex a1)) ∧
    (g.is_vertex a1 = true → g.is_vertex a2 = false →
      g.get_edge a1 a2 = .error (unknown_vertex a2)) ∧
    (g.is_vertex a1 = true → g.is_vertex a2 = true →
      (∃ song, g.get_edge a1 a2 = .ok song) ∧
      (a2 ∉ g.nbrs a1 → g.get_edge a1 a2 = .ok "")) := by
  refine ⟨fun h1 => ?_, fun h1 h2 => ?_, fun h1 h2 => ⟨⟨_, get_edge_eq h1 h2⟩, fun hn => ?_⟩⟩
  · simp [get_edge, enforce_unknown h1]
  · simp [get_edge, enforce_ok h1, enforce_unknown h2]
  · rw [get_edge_eq h1 h2, edge_scan_eq_empty_of_not_mem _ _ hn]

/-- C15. `set_predecessor` is first-write-wins: for existing vertices `to` and
`from` the call returns; if `to` has no predecessor then afterwards
`get_predecessor(to)` is `from`; if `to` already has a predecessor the store is
unchanged, so `get_predecessor(to)` is what it was; in both cases
`get_predecessor` of every other artist, `is_marked` and
`get_vertex_neighbors` of every artist, and the vertex set are unchanged. -/
theorem set_predecessor_first_write_wins (g : CollabGraph) (to_artist from_artist : Artist)
    (ht : g.is_vertex to_artist = true) (hf : g.is_vertex from_artist = true) :
    (g.set_predecessor to_artist from_artist).1 = .ok () ∧
    (g.prd to_artist = none →
      (g.set_predecessor to_artist from_artist).2.get_predecessor to_artist =
        .ok from_artist) ∧
    (g.prd to_artist ≠ none →
      (g.set_predecessor to_artist from_artist).2 = g ∧
      (g.set_predecessor to_artist from_artist).2.get_predecessor to_artist =
        g.get_predecessor to_artist) ∧
    (∀ y, y ≠ to_artist →
      (g.set_predecessor to_artist from_artist).2.get_predecessor y = g.get_predecessor y) ∧
    (∀ y, (g.set_predecessor to_artist from_artist).2.is_marked y = g.is_marked y) ∧
    (∀ y, (g.set_predecessor to_artist from_artist).2.get_vertex_neighbors y =
      g.get_vertex_neighbors y) ∧
    (∀ y, (g.set_predecessor to_artist from_artist).2.is_vertex y = g.is_vertex y) := by
  obtain ⟨v, hv⟩ := is_vertex_iff.1 ht
  obtain ⟨u, hu⟩ := is_vertex_iff.1 hf
  have hun : u.artist = from_artist := (name_eq_iff _ _).1 (find_name hu)
  by_cases hp : v.predecessor = none
  · have hval : g.set_predecessor to_artist from_artist = (.ok (),
        g.set_at to_artist.get_name
          (fun w => { w with predecessor := some from_artist.get_name })) := by
      simp [set_predecessor, enforce_ok ht, enforce_ok hf, at_key, hv, hu, hp, hun]
    have hprd : g.prd to_artist = none := by simp [prd, hv, hp]
    have fm : ∀ (α : Type) (proj : Vertex → α),
        (∀ w : Vertex, proj { w with predecessor := some from_artist.get_name } = proj w) →
        ∀ k, ((g.set_at to_artist.get_name
          (fun w => { w with predecessor := some from_artist.get_name })).find k).map proj =
            (g.find k).map proj :=
      fun α proj hpj k => set_at_find_map g to_artist.get_name
        (fun w => { w with predecessor := some from_artist.get_name }) (fun _ => rfl) proj hpj k
    have om : ∀ k, k ≠ to_artist.get_name →
        (g.set_at to_artist.get_name
          (fun w => { w with predecessor := some from_artist.get_name })).find k = g.find k :=
      fun k hk => set_at_find_other g to_artist.get_name
        (fun w => { w with predecessor := some from_artist.get_name }) (fun _ => rfl) k hk
    have hvx : ∀ y, (g.set_at to_artist.get_name
        (fun w => { w with predecessor := some from_artist.get_name })).is_vertex y =
          g.is_vertex y :=
      fun y => is_vertex_of_sameShape_find (fm _ (fun v => v.artist) (fun _ => rfl)) y
    rw [hval]
    refine ⟨rfl, fun _ => ?_, fun h => absurd hprd h, ?_, ?_, ?_, hvx⟩
    · have hfa := fm _ (fun v => v.artist) (fun _ => rfl) from_artist.get_name
      have hfind := find_set_at g to_artist.get_name to_artist.get_name
        (fun w => { w with predecessor := some from_artist.get_name }) (fun _ => rfl)
      simp only [if_true, hv, Option.map_some'] at hfind
      simp only [hu, Option.map_some'] at hfa
      simp only [get_predecessor, enforce_ok ((hvx to_artist).trans ht), at_key, hfind]
      cases hfa2 : (g.set_at to_artist.get_name
          (fun w => { w with predecessor := some from_artist.get_name })).find
            from_artist.get_name with
      | none => simp [hfa2] at hfa
      | some z =>
        simp only [hfa2, Option.map_some', Option.some.injEq] at hfa
        simp [hfa, hun]
    · intro y hy
      have hk : y.get_name ≠ to_artist.get_name := fun hk => hy ((name_eq_iff _ _).1 hk)
      exact get_predecessor_congr y (fm _ (fun v => v.artist) (fun _ => rfl))
        (by rw [om _ hk])
    · intro y
      exact is_marked_congr y (fm _ (fun v => v.visited) (fun _ => rfl) _)
    · intro y
      exact get_vertex_neighbors_congr y (fm _ (fun v => v.neighbors) (fun _ => rfl) _)
  · have hval : g.set_predecessor to_artist from_artist = (.ok (), g) := by
      simp [set_predecessor, enforce_ok ht, enforce_ok hf, at_key, hv, hu, hp]
    have hprd : g.prd to_artist ≠ none := by
      simp only [prd, hv]
      cases hvp : v.predecessor with
      | none => exact absurd hvp hp
      | some k => simp
    rw [hval]
    exact ⟨rfl, fun h => absurd h hprd, fun _ => ⟨rfl, rfl⟩, fun _ _ => rfl, fun _ => rfl,
      fun _ => rfl, fun _ => rfl⟩

/-- C15, on the scenario: `Y` gets the predecessor `X`, and keeps it when `Z` is
offered next. -/
theorem set_predecessor_first_write_wins_witness :
    (build callsXYZ).is_vertex artistY = true ∧ (build callsXYZ).is_vertex artistX = true ∧
    ((build callsXYZ).set_predecessor artistY artistX).1 = .ok () ∧
    ((build callsXYZ).set_predecessor artistY artistX).2.get_predecessor artistY =
      .ok artistX ∧
    (((build callsXYZ).set_predecessor artistY artistX).2.set_predecessor artistY
      artistZ).2.get_predecessor artistY = .ok artistX :=
  ⟨by decide, by decide,
    (set_predecessor_first_write_wins (build callsXYZ) artistY artistX (by decide)
      (by decide)).1,
    (set_predecessor_first_write_wins (build callsXYZ) artistY artistX (by decide)
      (by decide)).2.1 (by decide),
    by decide⟩

namespace CollabGraph

/-- The call `insert_edge` when no edge joins the endpoints yet. -/
theorem insert_edge_new {g : CollabGraph} {a1 a2 : Artist} {l : String}
    (h1 : g.is_vertex a1 = true) (h2 : g.is_vertex a2 = true) (ha : a1 ≠ a2) (hl : l ≠ "")
    (hs : edge_scan (g.edges a1) a2 = "") :
    (g.insert_edge a1 a2 l).1 = .ok () ∧
    (∀ x, (g.insert_edge a1 a2 l).2.is_vertex x = g.is_vertex x) ∧
    (∀ x, (g.insert_edge a1 a2 l).2.edges x =
      if x = a1 then g.edges x ++ [Edge.mk a2 l]
      else if x = a2 then g.edges x ++ [Edge.mk a1 l] else g.edges x) := by
  have hfst : g.insert_edge a1 a2 l = (.ok (),
      (g.set_at a1.get_name (fun v => { v with neighbors := v.neighbors ++ [Edge.mk a2 l] })).set_at
        a2.get_name (fun v => { v with neighbors := v.neighbors ++ [Edge.mk a1 l] })) := by
    simp [insert_edge, enforce_ok h1, enforce_ok h2, hl, ha, get_edge_eq h1 h2, hs]
  rw [hfst]
  refine ⟨rfl, ?_, ?_⟩
  · intro x
    simp only
    rw [set_at_append_is_vertex, set_at_append_is_vertex]
  · intro x
    simp only
    have h2b : (g.set_at a1.get_name
        (fun v => { v with neighbors := v.neighbors ++ [Edge.mk a2 l] })).is_vertex a2 = true := by
      rw [set_at_append_is_vertex]; exact h2
    rw [set_at_edges_append _ a2 _ x h2b, set_at_edges_append _ a1 _ x h1]
    by_cases hx1 : x = a1
    · have : ¬ x = a2 := fun h => ha (hx1.symm.trans h)
      simp [hx1, ha]
    · simp [hx1]

/-- The call `insert_edge` when an edge already joins the endpoints. -/
theorem insert_edge_old {g : CollabGraph} {a1 a2 : Artist} {l : String}
    (h1 : g.is_vertex a1 = true) (h2 : g.is_vertex a2 = true) (ha : a1 ≠ a2) (hl : l ≠ "")
    (hs : edge_scan (g.edges a1) a2 ≠ "") :
    g.insert_edge a1 a2 l = (.ok (), g) := by
  simp [insert_edge, enforce_ok h1, enforce_ok h2, hl, ha, get_edge_eq h1 h2, hs]

theorem edge_scan_of_nodup (l : List Edge) (e : Edge)
    (hn : (l.map (fun e => e.neighbor)).Nodup) (he : e ∈ l) :
    edge_scan l e.neighbor = e.song := by
  induction l with
  | nil => simp at he
  | cons d l ih =>
    simp only [List.map_cons, List.nodup_cons] at hn
    rcases List.mem_cons.1 he with h | h
    · subst h
      simp [edge_scan]
    · have hne : d.neighbor ≠ e.neighbor := by
        intro heq
        apply hn.1
        rw [heq]
        exact List.mem_map.2 ⟨e, h, rfl⟩
      simp only [edge_scan, if_neg hne]
      exact ih hn.2 h

end CollabGraph

/-- C11. First insertion wins: on a built store, for existing vertices `a ≠ b`
and a non-empty label `L`, `insert_edge(a,b,L)` returns; if `get_edge(a,b)` was
empty before the call, then after it `get_edge(a,b)` and `get_edge(b,a)` are `L`
and each endpoint occurs exactly once in the adjacency list of the other; if an
edge already existed (whatever the order of its endpoints) the whole store is
unchanged and `get_edge(a,b)` is the previous label. -/
theorem first_insertion_wins (calls : List Call) (a b : Artist) (L : String)
    (ha : (build calls).is_vertex a = true) (hb : (build calls).is_vertex b = true)
    (hab : a ≠ b) (hL : L ≠ "") :
    ((build calls).insert_edge a b L).1 = .ok () ∧
    ((build calls).get_edge a b = .ok "" →
      ((build calls).insert_edge a b L).2.get_edge a b = .ok L ∧
      ((build calls).insert_edge a b L).2.get_edge b a = .ok L ∧
      (((build calls).insert_edge a b L).2.nbrs a).count b = 1 ∧
      (((build calls).insert_edge a b L).2.nbrs b).count a = 1) ∧
    (∀ old, old ≠ "" →
      ((build calls).get_edge a b = .ok old ∨ (build calls).get_edge b a = .ok old) →
      ((build calls).insert_edge a b L).2 = build calls ∧
      ((build calls).insert_edge a b L).2.get_edge a b = .ok old) := by
  obtain ⟨hw, hsym⟩ := build_inv calls
  have hsc := hsym a b ha hb
  by_cases hs : edge_scan ((build calls).edges a) b = ""
  · obtain ⟨n1, n2, n3⟩ := insert_edge_new ha hb hab hL hs
    have hs2 : edge_scan ((build calls).edges b) a = "" := by rw [← hsc]; exact hs
    have hn1 : b ∉ (build calls).nbrs a := fun h => (mem_nbrs_iff_scan hw a b).1 h hs
    have hn2 : a ∉ (build calls).nbrs b := fun h => (mem_nbrs_iff_scan hw b a).1 h hs2
    have hn1b : b ∉ List.map (fun e => e.neighbor) ((build calls).edges a) := hn1
    have hn2b : a ∉ List.map (fun e => e.neighbor) ((build calls).edges b) := hn2
    have ha2 : ((build calls).insert_edge a b L).2.is_vertex a = true := by rw [n2]; exact ha
    have hb2 : ((build calls).insert_edge a b L).2.is_vertex b = true := by rw [n2]; exact hb
    refine ⟨n1, fun _ => ⟨?_, ?_, ?_, ?_⟩, ?_⟩
    · rw [get_edge_eq ha2 hb2, n3]
      simp [edge_scan_append_single, hn1b]
    · rw [get_edge_eq hb2 ha2, n3]
      simp [edge_scan_append_single, hn2b, Ne.symm hab]
    · simp only [nbrs, n3, if_true, List.map_append, List.map_cons, List.map_nil,
        List.count_append]
      rw [List.count_eq_zero_of_not_mem hn1b]
      simp
    · simp only [nbrs, n3, if_neg (Ne.symm hab), if_true, List.map_append, List.map_cons,
        List.map_nil, List.count_append]
      rw [List.count_eq_zero_of_not_mem hn2b]
      simp
    · intro old hold hor
      rw [get_edge_eq ha hb, get_edge_eq hb ha, ← hsc, hs] at hor
      simp only [Except.ok.injEq, or_self] at hor
      exact absurd hor.symm hold
  · have hval := insert_edge_old ha hb hab hL hs
    rw [hval]
    refine ⟨rfl, fun h => ?_, fun old _ hor => ⟨rfl, ?_⟩⟩
    · rw [get_edge_eq ha hb] at h
      simp only [Except.ok.injEq] at h
      exact absurd h hs
    · rw [get_edge_eq ha hb, get_edge_eq hb ha, ← hsc] at hor
      simp only [or_self] at hor
      rw [get_edge_eq ha hb]
      exact hor

/-- C11, on the scenario: a second insertion between `Y` and `X` (in the other
order) changes nothing, and a first insertion between `X` and `Z` sets the
label. -/
theorem first_insertion_wins_witness :
    (build callsXYZ).is_vertex artistY = true ∧ (build callsXYZ).is_vertex artistX = true ∧
    artistY ≠ artistX ∧ "S9" ≠ "" ∧
    ((build callsXYZ).insert_edge artistY artistX "S9").2 = build callsXYZ ∧
    ((build callsXYZ).insert_edge artistY artistX "S9").2.get_edge artistY artistX =
      .ok "S1" ∧
    ((build callsXYZ).insert_edge artistX artistZ "S9").2.get_edge artistZ artistX =
      .ok "S9" :=
  ⟨by decide, by decide, by decide, by decide,
    ((first_insertion_wins callsXYZ artistY artistX "S9" (by decide) (by decide) (by decide)
      (by decide)).2.2 "S1" (by decide) (Or.inl (by decide))).1,
    ((first_insertion_wins callsXYZ artistY artistX "S9" (by decide) (by decide) (by decide)
      (by decide)).2.2 "S1" (by decide) (Or.inl (by decide))).2,
    by decide⟩

/-- In a built store no vertex is its own neighbour and no adjacency list names
a neighbour twice. -/
theorem build_simple (calls : List Call) :
    ∀ a, a ∉ (build calls).nbrs a ∧ ((build calls).nbrs a).Nodup := by
  induction calls using List.reverseRecOn with
  | nil =>
    intro a
    simp [build, CollabGraph.nbrs, CollabGraph.edges, CollabGraph.find, CollabGraph.empty]
  | append_singleton calls c ih =>
    rw [build_snoc]
    obtain ⟨hw, hsym⟩ := build_inv calls
    cases c with
    | insert_vertex artist =>
      intro a
      have := (insert_vertex_spec (build calls) artist).2.2 a
      simp only [Call.run, CollabGraph.nbrs, this]
      exact ih a
    | insert_edge a1 a2 l =>
      intro a
      simp only [Call.run]
      rcases insert_edge_spec (build calls) a1 a2 l with h | ⟨ha, h1, h2, _, hs, _, _, he⟩
      · rw [h]; exact ih a
      · have hs2 : edge_scan ((build calls).edges a2) a1 = "" := by
          rw [← hsym a1 a2 h1 h2]; exact hs
        have hn1 : a2 ∉ (build calls).nbrs a1 := fun h => (mem_nbrs_iff_scan hw a1 a2).1 h hs
        have hn2 : a1 ∉ (build calls).nbrs a2 := fun h => (mem_nbrs_iff_scan hw a2 a1).1 h hs2
        simp only [CollabGraph.nbrs, he]
        by_cases hx1 : a = a1
        · subst hx1
          simp only [if_true, List.map_append, List.map_cons, List.map_nil, List.mem_append,
            List.mem_singleton, not_or]
          refine ⟨⟨(ih a).1, ha⟩, ?_⟩
          rw [List.nodup_append]
          refine ⟨(ih a).2, by simp, ?_⟩
          intro x hx hy
          simp only [List.mem_singleton] at hy
          rw [hy] at hx
          exact hn1 hx
        · by_cases hx2 : a = a2
          · subst hx2
            simp only [hx1, if_false, if_true, List.map_append, List.map_cons, List.map_nil,
              List.mem_append, List.mem_singleton, not_or]
            refine ⟨⟨(ih a).1, not_false⟩, ?_⟩
            rw [List.nodup_append]
            refine ⟨(ih a).2, by simp, ?_⟩
            intro x hx hy
            simp only [List.mem_singleton] at hy
            rw [hy] at hx
            exact hn2 hx
          · simp only [hx1, hx2, if_false]
            exact ih a

theorem find_of_mem_nodup (l : List Vertex) (x : Vertex)
    (hn : (l.map (fun v => v.artist)).Nodup) (hx : x ∈ l) :
    (CollabGraph.mk l).find x.artist.get_name = some x := by
  induction l with
  | nil => simp at hx
  | cons y l ih =>
    simp only [List.map_cons, List.nodup_cons] at hn
    simp only [CollabGraph.find, List.find?_cons]
    rcases List.mem_cons.1 hx with h | h
    · subst h
      simp
    · have hne : y.artist ≠ x.artist := by
        intro heq
        apply hn.1
        rw [heq]
        exact List.mem_map.2 ⟨x, h, rfl⟩
      have hne2 : ¬ y.artist.get_name = x.artist.get_name := fun h2 =>
        hne ((name_eq_iff _ _).1 h2)
      simp only [hne2, decide_False]
      exact ih hn.2 h

/-- An edge stored in one adjacency list of a built store is stored in the
other with the same label. -/
theorem build_edge_mirror (calls : List Call) (a b : Artist) (L : String)
    (h : Edge.mk b L ∈ (build calls).edges a) : Edge.mk a L ∈ (build calls).edges b := by
  obtain ⟨hw, hsym⟩ := build_inv calls
  have hmem : b ∈ (build calls).nbrs a := List.mem_map.2 ⟨_, h, rfl⟩
  have hva := nbrs_vertex hmem
  have hvb := hw.closed a b hmem
  have hscan : edge_scan ((build calls).edges a) b = L :=
    edge_scan_of_nodup _ (Edge.mk b L) (build_simple calls a).2 h
  have hL : L ≠ "" := hw.labelled a _ h
  have hscan2 : edge_scan ((build calls).edges b) a = L := by
    rw [← hsym a b hva hvb]; exact hscan
  have hmem2 : a ∈ (build calls).nbrs b :=
    (mem_nbrs_iff_scan hw b a).2 (by rw [hscan2]; exact hL)
  obtain ⟨e, e1, e2, e3⟩ := edge_scan_mem _ _ hmem2
  have : e = Edge.mk a L := by
    cases e
    simp only at e2 e3
    rw [hscan2] at e3
    simp [e2, e3]
  rw [← this]
  exact e1

/-- C20. Store well-formedness is an invariant of every store built from the
empty store by `insert_vertex` and `insert_edge` calls: no stored vertex appears
in its own adjacency list; no adjacency list names the same neighbour twice;
every neighbour named in an adjacency list is a vertex of the store; and `b`
appears in the list of `a` with label `L` exactly when `a` appears in the list
of `b` with label `L`.  The store holds one vertex for each name, so the
adjacency list looked up by name is the list of the stored vertex. -/
theorem store_well_formed (calls : List Call) :
    (∀ x, x ∈ (build calls).graph →
      x.artist ∉ x.neighbors.map (fun e => e.neighbor) ∧
      (x.neighbors.map (fun e => e.neighbor)).Nodup ∧
      (∀ e, e ∈ x.neighbors → (build calls).is_vertex e.neighbor = true) ∧
      (build calls).edges x.artist = x.neighbors) ∧
    (∀ a b L, Edge.mk b L ∈ (build calls).edges a ↔ Edge.mk a L ∈ (build calls).edges b) ∧
    ((build calls).graph.map (fun v => v.artist)).Nodup := by
  obtain ⟨hw, _⟩ := build_inv calls
  have hnd := (build_artists calls).2
  refine ⟨?_, ?_, hnd⟩
  · intro x hx
    have hfind : (build calls).find x.artist.get_name = some x :=
      find_of_mem_nodup (build calls).graph x hnd hx
    have hedges : (build calls).edges x.artist = x.neighbors := by
      simp [CollabGraph.edges, hfind]
    have hnb : (build calls).nbrs x.artist = x.neighbors.map (fun e => e.neighbor) := by
      simp [CollabGraph.nbrs, hedges]
    have hs := build_simple calls x.artist
    rw [hnb] at hs
    refine ⟨hs.1, hs.2, ?_, hedges⟩
    intro e he
    apply hw.closed x.artist
    rw [hnb]
    exact List.mem_map.2 ⟨e, he, rfl⟩
  · intro a b L
    exact ⟨build_edge_mirror calls a b L, build_edge_mirror calls b a L⟩

/-- The walk of `report_path` along a chain of predecessor links that meets the
source only at its start. -/
theorem report_path_loop_chain (g : CollabGraph) (a : Artist) (ha : g.is_vertex a = true) :
    ∀ (chain : List Artist) (v : Artist) (acc : List Artist) (fuel : Nat),
      chain.head? = some a → chain.getLast? = some v →
      List.Chain' (fun u w => g.prd w = some u) chain → (∀ x, x ∈ chain.tail → x ≠ a) →
      chain.length ≤ fuel →
      g.report_path_loop a fuel (some v.get_name) acc = .ok (chain ++ acc) := by
  intro chain
  induction chain using List.reverseRecOn with
  | nil => intro v acc fuel h; simp at h
  | append_singleton l x ih =>
    intro v acc fuel hh hl hc ht hfu
    have hxv : x = v := by simpa using hl
    subst hxv
    cases l with
    | nil =>
      have hxa : x = a := by simpa using hh
      subst hxa
      obtain ⟨f, rfl⟩ : ∃ f, fuel = f + 1 := ⟨fuel - 1, by simp at hfu; omega⟩
      rw [report_path_loop_stop ha]
      rfl
    | cons y l2 =>
      obtain ⟨u, hu⟩ : ∃ u, (y :: l2).getLast? = some u :=
        ⟨(y :: l2).getLast (by simp), List.getLast?_eq_getLast _ _⟩
      have hc2 := List.chain'_append.1 hc
      have hprd : g.prd x = some u := hc2.2.2 u hu x (by simp)
      have hxa : x ≠ a := ht x (by simp)
      obtain ⟨f, rfl⟩ : ∃ f, fuel = f + 1 := ⟨fuel - 1, by simp at hfu; omega⟩
      rw [report_path_loop_step (prd_vertex hprd) hxa, hprd]
      simp only [Option.map_some']
      rw [ih u (x :: acc) f (by simpa using hh) hu hc2.1
        (fun z hz => ht z (by
          simp only [List.cons_append, List.tail_cons, List.mem_append] at hz ⊢
          exact Or.inl hz))
        (by simp at hfu ⊢; omega)]
      simp

/-- C18. For existing vertices `a` and `b`, `report_path(a,b)` returns the empty
path when `a = b` or when `b` has no predecessor; otherwise, when following the
predecessor links from `b` reaches `a`, it returns exactly that chain reversed:
read from the top of the stack, `a` first, then each vertex whose predecessor is
the one before it, and `b` last. -/
theorem report_path_contract (g : CollabGraph) (a b : Artist) (ha : g.is_vertex a = true)
    (hb : g.is_vertex b = true) :
    (a = b → ∀ fuel, g.report_path fuel a b = .ok []) ∧
    (g.prd b = none → ∀ fuel, g.report_path fuel a b = .ok []) ∧
    (∀ chain : List Artist, a ≠ b → chain.head? = some a → chain.getLast? = some b →
      List.Chain' (fun u w => g.prd w = some u) chain → (∀ x, x ∈ chain.tail → x ≠ a) →
      ∀ fuel, chain.length ≤ fuel → g.report_path fuel a b = .ok chain) := by
  refine ⟨?_, ?_, ?_⟩
  · intro hab fuel
    subst hab
    exact report_path_same g a ha fuel
  · intro hp fuel
    exact report_path_none ha hb hp fuel
  · intro chain hab hh hl hc ht fuel hfu
    have hpb : g.prd b ≠ none := by
      cases chain with
      | nil => simp at hh
      | cons c cs =>
        have hca : c = a := by simpa using hh
        subst hca
        cases cs with
        | nil =>
          have : c = b := by simpa using hl
          exact absurd this hab
        | cons d ds =>
          obtain ⟨init, hinit⟩ : ∃ init, c :: d :: ds = init ++ [b] := by
            have := List.dropLast_append_getLast? b (Option.mem_def.2 hl)
            exact ⟨_, this.symm⟩
          cases init with
          | nil => simp at hinit
          | cons i is =>
            obtain ⟨u, hu⟩ : ∃ u, (i :: is).getLast? = some u :=
              ⟨(i :: is).getLast (by simp), List.getLast?_eq_getLast _ _⟩
            rw [hinit] at hc
            have := (List.chain'_append.1 hc).2.2 u hu b (by simp)
            rw [this]; simp
    rw [report_path_some ha hb hab hpb]
    have := report_path_loop_chain g a ha chain b [] fuel hh hl hc ht hfu
    simpa using this

/-- C18, on the scenario after the `bfs` query from `X` to `Z`: the chain of
predecessors of `Z` is `Y`, then `X`. -/
theorem report_path_contract_witness :
    (bfs 10 (build callsXYZ).clear_metadata artistX artistZ).2.is_vertex artistX = true ∧
    (bfs 10 (build callsXYZ).clear_metadata artistX artistZ).2.is_vertex artistZ = true ∧
    (bfs 10 (build callsXYZ).clear_metadata artistX artistZ).2.prd artistZ = some artistY ∧
    (bfs 10 (build callsXYZ).clear_metadata artistX artistZ).2.prd artistY = some artistX ∧
    (bfs 10 (build callsXYZ).clear_metadata artistX artistZ).2.report_path 3 artistX artistZ =
      .ok [artistX, artistY, artistZ] :=
  ⟨by decide, by decide, by decide, by decide,
    (report_path_contract (bfs 10 (build callsXYZ).clear_metadata artistX artistZ).2 artistX
      artistZ (by decide) (by decide)).2.2 [artistX, artistY, artistZ] (by decide) (by decide)
      (by decide)
      (List.Chain'.cons (by decide) (List.Chain'.cons (by decide) (List.chain'_singleton _)))
      (by decide) 3 (by decide)⟩

/-- On cleared metadata of a built store, `dfs(a,b)` with `a ≠ b` returns
`false`, whether or not `b` is reachable. -/
theorem dfs_returns_false (calls : List Call) (a b : Artist)
    (ha : (build calls).is_vertex a = true) (hab : a ≠ b) :
    ∃ (n : Nat) (g2 : CollabGraph),
      ∀ fuel, n ≤ fuel → dfs fuel (build calls).clear_metadata a b = (.ok false, g2) := by
  obtain ⟨n, g2, e1, _, _⟩ := dfs_main (build_inv calls).1 (b := b) ha
  refine ⟨n, g2, fun fuel hfu => ?_⟩
  rw [e1 fuel hfu]
  simp [hab]

/-- C19 fails on the code: in the scenario `Z` is reachable from `X` (the path
`X`, `Y`, `Z` exists and `report_path` finds it after the traversal), yet
`dfs(X,Z)` on cleared metadata returns `false`, while `dfs(X,X)` returns
`true`. -/
theorem dfs_result_ignores_reachability :
    (build callsXYZ).IsPath artistX artistZ [artistX, artistY, artistZ] ∧
    (dfs 10 (build callsXYZ).clear_metadata artistX artistZ).1 = .ok false ∧
    (dfs 10 (build callsXYZ).clear_metadata artistX artistZ).2.report_path 10 artistX artistZ
      = .ok [artistX, artistY, artistZ] ∧
    (dfs 10 (build callsXYZ).clear_metadata artistX artistX).1 = .ok true :=
  ⟨isPath_XYZ, by decide, by decide, by decide⟩

/-- An edge joins `u` to `v` exactly when `get_edge(u, v)` returns a non-empty
label. -/
theorem adj_get_edge (g : CollabGraph) (u v : Artist) :
    g.Adj u v ↔ ∃ song, g.get_edge u v = .ok song ∧ song ≠ "" := by
  unfold Adj adjacent
  cases h : g.get_edge u v with
  | error e => simp
  | ok song => simp

/-- C27. Every path reported after `bfs` is a real path that respects the
exclusions: on a built store, for existing vertices `a ≠ b` and a list `E` of
existing vertices marked after `clear_metadata`, `bfs(a,b)` and then
`report_path(a,b)` return, and when the reported path is non-empty it starts at
`a`, ends at `b`, `get_edge` returns a non-empty label for every two consecutive
vertices, no vertex of `E` occurs in it, and no path of the store from `a` to
`b` that avoids `E` is shorter. -/
theorem reported_path_respects_exclusions (calls : List Call) (E : List Artist) (a b : Artist)
    (hE : ∀ e, e ∈ E → (build calls).is_vertex e = true)
    (ha : (build calls).is_vertex a = true) (hb : (build calls).is_vertex b = true)
    (hab : a ≠ b) :
    ∃ (g0 : CollabGraph) (n : Nat) (r : Bool) (g2 : CollabGraph) (path : List Artist),
      mark_exclusions (build calls).clear_metadata E = (.ok (), g0) ∧
      (∀ fuel, n ≤ fuel →
        bfs fuel g0 a b = (.ok r, g2) ∧ g2.report_path fuel a b = .ok path) ∧
      (path ≠ [] →
        path.head? = some a ∧ path.getLast? = some b ∧
        List.Chain' (fun u v => ∃ song, g2.get_edge u v = .ok song ∧ song ≠ "") path ∧
        (∀ v, v ∈ path → v ∉ E) ∧
        ∀ p, p.head? = some a → p.getLast? = some b →
          List.Chain' (fun u v => ∃ song, (build calls).get_edge u v = .ok song ∧ song ≠ "") p →
          (∀ v, v ∈ p → v ∉ E) → path.length ≤ p.length) := by
  have hw := (build_inv calls).1
  obtain ⟨g0, n, r, g2, path, h0, h1, hs, _, h4, h5⟩ := not_query_main hw E hE ha hb hab
  refine ⟨g0, n, r, g2, path, h0, h1, fun hne => ?_⟩
  cases r with
  | false => exact absurd (h4 rfl) hne
  | true =>
    obtain ⟨⟨e1, e2, e3⟩, e4, e5⟩ := h5 rfl
    refine ⟨e1, e2, ?_, e4, fun p p1 p2 p3 p4 => e5 p ⟨p1, p2, ?_⟩ p4⟩
    · have := isPath_of_chain (hs.wellFormed hw) (SameShape.refl g2) (chain_of_isPath hw hs e3)
      exact this.imp (fun {u v} h => (adj_get_edge g2 u v).1 h)
    · exact p3.imp (fun {u v} h => (adj_get_edge _ u v).2 h)

/-- C27, on the store with two paths from `X` to `W`, with `Y` excluded: the
query from `X` to `W` reports the path `X`, `Z`, `W`, which avoids `Y`, whereas
without the exclusion it reports the path through `Y`. -/
theorem reported_path_respects_exclusions_witness :
    (∀ e, e ∈ [artistY] → (build callsDiamond).is_vertex e = true) ∧
    (build callsDiamond).is_vertex artistX = true ∧
    (build callsDiamond).is_vertex artistW = true ∧ artistX ≠ artistW ∧
    (∃ (g0 : CollabGraph) (n : Nat) (r : Bool) (g2 : CollabGraph) (path : List Artist),
      mark_exclusions (build callsDiamond).clear_metadata [artistY] = (.ok (), g0) ∧
      (∀ fuel, n ≤ fuel →
        bfs fuel g0 artistX artistW = (.ok r, g2) ∧
        g2.report_path fuel artistX artistW = .ok path) ∧
      (path ≠ [] →
        path.head? = some artistX ∧ path.getLast? = some artistW ∧
        List.Chain' (fun u v => ∃ song, g2.get_edge u v = .ok song ∧ song ≠ "") path ∧
        (∀ v, v ∈ path → v ∉ [artistY]) ∧
        ∀ p, p.head? = some artistX → p.getLast? = some artistW →
          List.Chain'
            (fun u v => ∃ song, (build callsDiamond).get_edge u v = .ok song ∧ song ≠ "") p →
          (∀ v, v ∈ p → v ∉ [artistY]) → path.length ≤ p.length)) ∧
    (bfs 10 (mark_exclusions (build callsDiamond).clear_metadata [artistY]).2 artistX
      artistW).1 = .ok true ∧
    (bfs 10 (mark_exclusions (build callsDiamond).clear_metadata [artistY]).2 artistX
      artistW).2.report_path 10 artistX artistW = .ok [artistX, artistZ, artistW] ∧
    [artistX, artistZ, artistW] ≠ [] ∧ artistY ∉ [artistX, artistZ, artistW] ∧
    (bfs 10 (build callsDiamond).clear_metadata artistX artistW).2.report_path 10 artistX
      artistW = .ok [artistX, artistY, artistW] ∧
    (prepNot 10 (build callsDiamond) ["X", "W", "Y", "*"] []).2.2.2 =
      ["\"X\" collaborated with \"Z\" in \"S2\".",
        "\"Z\" collaborated with \"W\" in \"S4\".", "***"] :=
  ⟨fun e he => by
      simp only [List.mem_singleton] at he
      rw [he]; decide,
    by decide, by decide, by decide,
    reported_path_respects_exclusions callsDiamond [artistY] artistX artistW
      (fun e he => by
        simp only [List.mem_singleton] at he
        rw [he]; decide)
      (by decide) (by decide) (by decide),
    by decide, by decide, by decide, by decide, by decide, by decide⟩

theorem printBadArt_eq (name : String) (output : List String) :
    printBadArt name output = output ++ [not_found_line name] := rfl

theorem read_exclusions_spec (rest : List String) :
    ∀ (names : List String) (acc : List Artist), (∀ n, n ∈ names → n ≠ "*") →
      read_exclusions (names ++ "*" :: rest) acc = (acc ++ names.map Artist.mk, rest) := by
  intro names
  induction names with
  | nil => intro acc _; simp [read_exclusions]
  | cons n ns ih =>
    intro acc h
    have hn : n ≠ "*" := h n (by simp)
    have := ih (acc ++ [Artist.mk n]) (fun m hm => h m (by simp [hm]))
    simp only [List.cons_append, read_exclusions, ne_eq, hn, not_false_eq_true, if_true]
    simpa using this

theorem checkNot_loop_spec (g : CollabGraph) :
    ∀ (check : List Artist) (legit : Bool) (output : List String),
      checkNot_loop g check legit output =
        (legit && check.all g.is_vertex,
          output ++ (check.filter (fun c => !g.is_vertex c)).map
            (fun c => not_found_line c.get_name)) := by
  intro check
  induction check with
  | nil => intro legit output; simp [checkNot_loop]
  | cons c cs ih =>
    intro legit output
    cases hc : g.is_vertex c with
    | true => simp [checkNot_loop, hc, ih]
    | false => simp [checkNot_loop, hc, ih, printBadArt_eq]

/-- What `checkNot` returns and writes. -/
theorem checkNot_spec (g : CollabGraph) (check : List Artist) (output : List String) :
    checkNot g check output =
      (check.all g.is_vertex,
        output ++ (check.filter (fun c => !g.is_vertex c)).map
          (fun c => not_found_line c.get_name)) := by
  unfold checkNot
  rw [checkNot_loop_spec]
  cases h : check.all g.is_vertex <;> simp

/-- The marking loop of `prepNot` over vertices sets the flag of exactly the
vertices named in the list. -/
theorem mark_exclusions_eq :
    ∀ (E : List Artist) (g : CollabGraph), (∀ e, e ∈ E → g.is_vertex e = true) →
      mark_exclusions g E =
        (.ok (), ⟨g.graph.map
          (fun v => if v.artist ∈ E then { v with visited := true } else v)⟩) := by
  intro E
  induction E with
  | nil => intro g _; simp [mark_exclusions]
  | cons e es ih =>
    intro g h
    have he : g.is_vertex e = true := h e (by simp)
    have hm : g.mark_vertex e =
        (.ok (), g.set_at e.get_name (fun v => { v with visited := true })) := by
      simp [mark_vertex, enforce_ok he]
    simp only [mark_exclusions, hm]
    have hv : ∀ x, x ∈ es →
        (g.set_at e.get_name (fun v => { v with visited := true })).is_vertex x = true := by
      intro x hx
      have := set_at_is_vertex g e.get_name (fun v => { v with visited := true })
        (fun _ => rfl) x
      rw [this]; exact h x (by simp [hx])
    rw [ih _ hv]
    simp only [set_at, List.map_map, Prod.mk.injEq, true_and, CollabGraph.mk.injEq]
    apply List.map_congr_left
    intro v _
    simp only [Function.comp]
    by_cases h1 : v.artist.get_name = e.get_name
    · have h2 : v.artist = e := (name_eq_iff _ _).1 h1
      simp [h1, h2]
    · have h2 : v.artist ≠ e := fun hh => h1 (by rw [hh])
      simp [h1, h2]

theorem mark_vertex_eq {g : CollabGraph} {v : Artist} (h : g.is_vertex v = true) :
    g.mark_vertex v = (.ok (), g.set_at v.get_name (fun x => { x with visited := true })) := by
  simp [mark_vertex, enforce_ok h]

theorem mark_vertex_unknown {g : CollabGraph} {v : Artist} (h : g.is_vertex v = false) :
    g.mark_vertex v = (.error (unknown_vertex v), g) := by
  simp [mark_vertex, enforce_unknown h]

/-- C26. Duplicate and reordered exclusion names are tolerated.  Marking is
idempotent: `mark_vertex` after `mark_vertex` of the same artist is the first
call again, and in a store whose keys are distinct, marking a vertex that
`is_marked` reports as marked returns the store unchanged.  For two exclusion
lists with the same set of names, `checkNot` accepts one list exactly when it
accepts the other, and when the names are vertices the store after the marking
loop is the same store, so that for all endpoints `bfs` gives the same result,
`report_path` the same path, and `prepNot` the same outcome on the two inputs. -/
theorem exclusion_order_and_multiplicity (g : CollabGraph) (E1 E2 : List Artist)
    (hsame : ∀ x, x ∈ E1 ↔ x ∈ E2) :
    (∀ v, (g.mark_vertex v).2.mark_vertex v = g.mark_vertex v) ∧
    (∀ v, (g.graph.map (fun x => x.artist)).Nodup → g.is_marked v = .ok true →
      g.mark_vertex v = (.ok (), g)) ∧
    (∀ a b output, (checkNot g.clear_metadata (a :: b :: E1) output).1 =
      (checkNot g.clear_metadata (a :: b :: E2) output).1) ∧
    ((∀ e, e ∈ E1 → g.is_vertex e = true) →
      mark_exclusions g.clear_metadata E1 = mark_exclusions g.clear_metadata E2 ∧
      ∀ a b fuel,
        bfs fuel (mark_exclusions g.clear_metadata E1).2 a b =
          bfs fuel (mark_exclusions g.clear_metadata E2).2 a b ∧
        (bfs fuel (mark_exclusions g.clear_metadata E1).2 a b).2.report_path fuel a b =
          (bfs fuel (mark_exclusions g.clear_metadata E2).2 a b).2.report_path fuel a b ∧
        ∀ rest output, a.get_name ≠ "*" → b.get_name ≠ "*" →
          (∀ e, e ∈ E1 → e.get_name ≠ "*") →
          prepNot fuel g
              (a.get_name :: b.get_name :: (E1.map Artist.get_name ++ "*" :: rest)) output =
            prepNot fuel g
              (a.get_name :: b.get_name :: (E2.map Artist.get_name ++ "*" :: rest)) output) := by
  have hall : E1.all g.clear_metadata.is_vertex = E2.all g.clear_metadata.is_vertex := by
    rw [Bool.eq_iff_iff]
    simp only [List.all_eq_true]
    exact ⟨fun h x hx => h x ((hsame x).2 hx), fun h x hx => h x ((hsame x).1 hx)⟩
  refine ⟨fun v => ?_, fun v hn hm => ?_, fun a b output => ?_, fun hE => ?_⟩
  · cases hv : g.is_vertex v with
    | false => rw [mark_vertex_unknown hv]; exact mark_vertex_unknown hv
    | true =>
      rw [mark_vertex_eq hv]
      have hv2 : (g.set_at v.get_name (fun x => { x with visited := true })).is_vertex v
          = true := by
        have := set_at_is_vertex g v.get_name (fun x => { x with visited := true })
          (fun _ => rfl) v
        rw [this]; exact hv
      rw [mark_vertex_eq hv2]
      simp only [set_at, List.map_map, Prod.mk.injEq, true_and, CollabGraph.mk.injEq]
      apply List.map_congr_left
      intro x _
      simp only [Function.comp]
      by_cases h1 : x.artist.get_name = v.get_name <;> simp [h1]
  · have hv : g.is_vertex v = true := by
      cases hv : g.is_vertex v with
      | true => rfl
      | false => simp [is_marked, enforce_unknown hv] at hm
    obtain ⟨x, hx⟩ := is_vertex_iff.1 hv
    have hxv : x.visited = true := by
      simpa [is_marked, enforce_ok hv, at_key, hx] using hm
    rw [mark_vertex_eq hv]
    simp only [set_at, Prod.mk.injEq, true_and]
    cases g with
    | mk l =>
      simp only [CollabGraph.mk.injEq]
      conv_rhs => rw [← List.map_id l]
      apply List.map_congr_left
      intro y hy
      by_cases h1 : y.artist.get_name = v.get_name
      · have hy2 := find_of_mem_nodup l y hn hy
        rw [h1, hx] at hy2
        have : y = x := (Option.some.inj hy2).symm
        subst this
        rw [if_pos h1]
        cases y with
        | mk ya yn yp yv =>
          simp only at hxv
          simp [hxv]
      · simp [h1]
  · simp only [checkNot_spec, List.all_cons, hall]
  · have hE1 : ∀ e, e ∈ E1 → g.clear_metadata.is_vertex e = true := fun e he => by
      rw [(g.clear_metadata_spec.1 e).1]; exact hE e he
    have hE2 : ∀ e, e ∈ E2 → g.clear_metadata.is_vertex e = true := fun e he =>
      hE1 e ((hsame e).2 he)
    have hmark : mark_exclusions g.clear_metadata E1 = mark_exclusions g.clear_metadata E2 := by
      rw [mark_exclusions_eq E1 _ hE1, mark_exclusions_eq E2 _ hE2]
      simp only [Prod.mk.injEq, true_and, CollabGraph.mk.injEq]
      apply List.map_congr_left
      intro v _
      simp only [hsame]
    refine ⟨hmark, fun a b fuel => ⟨by rw [hmark], by rw [hmark], ?_⟩⟩
    intro rest output ha hb hne
    have hr : ∀ E : List Artist, (∀ e, e ∈ E → e.get_name ≠ "*") →
        read_exclusions (a.get_name :: b.get_name :: (E.map Artist.get_name ++ "*" :: rest)) []
          = (a :: b :: E, rest) := by
      intro E hEn
      have := read_exclusions_spec rest (a.get_name :: b.get_name :: E.map Artist.get_name) []
        (by
          intro n hn
          simp only [List.mem_cons, List.mem_map] at hn
          rcases hn with rfl | rfl | ⟨e, he, rfl⟩
          · exact ha
          · exact hb
          · exact hEn e he)
      have hid : List.map Artist.mk (List.map Artist.get_name E) = E := by
        rw [List.map_map]
        conv_rhs => rw [← List.map_id E]
        exact List.map_congr_left (fun x _ => rfl)
      simpa [hid] using this
    have hfil : ∀ E : List Artist, (∀ e, e ∈ E → g.clear_metadata.is_vertex e = true) →
        E.filter (fun c => !g.clear_metadata.is_vertex c) = [] := by
      intro E hEv
      simp only [List.filter_eq_nil_iff]
      intro x hx
      simp [hEv x hx]
    have hchk : checkNot g.clear_metadata (a :: b :: E1) output =
        checkNot g.clear_metadata (a :: b :: E2) output := by
      simp only [checkNot_spec, List.all_cons, hall, List.filter_cons, hfil E1 hE1, hfil E2 hE2]
    unfold prepNot
    simp only [hr E1 hne, hr E2 (fun e he => hne e ((hsame e).2 he)), hchk, List.drop_succ_cons,
      List.drop_zero, hmark, vector_at, List.get?_cons_zero, List.get?_cons_succ]

/-- C26, on the store with two paths from `X` to `W`: excluding `Y` twice is
excluding it once, and the query then reports the path through `Z`. -/
theorem exclusion_order_and_multiplicity_witness :
    (∀ x, x ∈ [artistY, artistY] ↔ x ∈ [artistY]) ∧
    mark_exclusions (build callsDiamond).clear_metadata [artistY, artistY] =
      mark_exclusions (build callsDiamond).clear_metadata [artistY] ∧
    (prepNot 10 (build callsDiamond) ["X", "W", "Y", "Y", "*"] []).2.2.2 =
      ["\"X\" collaborated with \"Z\" in \"S2\".",
        "\"Z\" collaborated with \"W\" in \"S4\".", "***"] ∧
    (prepNot 10 (build callsDiamond) ["X", "W", "Y", "*"] []).2.2.2 =
      ["\"X\" collaborated with \"Z\" in \"S2\".",
        "\"Z\" collaborated with \"W\" in \"S4\".", "***"] :=
  ⟨fun x => by simp,
    ((exclusion_order_and_multiplicity (build callsDiamond) [artistY, artistY] [artistY]
      (fun x => by simp)).2.2.2 (fun e he => by
        simp only [List.mem_cons, List.mem_singleton, List.not_mem_nil, or_false, or_self] at he
        rw [he]; decide)).1,
    by decide, by decide⟩

theorem not_found_ne_no_path (name : String) (x y : Artist) :
    not_found_line name ≠ no_path_line x y := by
  intro h
  have := congrArg String.data h
  simp [not_found_line, no_path_line] at this

theorem not_found_ne_stars (name : String) : not_found_line name ≠ "***" := by
  intro h
  have := congrArg String.data h
  simp [not_found_line] at this

theorem not_found_ne_step (name : String) (t u : Artist) (s : String) :
    not_found_line name ≠ step_line t u s := by
  intro h
  have := congrArg (fun z => z.data.reverse.head?) h
  simp [not_found_line, step_line] at this

/-- C21. A `not` query with an unknown name is abandoned.  For every list with
an entry that is not a vertex, `checkNot` returns `false` after writing one
"was not found in the dataset" line per unknown entry, in list order; `prepNot`
then returns with the store as `clear_metadata` left it, for every fuel (`bfs`
is not run): no vertex is marked and no predecessor is set, and the lines
written are those of `checkNot`, none of which is a "path does not exist" line,
a step of a path or the `***` terminator. -/
theorem not_query_abandoned (g : CollabGraph) (fuel : Nat) (input output : List String)
    (hbad : ∃ c, c ∈ (read_exclusions input []).1 ∧ g.is_vertex c = false) :
    (∀ (check : List Artist) (out : List String),
      (∃ c, c ∈ check ∧ g.is_vertex c = false) →
      checkNot g check out =
        (false, out ++ (check.filter (fun c => !g.is_vertex c)).map
          (fun c => not_found_line c.get_name)) ∧
      ((check.filter (fun c => !g.is_vertex c)).map
        (fun c => not_found_line c.get_name)).length =
          check.countP (fun c => !g.is_vertex c)) ∧
    prepNot fuel g input output =
      (.ok (), g.clear_metadata, (read_exclusions input []).2,
        output ++ ((read_exclusions input []).1.filter (fun c => !g.is_vertex c)).map
          (fun c => not_found_line c.get_name)) ∧
    (∀ x, x ∈ g.clear_metadata.graph → x.visited = false ∧ x.predecessor = none) ∧
    (∀ name, (∀ x y, not_found_line name ≠ no_path_line x y) ∧
      not_found_line name ≠ "***" ∧ ∀ t u s, not_found_line name ≠ step_line t u s) := by
  have hall : ∀ (h : CollabGraph) (check : List Artist),
      (∃ c, c ∈ check ∧ h.is_vertex c = false) → check.all h.is_vertex = false := by
    intro h check ⟨c, hc, hv⟩
    rw [List.all_eq_false]
    exact ⟨c, hc, by simp [hv]⟩
  refine ⟨fun check out hc => ⟨?_, ?_⟩, ?_, ?_, fun name =>
    ⟨not_found_ne_no_path name, not_found_ne_stars name, not_found_ne_step name⟩⟩
  · rw [checkNot_spec, hall g check hc]
  · rw [List.length_map, List.countP_eq_length_filter]
  · have hv : g.clear_metadata.is_vertex = g.is_vertex :=
      funext fun c => (g.clear_metadata_spec.1 c).1
    obtain ⟨c, hc, hcv⟩ := hbad
    unfold prepNot
    simp only [checkNot_spec, hv, hall g _ ⟨c, hc, hcv⟩]
  · intro x hx
    simp only [clear_metadata, List.mem_map] at hx
    obtain ⟨y, _, rfl⟩ := hx
    exact ⟨rfl, rfl⟩

/-- C21, on the scenario `X`-`Y`-`Z`: a `not` query that names the unknown `W`
and `Q` writes their two lines and nothing else. -/
theorem not_query_abandoned_witness :
    (∃ c, c ∈ (read_exclusions ["X", "W", "Z", "Q", "*", "quit"] []).1 ∧
      (build callsXYZ).is_vertex c = false) ∧
    prepNot 0 (build callsXYZ) ["X", "W", "Z", "Q", "*", "quit"] [] =
      (.ok (), (build callsXYZ).clear_metadata, ["quit"],
        ["\"W\" was not found in the dataset :(", "\"Q\" was not found in the dataset :("]) :=
  ⟨⟨artistW, by decide, by decide⟩,
    (not_query_abandoned (build callsXYZ) 0 ["X", "W", "Z", "Q", "*", "quit"] []
      ⟨artistW, by decide, by decide⟩).2.1.trans (by decide)⟩

theorem print_of_report {g : CollabGraph} {fuel : Nat} {a b : Artist} {path : List Artist}
    (h : g.report_path fuel a b = .ok path) (output : List String) :
    print fuel g output a b =
      if path = [] then (.ok (), output ++ [no_path_line a b])
      else (.ok (), output ++
        List.zipWith (fun u v => step_line u v (edge_scan (g.edges u) v)) path path.tail ++
        ["***"]) := by
  obtain ⟨h1, h2⟩ := report_path_vertices h
  unfold print
  rw [h]
  by_cases hp : path = []
  · simp [hp]
  · have hab : a ≠ b := h1 hp
    have hemp : path.isEmpty = false := by
      cases path with
      | nil => exact absurd rfl hp
      | cons x xs => rfl
    simp only [hemp, hab, decide_False, Bool.or_self, Bool.false_eq_true, if_false,
      print_loop_spec g path output h2, hp]

/-- The query `bfs` on cleared metadata: the reported path is non-empty exactly
when a path exists. -/
theorem bfs_query_main {g : CollabGraph} (hw : g.WellFormed) {a b : Artist}
    (ha : g.is_vertex a = true) (hb : g.is_vertex b = true) (hab : a ≠ b) :
    ∃ (n : Nat) (r : Bool) (g2 : CollabGraph) (path : List Artist),
      (∀ fuel, n ≤ fuel →
        bfs fuel g.clear_metadata a b = (.ok r, g2) ∧ g2.report_path fuel a b = .ok path) ∧
      g.SameShape g2 ∧ (path ≠ [] ↔ ∃ p, g.IsPath a b p) ∧ (path ≠ [] → g.IsPath a b path) := by
  obtain ⟨g0, n, r, g2, path, h0, h1, hs, h3, h4, h5⟩ :=
    not_query_main hw [] (fun e he => by simp at he) ha hb hab
  have hg0 : g0 = g.clear_metadata := by
    simp only [mark_exclusions, Prod.mk.injEq, true_and] at h0
    exact h0.symm
  subst hg0
  refine ⟨n, r, g2, path, h1, hs, ?_, ?_⟩
  · cases r with
    | false =>
      rw [h4 rfl]
      constructor
      · intro h; exact absurd rfl h
      · rintro ⟨p, hp⟩
        have := h3.2 ⟨p, hp, fun v _ => by simp⟩
        simp at this
    | true =>
      have hp := (h5 rfl).1
      constructor
      · intro _; exact ⟨path, hp⟩
      · intro _ hnil
        have := hp.1
        rw [hnil] at this
        simp at this
  · intro hne
    cases r with
    | false => exact absurd (h4 rfl) hne
    | true => exact (h5 rfl).1

/-- The query `dfs` on cleared metadata: the reported path is non-empty exactly
when a path exists. -/
theorem dfs_query_main {g : CollabGraph} (hw : g.WellFormed) {a b : Artist}
    (ha : g.is_vertex a = true) (hb : g.is_vertex b = true) (hab : a ≠ b) :
    ∃ (n : Nat) (g2 : CollabGraph) (path : List Artist),
      (∀ fuel, n ≤ fuel →
        dfs fuel g.clear_metadata a b = (.ok false, g2) ∧ g2.report_path fuel a b = .ok path) ∧
      DfsPost a b g.clear_metadata g2 ∧ g2.vis a = true ∧
      (path ≠ [] ↔ ∃ p, g.IsPath a b p) ∧ (path ≠ [] → g.IsPath a b path) := by
  obtain ⟨c1, c2, c3⟩ := g.clear_metadata_spec
  obtain ⟨n, g2, e1, e2, e3⟩ := dfs_main hw (b := b) ha
  have hdec : decide (a = b) = false := by simp [hab]
  rw [hdec] at e1
  have hs2 : g.SameShape g2 := c1.trans e2.shape
  have ha2 : g2.is_vertex a = true := by rw [(hs2 a).1]; exact ha
  have hb2 : g2.is_vertex b = true := by rw [(hs2 b).1]; exact hb
  cases hvb : g2.vis b with
  | false =>
    have hpb : g2.prd b = none := e2.fresh b hvb
    refine ⟨n, g2, [], fun fuel hfu => ⟨e1 fuel hfu, report_path_none ha2 hb2 hpb fuel⟩,
      e2, e3, ?_, fun h => absurd rfl h⟩
    constructor
    · intro h; exact absurd rfl h
    · rintro ⟨p, hp⟩
      have hr : ReachN g.clear_metadata a (p.length - 1) b :=
        reachN_of_chain _ a p b hp.1 hp.2.1 (chain_of_isPath hw c1 hp.2.2) (fun v _ => c2 v)
      rcases dfs_marks_reachable e2 c2 e3 _ _ hr with h | h <;> simp [hvb] at h
  | true =>
    obtain ⟨k, hk⟩ := e2.linked b hvb
    have hpb : g2.prd b ≠ none := by
      cases hk with
      | root => exact absurd rfl hab
      | link hpq _ _ => rw [hpq]; simp
    obtain ⟨chain, d1, d2, d3, d4⟩ := linked_chain hk ha2
    have hpath : g.IsPath a b chain := ⟨d1, d2, isPath_of_chain hw hs2 d3⟩
    have hne : chain ≠ [] := by
      intro hnil
      rw [hnil] at d1
      simp at d1
    refine ⟨max n (k + 1), g2, chain, fun fuel hfu => ⟨e1 fuel (by omega), ?_⟩, e2, e3,
      ⟨fun _ => ⟨chain, hpath⟩, fun _ => hne⟩, fun _ => hpath⟩
    rw [report_path_some ha2 hb2 hab hpb]
    have := d4 fuel [] (by omega)
    simpa using this

theorem checkDFSBFS_spec (g : CollabGraph) (a b : Artist) (output : List String) :
    checkDFSBFS g a b output =
      (g.is_vertex a && g.is_vertex b,
        output ++ (if g.is_vertex a = true then [] else [not_found_line a.get_name]) ++
          (if g.is_vertex b = true then [] else [not_found_line b.get_name])) := by
  cases ha : g.is_vertex a <;> cases hb : g.is_vertex b <;>
    simp [checkDFSBFS, ha, hb, printBadArt_eq]

theorem prepBFS_valid {g : CollabGraph} {fuel : Nat} {s d : String} {r : Bool}
    {g2 : CollabGraph} {path : List Artist} (ha : g.is_vertex ⟨s⟩ = true)
    (hb : g.is_vertex ⟨d⟩ = true) (hrun : bfs fuel g.clear_metadata ⟨s⟩ ⟨d⟩ = (.ok r, g2))
    (hrep : g2.report_path fuel ⟨s⟩ ⟨d⟩ = .ok path) (input output : List String) :
    prepBFS fuel g (s :: d :: input) output =
      (.ok (), g2, input,
        if path = [] then output ++ [no_path_line ⟨s⟩ ⟨d⟩]
        else output ++ List.zipWith (fun u v => step_line u v (edge_scan (g2.edges u) v))
          path path.tail ++ ["***"]) := by
  have hv : g.clear_metadata.is_vertex = g.is_vertex :=
    funext fun c => (g.clear_metadata_spec.1 c).1
  simp only [prepBFS, getline, checkDFSBFS_spec, hv, ha, hb, Bool.and_self, if_true,
    List.append_nil, hrun, print_of_report hrep]
  by_cases hp : path = [] <;> simp [hp]

theorem prepDFS_valid {g : CollabGraph} {fuel : Nat} {s d : String} {r : Bool}
    {g2 : CollabGraph} {path : List Artist} (ha : g.is_vertex ⟨s⟩ = true)
    (hb : g.is_vertex ⟨d⟩ = true) (hrun : dfs fuel g.clear_metadata ⟨s⟩ ⟨d⟩ = (.ok r, g2))
    (hrep : g2.report_path fuel ⟨s⟩ ⟨d⟩ = .ok path) (input output : List String) :
    prepDFS fuel g (s :: d :: input) output =
      (.ok (), g2, input,
        if path = [] then output ++ [no_path_line ⟨s⟩ ⟨d⟩]
        else output ++ List.zipWith (fun u v => step_line u v (edge_scan (g2.edges u) v))
          path path.tail ++ ["***"]) := by
  have hv : g.clear_metadata.is_vertex = g.is_vertex :=
    funext fun c => (g.clear_metadata_spec.1 c).1
  simp only [prepDFS, getline, checkDFSBFS_spec, hv, ha, hb, Bool.and_self, if_true,
    List.append_nil, hrun, print_of_report hrep]
  by_cases hp : path = [] <;> simp [hp]

/-- C22 fails when both names are unknown: the query `bfs W Q` on the scenario
`X`-`Y`-`Z` writes two diagnostic lines, and so does `dfs W Q`. -/
theorem two_unknown_names_two_lines :
    (build callsXYZ).is_vertex (Artist.mk "W") = false ∧
    (build callsXYZ).is_vertex (Artist.mk "Q") = false ∧
    (prepBFS 10 (build callsXYZ) ["W", "Q"] []).2.2.2 =
      ["\"W\" was not found in the dataset :(", "\"Q\" was not found in the dataset :("] ∧
    (prepDFS 10 (build callsXYZ) ["W", "Q"] []).2.2.2 =
      ["\"W\" was not found in the dataset :(", "\"Q\" was not found in the dataset :("] ∧
    (prepBFS 10 (build callsXYZ) ["W", "Q"] []).2.2.2.length ≠ 1 := by
  decide

/-- C22, amended.  A failed `bfs` or `dfs` query on a built store writes no
`***` terminator, and it writes: one "was not found" line for each of the two
names that is not a vertex, the source first (two lines when both are unknown),
without running the traversal; exactly one "path does not exist" line when both
names are vertices and they are the same or no path joins them.  When both are
vertices, differ and a path joins them, the output ends with `***`. -/
theorem failed_query_diagnostics (calls : List Call) (s d : String)
    (input output : List String) :
    (((build calls).is_vertex ⟨s⟩ = false ∨ (build calls).is_vertex ⟨d⟩ = false) →
      ∀ fuel,
        prepBFS fuel (build calls) (s :: d :: input) output =
          (.ok (), (build calls).clear_metadata, input,
            output ++ (if (build calls).is_vertex ⟨s⟩ = true then [] else [not_found_line s]) ++
              (if (build calls).is_vertex ⟨d⟩ = true then [] else [not_found_line d])) ∧
        prepDFS fuel (build calls) (s :: d :: input) output =
          (.ok (), (build calls).clear_metadata, input,
            output ++ (if (build calls).is_vertex ⟨s⟩ = true then [] else [not_found_line s]) ++
              (if (build calls).is_vertex ⟨d⟩ = true then [] else [not_found_line d]))) ∧
    ((build calls).is_vertex ⟨s⟩ = true → (build calls).is_vertex ⟨d⟩ = true →
      (s = d ∨ ¬ ∃ p, (build calls).IsPath ⟨s⟩ ⟨d⟩ p) →
      ∃ n, ∀ fuel, n ≤ fuel → ∃ g1 g2,
        prepBFS fuel (build calls) (s :: d :: input) output =
          (.ok (), g1, input, output ++ [no_path_line ⟨s⟩ ⟨d⟩]) ∧
        prepDFS fuel (build calls) (s :: d :: input) output =
          (.ok (), g2, input, output ++ [no_path_line ⟨s⟩ ⟨d⟩])) ∧
    ((build calls).is_vertex ⟨s⟩ = true → (build calls).is_vertex ⟨d⟩ = true →
      s ≠ d → (∃ p, (build calls).IsPath ⟨s⟩ ⟨d⟩ p) →
      ∃ n, ∀ fuel, n ≤ fuel → ∃ g1 g2 steps1 steps2,
        prepBFS fuel (build calls) (s :: d :: input) output =
          (.ok (), g1, input, output ++ steps1 ++ ["***"]) ∧
        prepDFS fuel (build calls) (s :: d :: input) output =
          (.ok (), g2, input, output ++ steps2 ++ ["***"])) ∧
    (∀ name x y, not_found_line name ≠ "***" ∧ no_path_line x y ≠ "***") := by
  have hw := (build_inv calls).1
  have hv : (build calls).clear_metadata.is_vertex = (build calls).is_vertex :=
    funext fun c => ((build calls).clear_metadata_spec.1 c).1
  refine ⟨fun hbad fuel => ?_, fun ha hb hfail => ?_, fun ha hb hsd hex => ?_, fun name x y =>
    ⟨not_found_ne_stars name, ?_⟩⟩
  · have hand : ((build calls).is_vertex ⟨s⟩ && (build calls).is_vertex ⟨d⟩) = false := by
      rcases hbad with h | h <;> simp [h]
    constructor
    · simp only [prepBFS, getline, checkDFSBFS_spec, hv, hand, Artist.get_name]
    · simp only [prepDFS, getline, checkDFSBFS_spec, hv, hand, Artist.get_name]
  · have hc := (build calls).clear_metadata_spec
    by_cases hsd : s = d
    · subst hsd
      have ha1 : (build calls).clear_metadata.is_vertex ⟨s⟩ = true := by rw [hv]; exact ha
      obtain ⟨m, g2, e1, e2, _⟩ := dfs_main hw (a := ⟨s⟩) (b := ⟨s⟩) ha
      have ha2 : g2.is_vertex ⟨s⟩ = true := by rw [(e2.shape ⟨s⟩).1]; exact ha1
      refine ⟨m, fun fuel hfu => ⟨(build calls).clear_metadata, g2, ?_, ?_⟩⟩
      · have hrun : bfs fuel (build calls).clear_metadata ⟨s⟩ ⟨s⟩ =
            (.ok false, (build calls).clear_metadata) := by simp [bfs]
        have := prepBFS_valid ha ha hrun (report_path_same _ ⟨s⟩ ha1 fuel) input output
        simpa using this
      · have := prepDFS_valid ha ha (e1 fuel hfu) (report_path_same g2 ⟨s⟩ ha2 fuel)
          input output
        simpa using this
    · have hab : (⟨s⟩ : Artist) ≠ ⟨d⟩ := fun h => hsd (congrArg Artist.name h)
      have hno : ¬ ∃ p, (build calls).IsPath ⟨s⟩ ⟨d⟩ p := by
        rcases hfail with h | h
        · exact absurd h hsd
        · exact h
      obtain ⟨n1, r, g1, p1, b1, _, b3, _⟩ := bfs_query_main hw ha hb hab
      obtain ⟨n2, g2, p2, d1, _, _, d3, _⟩ := dfs_query_main hw ha hb hab
      have hp1 : p1 = [] := by
        by_contra h; exact hno (b3.1 h)
      have hp2 : p2 = [] := by
        by_contra h; exact hno (d3.1 h)
      subst hp1 hp2
      refine ⟨max n1 n2, fun fuel hfu => ⟨g1, g2, ?_, ?_⟩⟩
      · have := prepBFS_valid ha hb (b1 fuel (by omega)).1 (b1 fuel (by omega)).2 input output
        simpa using this
      · have := prepDFS_valid ha hb (d1 fuel (by omega)).1 (d1 fuel (by omega)).2 input output
        simpa using this
  · have hab : (⟨s⟩ : Artist) ≠ ⟨d⟩ := fun h => hsd (congrArg Artist.name h)
    obtain ⟨n1, r, g1, p1, b1, _, b3, _⟩ := bfs_query_main hw ha hb hab
    obtain ⟨n2, g2, p2, d1, _, _, d3, _⟩ := dfs_query_main hw ha hb hab
    have hp1 : p1 ≠ [] := b3.2 hex
    have hp2 : p2 ≠ [] := d3.2 hex
    refine ⟨max n1 n2, fun fuel hfu => ⟨g1, g2,
      List.zipWith (fun u v => step_line u v (edge_scan (g1.edges u) v)) p1 p1.tail,
      List.zipWith (fun u v => step_line u v (edge_scan (g2.edges u) v)) p2 p2.tail, ?_, ?_⟩⟩
    · have := prepBFS_valid ha hb (b1 fuel (by omega)).1 (b1 fuel (by omega)).2 input output
      rw [if_neg hp1] at this
      exact this
    · have := prepDFS_valid ha hb (d1 fuel (by omega)).1 (d1 fuel (by omega)).2 input output
      rw [if_neg hp2] at this
      exact this
  · intro h
    have := congrArg String.data h
    simp [no_path_line] at this

/-- After `dfs`, the end of a walk from the source is marked when the
destination is not among the vertices before it. -/
theorem dfs_marks_walk {g0 g2 : CollabGraph} {a b : Artist} (hp : DfsPost a b g0 g2)
    (h0 : ∀ v, g0.vis v = false) (ha : g2.vis a = true) :
    ∀ (p : List Artist) (v : Artist), p.head? = some a → p.getLast? = some v →
      List.Chain' (fun u w => w ∈ g2.nbrs u) p → (∀ u, u ∈ p.dropLast → u ≠ b) →
      g2.vis v = true := by
  intro p
  induction p using List.reverseRecOn with
  | nil => intro v h; simp at h
  | append_singleton q x ih =>
    intro v h1 h2 h3 h4
    rw [List.getLast?_concat] at h2
    have hv : x = v := Option.some.inj h2
    subst hv
    rw [List.dropLast_concat] at h4
    rcases List.eq_nil_or_concat q with hq | ⟨L, u, hq⟩
    · subst hq
      simp only [List.nil_append, List.head?_cons, Option.some.injEq] at h1
      rw [h1]; exact ha
    · rw [List.concat_eq_append] at hq
      subst hq
      have hne : L ++ [u] ≠ [] := by simp
      rw [List.head?_append_of_ne_nil _ hne] at h1
      rw [List.chain'_append] at h3
      obtain ⟨c1, _, c3⟩ := h3
      have hu : g2.vis u = true :=
        ih u h1 (List.getLast?_concat L) c1
          (fun w hw => h4 w (by
            rw [List.dropLast_concat] at hw
            exact List.mem_append_left _ hw))
      have hub : u ≠ b := h4 u (by simp)
      have hxu : x ∈ g2.nbrs u := c3 u (by simp [List.getLast?_concat]) x (by simp)
      exact hp.closure u hu (h0 u) hub x hxu

theorem isPath_initial {g : CollabGraph} {a v x : Artist} {p : List Artist}
    (hp : g.IsPath a v p) (hx : x ∈ p) : ∃ q, g.IsPath a x q := by
  obtain ⟨l1, l2, rfl⟩ := List.append_of_mem hx
  have e : l1 ++ x :: l2 = (l1 ++ [x]) ++ l2 := by simp
  obtain ⟨h1, _, h3⟩ := hp
  rw [e] at h1 h3
  refine ⟨l1 ++ [x], ?_, List.getLast?_concat l1, (List.chain'_append.1 h3).1⟩
  rw [List.head?_append_of_ne_nil _ (by simp)] at h1
  exact h1

/-- C25 fails on the code: in the scenario `X`-`Y`-`Z`, `Z` is reachable from
`X`, and `dfs(X, Y)` on cleared metadata leaves `Z` unmarked, because the call
on the destination `Y` returns before it looks at the neighbours of `Y`. -/
theorem dfs_leaves_reachable_vertex_unmarked :
    (build callsXYZ).IsPath artistX artistZ [artistX, artistY, artistZ] ∧
    artistX ≠ artistY ∧
    dfs 10 (build callsXYZ).clear_metadata artistX artistY =
      (.ok false, (dfs 10 (build callsXYZ).clear_metadata artistX artistY).2) ∧
    (dfs 10 (build callsXYZ).clear_metadata artistX artistY).2.is_marked artistY = .ok true ∧
    (dfs 10 (build callsXYZ).clear_metadata artistX artistY).2.is_marked artistZ = .ok false :=
  ⟨⟨by decide, by decide,
      List.Chain'.cons (by decide) (List.Chain'.cons (by decide) (List.chain'_singleton _))⟩,
    by decide, by decide, by decide, by decide⟩

/-- C25, amended.  On a built store with cleared metadata and a vertex `a ≠ b`,
`dfs(a,b)` returns and has marked every vertex that a path from `a` reaches
without passing through `b` (the vertices of the path before its last are not
`b`); the destination is not expanded.  In particular, when no path leads from
`a` to `b`, every vertex reachable from `a` is marked.  Every marked vertex is
reachable from `a`. -/
theorem dfs_marks_reachable_avoiding_destination (calls : List Call) (a b : Artist)
    (ha : (build calls).is_vertex a = true) (hab : a ≠ b) :
    ∃ (n : Nat) (g2 : CollabGraph),
      (∀ fuel, n ≤ fuel → dfs fuel (build calls).clear_metadata a b = (.ok false, g2)) ∧
      (∀ p v, (build calls).IsPath a v p → (∀ u, u ∈ p.dropLast → u ≠ b) →
        g2.is_marked v = .ok true) ∧
      ((¬ ∃ p, (build calls).IsPath a b p) →
        ∀ p v, (build calls).IsPath a v p → g2.is_marked v = .ok true) ∧
      (∀ v, g2.is_marked v = .ok true → ∃ p, (build calls).IsPath a v p) := by
  have hw := (build_inv calls).1
  obtain ⟨c1, c2, c3⟩ := (build calls).clear_metadata_spec
  obtain ⟨n, g2, e1, e2, e3⟩ := dfs_main hw (b := b) ha
  have hdec : decide (a = b) = false := by simp [hab]
  rw [hdec] at e1
  have hs2 : (build calls).SameShape g2 := c1.trans e2.shape
  have ha2 : g2.is_vertex a = true := by rw [(hs2 a).1]; exact ha
  have key : ∀ p v, (build calls).IsPath a v p → (∀ u, u ∈ p.dropLast → u ≠ b) →
      g2.is_marked v = .ok true := by
    intro p v hp hav
    have hv := dfs_marks_walk e2 c2 e3 p v hp.1 hp.2.1 (chain_of_isPath hw hs2 hp.2.2) hav
    rw [is_marked_eq (vis_vertex hv), hv]
  refine ⟨n, g2, e1, key, fun hno p v hp => key p v hp ?_, fun v hv => ?_⟩
  · intro u hu hub
    subst hub
    exact hno (isPath_initial hp (List.mem_of_mem_dropLast hu))
  · have hvv : g2.vis v = true := by
      cases hiv : g2.is_vertex v with
      | false => simp [is_marked, enforce_unknown hiv] at hv
      | true =>
        rw [is_marked_eq hiv] at hv
        simpa using hv
    obtain ⟨k, hk⟩ := e2.linked v hvv
    obtain ⟨chain, d1, d2, d3, _⟩ := linked_chain hk ha2
    exact ⟨chain, d1, d2, isPath_of_chain hw hs2 d3⟩

/-- C25 amended, on the scenario `X`-`Y`-`Z` with source `X` and destination
`Y`: the destination is marked, and `Z` behind it is not. -/
theorem dfs_marks_reachable_avoiding_destination_witness :
    (build callsXYZ).is_vertex artistX = true ∧ artistX ≠ artistY ∧
    (∃ (n : Nat) (g2 : CollabGraph),
      (∀ fuel, n ≤ fuel →
        dfs fuel (build callsXYZ).clear_metadata artistX artistY = (.ok false, g2)) ∧
      (∀ p v, (build callsXYZ).IsPath artistX v p → (∀ u, u ∈ p.dropLast → u ≠ artistY) →
        g2.is_marked v = .ok true) ∧
      ((¬ ∃ p, (build callsXYZ).IsPath artistX artistY p) →
        ∀ p v, (build callsXYZ).IsPath artistX v p → g2.is_marked v = .ok true) ∧
      (∀ v, g2.is_marked v = .ok true → ∃ p, (build callsXYZ).IsPath artistX v p)) ∧
    (dfs 10 (build callsXYZ).clear_metadata artistX artistY).2.is_marked artistY = .ok true :=
  ⟨by decide, by decide,
    dfs_marks_reachable_avoiding_destination callsXYZ artistX artistY (by decide) (by decide),
    by decide⟩

theorem bfs_neighbors_total {g0 : CollabGraph} (hw : g0.WellFormed) {b x : Artist} :
    ∀ (rest : List Artist) (g : CollabGraph) (q : List Artist), g0.SameShape g →
      g.is_vertex x = true → (∀ t, t ∈ rest → t ∈ g0.nbrs x) →
      ∃ r g1 pushed, bfs_neighbors b x g q rest = (.ok r, g1, q ++ pushed) ∧
        g.SameShape g1 ∧ (∀ z, g1.vis z = g.vis z) ∧
        ∀ v, v ∈ pushed → g.vis v = false ∧ g0.is_vertex v = true := by
  intro rest
  induction rest with
  | nil =>
    intro g q _ _ _
    exact ⟨false, g, [], by simp [bfs_neighbors], SameShape.refl g, fun _ => rfl, by simp⟩
  | cons t rest ih =>
    intro g q hs hx hsub
    have hta : t ∈ g0.nbrs x := hsub t (List.mem_cons_self _ _)
    have ht0 : g0.is_vertex t = true := hw.closed x t hta
    have htv : g.is_vertex t = true := by rw [(hs t).1]; exact ht0
    have hsub2 : ∀ u, u ∈ rest → u ∈ g0.nbrs x := fun u hu => hsub u (List.mem_cons_of_mem _ hu)
    cases hvt : g.vis t with
    | true =>
      obtain ⟨r, g1, pushed, e1, e2, e3, e4⟩ := ih g q hs hx hsub2
      refine ⟨r, g1, pushed, ?_, e2, e3, e4⟩
      simp only [bfs_neighbors, is_marked_eq htv, hvt]
      exact e1
    | false =>
      obtain ⟨g1, s1, s2, s3, _⟩ := set_predecessor_spec htv hx
      by_cases htb : t = b
      · refine ⟨true, g1, [t], ?_, s2, s3, ?_⟩
        · simp only [bfs_neighbors, is_marked_eq htv, hvt, s1]
          simp [htb]
        · intro v hv
          simp only [List.mem_singleton] at hv
          rw [hv]; exact ⟨hvt, ht0⟩
      · obtain ⟨r, g2, pushed, e1, e2, e3, e4⟩ :=
          ih g1 (q ++ [t]) (hs.trans s2) (by rw [(s2 x).1]; exact hx) hsub2
        refine ⟨r, g2, t :: pushed, ?_, s2.trans e2, fun z => (e3 z).trans (s3 z), ?_⟩
        · simp only [bfs_neighbors, is_marked_eq htv, hvt, s1, htb]
          simp only [if_false]
          rw [e1]
          simp
        · intro v hv
          rcases List.mem_cons.1 hv with hv | hv
          · rw [hv]; exact ⟨hvt, ht0⟩
          · have := e4 v hv
            rw [s3] at this
            exact this

/-- The loop of `bfs` returns on every store with the shape of a well-formed
store: a dequeue either marks an unmarked vertex, or removes a marked entry from
the queue and adds unmarked ones only. -/
theorem bfs_loop_total {g0 : CollabGraph} (hw : g0.WellFormed) (b : Artist) (V : List Artist)
    (hV : ∀ x, g0.is_vertex x = true → x ∈ V) :
    ∀ (m c : Nat) (g : CollabGraph) (q : List Artist),
      V.countP (fun v => !g.vis v) ≤ m → q.countP g.vis ≤ c → g0.SameShape g →
      (∀ v, v ∈ q → g0.is_vertex v = true) →
      ∃ n r g2, (∀ fuel, n ≤ fuel → bfs_loop b fuel g q = (.ok r, g2)) ∧ g.SameShape g2 ∧
        ∀ v, g.vis v = true → g2.vis v = true := by
  intro m
  induction m using Nat.strong_induction_on with
  | _ m ihm =>
  intro c
  induction c using Nat.strong_induction_on with
  | _ c ihc =>
  intro g q hm hc hs hq
  cases q with
  | nil =>
    refine ⟨1, false, g, ?_, SameShape.refl g, fun _ h => h⟩
    intro fuel hf
    obtain ⟨f, rfl⟩ : ∃ f, fuel = f + 1 := ⟨fuel - 1, by omega⟩
    simp [bfs_loop]
  | cons x q3 =>
    have hx0 : g0.is_vertex x = true := hq x (List.mem_cons_self _ _)
    have hxv : g.is_vertex x = true := by rw [(hs x).1]; exact hx0
    obtain ⟨g1, m1, m2, m3, _⟩ := mark_vertex_spec hxv
    have hxv1 : g1.is_vertex x = true := by rw [(m2 x).1]; exact hxv
    obtain ⟨r, g2, pushed, e1, e2, e3, e4⟩ :=
      bfs_neighbors_total hw (b := b) (g0.nbrs x) g1 q3 (hs.trans m2) hxv1 (fun _ ht => ht)
    have hnb : g1.get_vertex_neighbors x = .ok (g0.nbrs x) := by
      rw [get_vertex_neighbors_eq hxv1, (hs.trans m2).nbrs]
    have hstep : ∀ f, bfs_loop b (f + 1) g (x :: q3) =
        (match r with
          | true => (.ok true, g2)
          | false => bfs_loop b f g2 (q3 ++ pushed)) := by
      intro f
      simp only [bfs_loop, m1, hnb, e1]
      cases r <;> rfl
    have hvis2 : ∀ z, g2.vis z = (decide (z = x) || g.vis z) := fun z => (e3 z).trans (m3 z)
    have hmono : ∀ v, g.vis v = true → g2.vis v = true := by
      intro v hv
      rw [hvis2, hv]; simp
    cases r with
    | true =>
      refine ⟨1, true, g2, ?_, m2.trans e2, hmono⟩
      intro fuel hfu
      obtain ⟨f, rfl⟩ : ∃ f, fuel = f + 1 := ⟨fuel - 1, by omega⟩
      rw [hstep]
    | false =>
      have hq2 : ∀ v, v ∈ q3 ++ pushed → g0.is_vertex v = true := by
        intro v hv
        rcases List.mem_append.1 hv with hv | hv
        · exact hq v (List.mem_cons_of_mem _ hv)
        · exact (e4 v hv).2
      have hs2 : g0.SameShape g2 := (hs.trans m2).trans e2
      have hrec : ∃ n r g3, (∀ fuel, n ≤ fuel → bfs_loop b fuel g2 (q3 ++ pushed) = (.ok r, g3)) ∧
          g2.SameShape g3 ∧ ∀ v, g2.vis v = true → g3.vis v = true := by
        cases hgx : g.vis x with
        | false =>
          have hlt : V.countP (fun v => !g2.vis v) < V.countP (fun v => !g.vis v) := by
            apply countP_lt_of_mem V _ _ _ x (hV x hx0)
            · simp [hgx]
            · simp [hvis2]
            · intro z hz
              rw [hvis2] at hz
              simp only [Bool.not_eq_true', Bool.or_eq_false_iff] at hz
              simp [hz.2]
          exact ihm _ (lt_of_lt_of_le hlt hm) _ g2 (q3 ++ pushed) (le_refl _) (le_refl _) hs2 hq2
        | true =>
          have hsame : ∀ z, g2.vis z = g.vis z := by
            intro z
            rw [hvis2]
            by_cases hz : z = x
            · subst hz; simp [hgx]
            · simp [hz]
          have e8 : g2.vis = g.vis := funext hsame
          have hm2 : V.countP (fun v => !g2.vis v) ≤ m := by
            rw [e8]; exact hm
          have hc2 : (q3 ++ pushed).countP g2.vis < c := by
            rw [e8, List.countP_append]
            have hz : pushed.countP g.vis = 0 := by
              rw [List.countP_eq_zero]
              intro v hv
              have := (e4 v hv).1
              rw [m3] at this
              simp only [Bool.or_eq_false_iff] at this
              simp [this.2]
            rw [hz]
            rw [List.countP_cons_of_pos _ _ hgx] at hc
            omega
          exact ihc _ hc2 g2 (q3 ++ pushed) hm2 (le_refl _) hs2 hq2
      obtain ⟨n, r, g3, hn, hs3, hmono3⟩ := hrec
      refine ⟨n + 1, r, g3, ?_, (m2.trans e2).trans hs3, fun v hv => hmono3 v (hmono v hv)⟩
      intro fuel hfu
      obtain ⟨f, rfl⟩ : ∃ f, fuel = f + 1 := ⟨fuel - 1, by omega⟩
      rw [hstep]
      exact hn f (by omega)

/-- The search `bfs` returns on every well-formed store. -/
theorem bfs_total {g : CollabGraph} (hw : g.WellFormed) (a b : Artist)
    (ha : g.is_vertex a = true) :
    ∃ n r g2, (∀ fuel, n ≤ fuel → bfs fuel g a b = (.ok r, g2)) ∧ g.SameShape g2 ∧
      ∀ v, g.vis v = true → g2.vis v = true := by
  by_cases hab : a = b
  · exact ⟨0, false, g, fun fuel _ => by simp [bfs, hab], SameShape.refl g, fun _ h => h⟩
  · cases hva : g.vis a with
    | true =>
      exact ⟨0, false, g, fun fuel _ => by simp [bfs, hab, is_marked_eq ha, hva],
        SameShape.refl g, fun _ h => h⟩
    | false =>
      obtain ⟨n, r, g2, e1, e2, e3⟩ :=
        bfs_loop_total hw b (g.graph.map (fun v => v.artist))
          (fun x hx => mem_graph_of_is_vertex hx) _ _ g [a] (le_refl _) (le_refl _)
          (SameShape.refl g) (fun v hv => by
            simp only [List.mem_singleton] at hv
            rw [hv]; exact ha)
      refine ⟨n, r, g2, fun fuel hfu => ?_, e2, e3⟩
      simp only [bfs, hab, if_false, is_marked_eq ha, hva]
      exact e1 fuel hfu

theorem dfs_neighbors_total {g0 : CollabGraph} (hw : g0.WellFormed) {a : Artist}
    (V : List Artist) (m : Nat)
    (rec_dfs : Nat → CollabGraph → Artist → Except Error Bool × CollabGraph)
    (hrec : ∀ (g : CollabGraph) (t : Artist), g0.SameShape g → g.is_vertex t = true →
      g.vis t = false → V.countP (fun v => !g.vis v) ≤ m →
      ∃ r h, (∀ f, m ≤ f → rec_dfs f g t = (.ok r, h)) ∧ g.SameShape h ∧
        (∀ v, g.vis v = true → h.vis v = true)) :
    ∀ (rest : List Artist) (g : CollabGraph), g0.SameShape g → g.is_vertex a = true →
      (∀ t, t ∈ rest → t ∈ g0.nbrs a) → V.countP (fun v => !g.vis v) ≤ m →
      ∃ h, (∀ f, m ≤ f → dfs_neighbors (rec_dfs f) a g rest = (.ok (), h)) ∧
        g.SameShape h ∧ ∀ v, g.vis v = true → h.vis v = true := by
  intro rest
  induction rest with
  | nil =>
    intro g _ _ _ _
    exact ⟨g, fun _ _ => rfl, SameShape.refl g, fun _ h => h⟩
  | cons t rest ih =>
    intro g hs ha hsub hcount
    have hta : t ∈ g0.nbrs a := hsub t (List.mem_cons_self _ _)
    have htv : g.is_vertex t = true := by rw [(hs t).1]; exact hw.closed a t hta
    have hsub2 : ∀ u, u ∈ rest → u ∈ g0.nbrs a := fun u hu => hsub u (List.mem_cons_of_mem _ hu)
    cases hvt : g.vis t with
    | true =>
      obtain ⟨h, e1, e2, e3⟩ := ih g hs ha hsub2 hcount
      refine ⟨h, ?_, e2, e3⟩
      intro f hf
      simp only [dfs_neighbors, is_marked_eq htv, hvt]
      exact e1 f hf
    | false =>
      obtain ⟨g1, s1, s2, s3, _⟩ := set_predecessor_spec htv ha
      have hc1 : V.countP (fun v => !g1.vis v) ≤ m := by
        have : (fun v => !g1.vis v) = (fun v => !g.vis v) := by
          funext v; rw [s3]
        rw [this]; exact hcount
      obtain ⟨r, g2, r1, r2, r3⟩ := hrec g1 t (hs.trans s2) (by rw [(s2 t).1]; exact htv)
        (by rw [s3]; exact hvt) hc1
      obtain ⟨h, e1, e2, e3⟩ := ih g2 ((hs.trans s2).trans r2)
        (by rw [(r2 a).1, (s2 a).1]; exact ha) hsub2
        (le_trans (countP_unmarked_le V r3) hc1)
      refine ⟨h, ?_, (s2.trans r2).trans e2, fun v hv => e3 v (r3 v (by rw [s3]; exact hv))⟩
      intro f hf
      simp only [dfs_neighbors, is_marked_eq htv, hvt, s1, r1 f hf]
      exact e1 f hf

/-- The search `dfs` called on an unmarked vertex returns, with a recursion depth
of at most the number of unmarked vertices. -/
theorem dfs_total_unmarked {g0 : CollabGraph} (hw : g0.WellFormed) (b : Artist)
    (V : List Artist) (hV : ∀ x, g0.is_vertex x = true → x ∈ V) :
    ∀ (m : Nat) (g : CollabGraph) (x : Artist), g0.SameShape g →
      g.is_vertex x = true → g.vis x = false → V.countP (fun v => !g.vis v) ≤ m →
      ∃ h, (∀ fuel, m ≤ fuel → dfs fuel g x b = (.ok (decide (x = b)), h)) ∧
        g.SameShape h ∧ ∀ v, g.vis v = true → h.vis v = true := by
  intro m
  induction m with
  | zero =>
    intro g x hs hx hvx hcount
    have hxV : x ∈ V := hV x (by rw [← (hs x).1]; exact hx)
    have : 0 < V.countP (fun v => !g.vis v) :=
      List.countP_pos_iff.2 ⟨x, hxV, by simp [hvx]⟩
    omega
  | succ m ih =>
    intro g x hs hx hvx hcount
    obtain ⟨g1, m1, m2, m3, _⟩ := mark_vertex_spec hx
    have hxV : x ∈ V := hV x (by rw [← (hs x).1]; exact hx)
    have hx1 : g1.vis x = true := by simp [m3]
    have hmono1 : ∀ v, g.vis v = true → g1.vis v = true := fun v hv => by simp [m3, hv]
    have hc1 : V.countP (fun v => !g1.vis v) ≤ m := by
      have hlt : V.countP (fun v => !g1.vis v) < V.countP (fun v => !g.vis v) := by
        apply countP_lt_of_mem V _ _ _ x hxV
        · simp [hvx]
        · simp [hx1]
        · intro z hz
          cases hg : g.vis z with
          | false => rfl
          | true => rw [hmono1 z hg] at hz; simp at hz
      omega
    by_cases hxb : x = b
    · refine ⟨g1, ?_, m2, hmono1⟩
      intro fuel hfu
      obtain ⟨f, rfl⟩ : ∃ f, fuel = f + 1 := ⟨fuel - 1, by omega⟩
      subst hxb
      simp [dfs, m1]
    · have hx1v : g1.is_vertex x = true := by rw [(m2 x).1]; exact hx
      have hnb : g1.get_vertex_neighbors x = .ok (g0.nbrs x) := by
        rw [get_vertex_neighbors_eq hx1v, (hs.trans m2).nbrs]
      obtain ⟨h, e1, e2, e3⟩ := dfs_neighbors_total hw (a := x) V m
        (fun f g2 temp => dfs f g2 temp b)
        (fun g2 t c1 c2 c3 c4 => by
          obtain ⟨h, d1, d2, d3⟩ := ih g2 t c1 c2 c3 c4
          exact ⟨_, h, d1, d2, d3⟩)
        (g0.nbrs x) g1 (hs.trans m2) hx1v (fun _ ht => ht) hc1
      refine ⟨h, ?_, m2.trans e2, fun v hv => e3 v (hmono1 v hv)⟩
      intro fuel hfu
      obtain ⟨f, rfl⟩ : ∃ f, fuel = f + 1 := ⟨fuel - 1, by omega⟩
      simp only [dfs, m1, hxb, if_false, hnb, e1 f (by omega), decide_False]

/-- The search `dfs` returns on every well-formed store, whatever is marked. -/
theorem dfs_total {g : CollabGraph} (hw : g.WellFormed) (a b : Artist)
    (ha : g.is_vertex a = true) :
    ∃ g2, (∀ fuel, g.graph.length + 1 ≤ fuel →
        dfs fuel g a b = (.ok (decide (a = b)), g2)) ∧
      g.SameShape g2 ∧ ∀ v, g.vis v = true → g2.vis v = true := by
  have hV : ∀ x, g.is_vertex x = true → x ∈ g.graph.map (fun v => v.artist) :=
    fun x hx => mem_graph_of_is_vertex hx
  have hlen : ∀ h : CollabGraph,
      (g.graph.map (fun v => v.artist)).countP (fun v => !h.vis v) ≤ g.graph.length := by
    intro h
    have := List.countP_le_length (fun v => !h.vis v) (l := g.graph.map (fun v => v.artist))
    simpa using this
  cases hva : g.vis a with
  | false =>
    obtain ⟨h, e1, e2, e3⟩ := dfs_total_unmarked hw b _ hV g.graph.length g a
      (SameShape.refl g) ha hva (hlen g)
    exact ⟨h, fun fuel hfu => e1 fuel (by omega), e2, e3⟩
  | true =>
    obtain ⟨g1, m1, m2, m3, _⟩ := mark_vertex_spec ha
    have hmono1 : ∀ v, g.vis v = true → g1.vis v = true := fun v hv => by simp [m3, hv]
    by_cases hab : a = b
    · refine ⟨g1, ?_, m2, hmono1⟩
      intro fuel hfu
      obtain ⟨f, rfl⟩ : ∃ f, fuel = f + 1 := ⟨fuel - 1, by omega⟩
      subst hab
      simp [dfs, m1]
    · have ha1 : g1.is_vertex a = true := by rw [(m2 a).1]; exact ha
      have hnb : g1.get_vertex_neighbors a = .ok (g.nbrs a) := by
        rw [get_vertex_neighbors_eq ha1, m2.nbrs]
      obtain ⟨h, e1, e2, e3⟩ := dfs_neighbors_total hw (a := a) _ g.graph.length
        (fun f g2 temp => dfs f g2 temp b)
        (fun g2 t c1 c2 c3 c4 => by
          obtain ⟨h, d1, d2, d3⟩ := dfs_total_unmarked hw b _ hV g.graph.length g2 t c1 c2 c3 c4
          exact ⟨_, h, d1, d2, d3⟩)
        (g.nbrs a) g1 m2 ha1 (fun _ ht => ht) (hlen g1)
      refine ⟨h, ?_, m2.trans e2, fun v hv => e3 v (hmono1 v hv)⟩
      intro fuel hfu
      obtain ⟨f, rfl⟩ : ∃ f, fuel = f + 1 := ⟨fuel - 1, by omega⟩
      simp only [dfs, m1, hab, if_false, hnb, e1 f (by omega), decide_False]

/-- C28. Both traversals terminate on every well-formed store, for every
existing source vertex, every destination and every initial state of the
markings and predecessor links: `bfs(a,b)` returns once the fuel (the number of
dequeues allowed) is large enough, and `dfs(a,b)` returns as soon as the depth
allowed for the recursion exceeds the number of vertices.  Neither changes the
vertex set or an adjacency list, and neither unmarks a vertex. -/
theorem traversals_terminate (g : CollabGraph) (hw : g.WellFormed) (a b : Artist)
    (ha : g.is_vertex a = true) :
    (∃ (n : Nat) (r : Bool) (g2 : CollabGraph),
      (∀ fuel, n ≤ fuel → bfs fuel g a b = (.ok r, g2)) ∧
      (∀ v, g2.is_vertex v = g.is_vertex v ∧ g2.edges v = g.edges v) ∧
      ∀ v, g.vis v = true → g2.vis v = true) ∧
    (∃ (r : Bool) (g2 : CollabGraph),
      (∀ fuel, g.graph.length + 1 ≤ fuel → dfs fuel g a b = (.ok r, g2)) ∧
      (∀ v, g2.is_vertex v = g.is_vertex v ∧ g2.edges v = g.edges v) ∧
      ∀ v, g.vis v = true → g2.vis v = true) := by
  obtain ⟨n, r, g2, e1, e2, e3⟩ := bfs_total hw a b ha
  obtain ⟨g3, d1, d2, d3⟩ := dfs_total hw a b ha
  exact ⟨⟨n, r, g2, e1, e2, e3⟩, ⟨_, g3, d1, d2, d3⟩⟩

/-- C28, on the store with two paths from `X` to `W`, with `Y` marked
beforehand: both traversals from `X` to `W` return. -/
theorem traversals_terminate_witness :
    ((build callsDiamond).mark_vertex artistY).2.WellFormed ∧
    ((build callsDiamond).mark_vertex artistY).2.is_vertex artistX = true ∧
    ((∃ (n : Nat) (r : Bool) (g2 : CollabGraph),
      (∀ fuel, n ≤ fuel →
        bfs fuel ((build callsDiamond).mark_vertex artistY).2 artistX artistW = (.ok r, g2)) ∧
      (∀ v, g2.is_vertex v = ((build callsDiamond).mark_vertex artistY).2.is_vertex v ∧
        g2.edges v = ((build callsDiamond).mark_vertex artistY).2.edges v) ∧
      ∀ v, ((build callsDiamond).mark_vertex artistY).2.vis v = true → g2.vis v = true) ∧
    (∃ (r : Bool) (g2 : CollabGraph),
      (∀ fuel, ((build callsDiamond).mark_vertex artistY).2.graph.length + 1 ≤ fuel →
        dfs fuel ((build callsDiamond).mark_vertex artistY).2 artistX artistW = (.ok r, g2)) ∧
      (∀ v, g2.is_vertex v = ((build callsDiamond).mark_vertex artistY).2.is_vertex v ∧
        g2.edges v = ((build callsDiamond).mark_vertex artistY).2.edges v) ∧
      ∀ v, ((build callsDiamond).mark_vertex artistY).2.vis v = true → g2.vis v = true)) ∧
    (bfs 4 ((build callsDiamond).mark_vertex artistY).2 artistX artistW).1 = .ok true ∧
    (dfs 5 ((build callsDiamond).mark_vertex artistY).2 artistX artistW).1 = .ok false := by
  have hw : ((build callsDiamond).mark_vertex artistY).2.WellFormed := by
    obtain ⟨g1, m1, m2, _⟩ :=
      mark_vertex_spec (g := build callsDiamond) (x := artistY) (by decide)
    rw [m1]
    exact m2.wellFormed (build_inv callsDiamond).1
  exact ⟨hw, by decide,
    traversals_terminate ((build callsDiamond).mark_vertex artistY).2 hw artistX artistW
      (by decide), by decide, by decide⟩

theorem extends_refl (g : CollabGraph) : g.Extends g := ⟨SameShape.refl g, fun _ _ h => h⟩

theorem extends_trans {g h k : CollabGraph} (h1 : g.Extends h) (h2 : h.Extends k) :
    g.Extends k := ⟨h1.1.trans h2.1, fun v p hv => h2.2 v p (h1.2 v p hv)⟩

theorem linked_of_extends {g h : CollabGraph} {s v : Artist} (he : g.Extends h)
    (hl : ∃ n, LinkedN g s n v) : ∃ n, LinkedN h s n v := by
  obtain ⟨n, hn⟩ := hl
  exact ⟨n, hn.mono he.1 he.2⟩

theorem mark_vertex_cases (g : CollabGraph) (x : Artist) :
    (∃ e, g.mark_vertex x = (.error e, g)) ∨
    (∃ g1, g.mark_vertex x = (.ok (), g1) ∧ g.SameShape g1 ∧
      (∀ y, g1.vis y = (decide (y = x) || g.vis y)) ∧ (∀ y, g1.prd y = g.prd y)) := by
  cases hx : g.is_vertex x with
  | false => exact Or.inl ⟨unknown_vertex x, by simp [mark_vertex, enforce_unknown hx]⟩
  | true => exact Or.inr (mark_vertex_spec hx)

theorem set_predecessor_cases (g : CollabGraph) (t a : Artist) :
    (∃ e, g.set_predecessor t a = (.error e, g)) ∨
    (∃ g1, g.set_predecessor t a = (.ok (), g1) ∧ g.SameShape g1 ∧
      (∀ y, g1.vis y = g.vis y) ∧
      (∀ y, g1.prd y = if y = t ∧ g.prd t = none then some a else g.prd y)) := by
  cases ht : g.is_vertex t with
  | false => exact Or.inl ⟨unknown_vertex t, by simp [set_predecessor, enforce_unknown ht]⟩
  | true =>
    cases ha : g.is_vertex a with
    | false =>
      exact Or.inl ⟨unknown_vertex a,
        by simp [set_predecessor, enforce_ok ht, enforce_unknown ha]⟩
    | true => exact Or.inr (set_predecessor_spec ht ha)

theorem is_marked_cases (g : CollabGraph) (t : Artist) :
    (∃ e, g.is_marked t = .error e) ∨ g.is_marked t = .ok (g.vis t) := by
  cases ht : g.is_vertex t with
  | false => exact Or.inl ⟨unknown_vertex t, by simp [is_marked, enforce_unknown ht]⟩
  | true => exact Or.inr (is_marked_eq ht)

theorem get_vertex_neighbors_cases (g : CollabGraph) (a : Artist) :
    (∃ e, g.get_vertex_neighbors a = .error e) ∨ g.get_vertex_neighbors a = .ok (g.nbrs a) := by
  cases ha : g.is_vertex a with
  | false =>
    exact Or.inl ⟨unknown_vertex a, by simp [get_vertex_neighbors, enforce_unknown ha]⟩
  | true => exact Or.inr (get_vertex_neighbors_eq ha)

theorem predLinked_of_prd_eq {s : Artist} {g h : CollabGraph} (hJ : PredLinked s g)
    (hs : g.SameShape h) (hp : ∀ y, h.prd y = g.prd y) : PredLinked s h := by
  intro v p hvp
  rw [hp] at hvp
  obtain ⟨h1, n, h2⟩ := hJ v p hvp
  exact ⟨by rw [hs.nbrs]; exact h1, n, h2.mono hs (fun v p hv => by rw [hp]; exact hv)⟩

theorem predLinked_set {s t a : Artist} {g g1 : CollabGraph} (hs : g.SameShape g1)
    (hp : ∀ y, g1.prd y = if y = t ∧ g.prd t = none then some a else g.prd y) :
    g.Extends g1 ∧ g1.prd t ≠ none ∧
    (PredLinked s g → (∃ n, LinkedN g s n a) → t ∈ g.nbrs a →
      PredLinked s g1 ∧ ∃ n, LinkedN g1 s n t) := by
  have hext : g.Extends g1 := by
    refine ⟨hs, fun v p hvp => ?_⟩
    rw [hp]
    by_cases hc : v = t ∧ g.prd t = none
    · rw [hc.1, hc.2] at hvp
      exact absurd hvp (by simp)
    · rw [if_neg hc]; exact hvp
  have hne : g1.prd t ≠ none := by
    rw [hp]
    cases hpt : g.prd t with
    | none => simp
    | some q => simp
  refine ⟨hext, hne, fun hJ hla hta => ?_⟩
  have hJ1 : PredLinked s g1 := by
    intro v p hvp
    rw [hp] at hvp
    by_cases hc : v = t ∧ g.prd t = none
    · rw [if_pos hc] at hvp
      have hpa : a = p := Option.some.inj hvp
      subst hpa
      rw [hc.1, hs.nbrs]
      exact ⟨hta, linked_of_extends hext hla⟩
    · rw [if_neg hc] at hvp
      obtain ⟨h1, h2⟩ := hJ v p hvp
      exact ⟨by rw [hs.nbrs]; exact h1, linked_of_extends hext h2⟩
  refine ⟨hJ1, ?_⟩
  cases hpt : g1.prd t with
  | none => exact absurd hpt hne
  | some q =>
    obtain ⟨h1, n, h2⟩ := hJ1 t q hpt
    exact ⟨n + 1, LinkedN.link hpt h1 h2⟩

theorem dfsSim_same {s b x : Artist} {g k : CollabGraph} {r : Except Error Bool}
    (h : g.Extends k)
    (hJ : PredLinked s g → (∃ n, LinkedN g s n x) → PredLinked s k)
    (hb : r = .ok true → x = b ∨ k.prd b ≠ none) : DfsSim s b x g (r, k) (r, k) :=
  ⟨h, h, fun h1 h2 => ⟨hJ h1 h2, hJ h1 h2⟩, fun hr => ⟨extends_refl k, hb hr⟩, fun _ => rfl⟩

theorem dfsSim_step {s b x : Artist} {g g1 : CollabGraph}
    {E X : Except Error Bool × CollabGraph} (h1 : g.Extends g1)
    (hJ : PredLinked s g → (∃ n, LinkedN g s n x) → PredLinked s g1 ∧ ∃ n, LinkedN g1 s n x)
    (h : DfsSim s b x g1 E X) : DfsSim s b x g E X := by
  obtain ⟨a1, a2, a3, a4, a5⟩ := h
  exact ⟨extends_trans h1 a1, extends_trans h1 a2,
    fun c1 c2 => a3 (hJ c1 c2).1 (hJ c1 c2).2, a4, a5⟩

/-- The neighbour loops of `dfs` and of its early-exit variant, run on the same
store: the Boolean of the loop of `dfs` is taken as `false`, which is what `dfs`
returns after it. -/
theorem dfs_sim_neighbors (s b a : Artist)
    (rec_e rec_x : CollabGraph → Artist → Except Error Bool × CollabGraph)
    (hrec : ∀ g t, DfsSim s b t g (rec_e g t) (rec_x g t)) :
    ∀ (rest : List Artist) (g : CollabGraph), (∀ t, t ∈ rest → t ∈ g.nbrs a) →
      DfsSim s b a g (dfs_early_neighbors rec_e a g rest)
        ((dfs_neighbors rec_x a g rest).1.map (fun _ => false),
          (dfs_neighbors rec_x a g rest).2) := by
  intro rest
  induction rest with
  | nil =>
    intro g _
    simp only [dfs_early_neighbors, dfs_neighbors, Except.map]
    exact dfsSim_same (extends_refl g) (fun h _ => h) (fun h => by simp at h)
  | cons t rest ih =>
    intro g hsub
    have hta : t ∈ g.nbrs a := hsub t (List.mem_cons_self _ _)
    have hsub2 : ∀ k : CollabGraph, g.SameShape k → ∀ u, u ∈ rest → u ∈ k.nbrs a :=
      fun k hk u hu => by rw [hk.nbrs]; exact hsub u (List.mem_cons_of_mem _ hu)
    rcases is_marked_cases g t with ⟨e, him⟩ | him
    · have he : dfs_early_neighbors rec_e a g (t :: rest) = (.error e, g) := by
        simp only [dfs_early_neighbors, him]
      have hx : dfs_neighbors rec_x a g (t :: rest) = (.error e, g) := by
        simp only [dfs_neighbors, him]
      rw [he, hx]
      exact dfsSim_same (extends_refl g) (fun h _ => h) (fun h => by simp at h)
    · cases hvt : g.vis t with
      | true =>
        rw [hvt] at him
        have he : dfs_early_neighbors rec_e a g (t :: rest) =
            dfs_early_neighbors rec_e a g rest := by
          simp only [dfs_early_neighbors, him]
        have hx : dfs_neighbors rec_x a g (t :: rest) = dfs_neighbors rec_x a g rest := by
          simp only [dfs_neighbors, him]
        rw [he, hx]
        exact ih g (hsub2 g (SameShape.refl g))
      | false =>
        rw [hvt] at him
        rcases set_predecessor_cases g t a with ⟨e, hsp⟩ | ⟨g1, hsp, s2, _, s4⟩
        · have he : dfs_early_neighbors rec_e a g (t :: rest) = (.error e, g) := by
            simp only [dfs_early_neighbors, him, hsp]
          have hx : dfs_neighbors rec_x a g (t :: rest) = (.error e, g) := by
            simp only [dfs_neighbors, him, hsp]
          rw [he, hx]
          exact dfsSim_same (extends_refl g) (fun h _ => h) (fun h => by simp at h)
        · obtain ⟨x1, x2, x3⟩ := predLinked_set (s := s) s2 s4
          have hr := hrec g1 t
          rcases hre : rec_e g1 t with ⟨re, g2e⟩
          rw [hre] at hr
          obtain ⟨r1, r2, r3, r4, r5⟩ := hr
          dsimp only at r1 r3 r4 r5
          have hg2e : g.Extends g2e := extends_trans x1 r1
          have hJ2 : PredLinked s g → (∃ n, LinkedN g s n a) →
              PredLinked s g2e ∧ PredLinked s (rec_x g1 t).2 :=
            fun c1 c2 => r3 (x3 c1 c2 hta).1 (x3 c1 c2 hta).2
          cases re with
          | error e =>
            have hrx : rec_x g1 t = (.error e, g2e) := r5 (by simp)
            have he : dfs_early_neighbors rec_e a g (t :: rest) = (.error e, g2e) := by
              simp only [dfs_early_neighbors, him, hsp, hre]
            have hx : dfs_neighbors rec_x a g (t :: rest) = (.error e, g2e) := by
              simp only [dfs_neighbors, him, hsp, hrx]
            rw [he, hx]
            exact dfsSim_same hg2e (fun c1 c2 => (hJ2 c1 c2).1) (fun h => by simp at h)
          | ok found =>
            cases found with
            | false =>
              have hrx : rec_x g1 t = (.ok false, g2e) := r5 (by simp)
              have he : dfs_early_neighbors rec_e a g (t :: rest) =
                  dfs_early_neighbors rec_e a g2e rest := by
                simp only [dfs_early_neighbors, him, hsp, hre]
              have hx : dfs_neighbors rec_x a g (t :: rest) =
                  dfs_neighbors rec_x a g2e rest := by
                simp only [dfs_neighbors, him, hsp, hrx]
              rw [he, hx]
              exact dfsSim_step hg2e
                (fun c1 c2 => ⟨(hJ2 c1 c2).1, linked_of_extends hg2e c2⟩)
                (ih g2e (hsub2 g2e hg2e.1))
            | true =>
              obtain ⟨r6, r7⟩ := r4 rfl
              have he : dfs_early_neighbors rec_e a g (t :: rest) = (.ok true, g2e) := by
                simp only [dfs_early_neighbors, him, hsp, hre]
              rcases hrx : rec_x g1 t with ⟨rx, g2x⟩
              rw [hrx] at r2 r6 hJ2
              dsimp only at r2 r6 hJ2
              have hg2x : g.Extends g2x := extends_trans x1 r2
              have hih := ih g2x (hsub2 g2x hg2x.1)
              have hX : g2x.Extends (dfs_neighbors rec_x a g (t :: rest)).2 ∧
                  (PredLinked s g2x → (∃ n, LinkedN g2x s n a) →
                    PredLinked s (dfs_neighbors rec_x a g (t :: rest)).2) := by
                cases rx with
                | error e2 =>
                  have hx : dfs_neighbors rec_x a g (t :: rest) = (.error e2, g2x) := by
                    simp only [dfs_neighbors, him, hsp, hrx]
                  rw [hx]
                  exact ⟨extends_refl _, fun h _ => h⟩
                | ok r2x =>
                  have hx : dfs_neighbors rec_x a g (t :: rest) =
                      dfs_neighbors rec_x a g2x rest := by
                    simp only [dfs_neighbors, him, hsp, hrx]
                  rw [hx]
                  exact ⟨hih.2.1, fun c1 c2 => (hih.2.2.1 c1 c2).2⟩
              rw [he]
              refine ⟨hg2e, extends_trans hg2x hX.1, fun c1 c2 => ⟨(hJ2 c1 c2).1,
                hX.2 (hJ2 c1 c2).2 (linked_of_extends hg2x c2)⟩,
                fun _ => ⟨extends_trans r6 hX.1, Or.inr ?_⟩, fun h => absurd rfl h⟩
              dsimp only
              rcases r7 with r7 | r7
              · rw [← r7]
                cases hpt : g1.prd t with
                | none => exact absurd hpt x2
                | some q => rw [r1.2 t q hpt]; simp
              · exact r7

/-- The search `dfs` and its early-exit variant, run on the same store with the
same fuel, for every store and every fuel. -/
theorem dfs_sim (s b : Artist) :
    ∀ (fuel : Nat) (g : CollabGraph) (x : Artist),
      DfsSim s b x g (dfs_early_exit fuel g x b) (dfs fuel g x b) := by
  intro fuel
  induction fuel with
  | zero =>
    intro g x
    simp only [dfs_early_exit, dfs]
    exact dfsSim_same (extends_refl g) (fun h _ => h) (fun h => by simp at h)
  | succ f ih =>
    intro g x
    rcases mark_vertex_cases g x with ⟨e, hm⟩ | ⟨g1, hm, m2, _, m4⟩
    · have he : dfs_early_exit (f + 1) g x b = (.error e, g) := by
        simp only [dfs_early_exit, hm]
      have hx : dfs (f + 1) g x b = (.error e, g) := by
        simp only [dfs, hm]
      rw [he, hx]
      exact dfsSim_same (extends_refl g) (fun h _ => h) (fun h => by simp at h)
    · have hg1 : g.Extends g1 := ⟨m2, fun v p h => by rw [m4]; exact h⟩
      have hJ1 : PredLinked s g → PredLinked s g1 := fun h => predLinked_of_prd_eq h m2 m4
      by_cases hxb : x = b
      · have he : dfs_early_exit (f + 1) g x b = (.ok true, g1) := by
          simp only [dfs_early_exit, hm]
          simp [hxb]
        have hx : dfs (f + 1) g x b = (.ok true, g1) := by
          simp only [dfs, hm]
          simp [hxb]
        rw [he, hx]
        exact dfsSim_same hg1 (fun c _ => hJ1 c) (fun _ => Or.inl hxb)
      · rcases get_vertex_neighbors_cases g1 x with ⟨e, hn⟩ | hn
        · have he : dfs_early_exit (f + 1) g x b = (.error e, g1) := by
            simp only [dfs_early_exit, hm, hxb, if_false, hn]
          have hx : dfs (f + 1) g x b = (.error e, g1) := by
            simp only [dfs, hm, hxb, if_false, hn]
          rw [he, hx]
          exact dfsSim_same hg1 (fun c _ => hJ1 c) (fun h => by simp at h)
        · have hloop := dfs_sim_neighbors s b x (fun g2 temp => dfs_early_exit f g2 temp b)
            (fun g2 temp => dfs f g2 temp b) (fun g2 t => ih g2 t) (g1.nbrs x) g1
            (fun _ h => h)
          have he : dfs_early_exit (f + 1) g x b =
              dfs_early_neighbors (fun g2 temp => dfs_early_exit f g2 temp b) x g1
                (g1.nbrs x) := by
            simp only [dfs_early_exit, hm, hxb, if_false, hn]
          have hx : dfs (f + 1) g x b =
              ((dfs_neighbors (fun g2 temp => dfs f g2 temp b) x g1 (g1.nbrs x)).1.map
                (fun _ => false),
                (dfs_neighbors (fun g2 temp => dfs f g2 temp b) x g1 (g1.nbrs x)).2) := by
            simp only [dfs, hm, hxb, if_false, hn]
            rcases dfs_neighbors (fun g2 temp => dfs f g2 temp b) x g1 (g1.nbrs x) with ⟨r, g3⟩
            cases r <;> rfl
          rw [he, hx]
          exact dfsSim_step hg1 (fun c1 c2 => ⟨hJ1 c1, linked_of_extends hg1 c2⟩) hloop
/-- What the loop of `report_path` returns is the chain of predecessor links
that it followed, from the source, met once, to the vertex it started at. -/
theorem report_path_loop_inv (g : CollabGraph) (a : Artist) :
    ∀ (fuel : Nat) (v : Artist) (acc path : List Artist),
      g.report_path_loop a fuel (some v.get_name) acc = .ok path →
      ∃ chain : List Artist, path = chain ++ acc ∧ chain.head? = some a ∧
        chain.getLast? = some v ∧ List.Chain' (fun u w => g.prd w = some u) chain ∧
        (∀ x, x ∈ chain.tail → x ≠ a) ∧ chain.length ≤ fuel ∧
        ∀ x, x ∈ chain → g.is_vertex x = true := by
  intro fuel
  induction fuel with
  | zero => intro v acc path h; simp [report_path_loop] at h
  | succ f ih =>
    intro v acc path h
    have hv : g.is_vertex v = true := by
      cases hf : g.find v.get_name with
      | none => simp [report_path_loop, hf] at h
      | some pathing => exact is_vertex_iff.2 ⟨pathing, hf⟩
    by_cases hva : v = a
    · subst hva
      rw [report_path_loop_stop hv] at h
      refine ⟨[v], ?_, rfl, rfl, List.chain'_singleton _, by simp, by simp, ?_⟩
      · simpa using (Except.ok.inj h).symm
      · intro x hx
        simp only [List.mem_singleton] at hx
        rw [hx]; exact hv
    · rw [report_path_loop_step hv hva] at h
      cases hp : g.prd v with
      | none =>
        rw [hp] at h
        cases f <;> simp [report_path_loop] at h
      | some p =>
        rw [hp] at h
        simp only [Option.map_some'] at h
        obtain ⟨chain, c1, c2, c3, c4, c5, c6, c7⟩ := ih p (v :: acc) path h
        have hne : chain ≠ [] := by
          intro hnil
          rw [hnil] at c2
          simp at c2
        refine ⟨chain ++ [v], by simp [c1], ?_, List.getLast?_concat chain, ?_, ?_, ?_, ?_⟩
        · rw [List.head?_append_of_ne_nil _ hne]; exact c2
        · rw [List.chain'_append]
          refine ⟨c4, List.chain'_singleton _, ?_⟩
          intro x hx y hy
          rw [c3] at hx
          simp only [Option.mem_def, Option.some.injEq, List.head?_cons] at hx hy
          rw [← hx, ← hy]; exact hp
        · intro x hx
          rw [List.tail_append_of_ne_nil hne] at hx
          rcases List.mem_append.1 hx with hx | hx
          · exact c5 x hx
          · simp only [List.mem_singleton] at hx
            rw [hx]; exact hva
        · simp only [List.length_append, List.length_singleton]
          omega
        · intro x hx
          rcases List.mem_append.1 hx with hx | hx
          · exact c7 x hx
          · simp only [List.mem_singleton] at hx
            rw [hx]; exact hv

theorem chain_has_predecessor {α : Type} {R : α → α → Prop} :
    ∀ (l : List α) (y z : α), List.Chain' R (y :: l) → z ∈ l → ∃ u, u ∈ y :: l ∧ R u z := by
  intro l
  induction l with
  | nil => intro y z _ hz; simp at hz
  | cons w r ih =>
    intro y z hc hz
    have hc2 := List.chain'_cons.1 hc
    rcases List.mem_cons.1 hz with hz | hz
    · exact ⟨y, by simp, by rw [hz]; exact hc2.1⟩
    · obtain ⟨u, hu, hr⟩ := ih w z hc2.2 hz
      exact ⟨u, List.mem_cons_of_mem _ hu, hr⟩

/-- A chain of predecessor links whose first vertex does not occur again has no
vertex twice. -/
theorem prd_chain_nodup (g : CollabGraph) :
    ∀ (l : List Artist), List.Chain' (fun u w => g.prd w = some u) l →
      (∀ z, z ∈ l.tail → l.head? ≠ some z) → l.Nodup := by
  intro l
  induction l with
  | nil => intro _ _; exact List.nodup_nil
  | cons x l ih =>
    intro hc ht
    simp only [List.tail_cons, List.head?_cons, ne_eq, Option.some.injEq] at ht
    rw [List.nodup_cons]
    refine ⟨fun hx => ht x hx rfl, ?_⟩
    cases l with
    | nil => exact List.nodup_nil
    | cons y r =>
      have hc2 := List.chain'_cons.1 hc
      apply ih hc2.2
      intro z hz
      simp only [List.tail_cons] at hz
      simp only [List.head?_cons, ne_eq, Option.some.injEq]
      intro hyz
      subst hyz
      obtain ⟨u, hu, hr⟩ := chain_has_predecessor r y y hc2.2 hz
      rw [hc2.1] at hr
      have : x = u := Option.some.inj hr
      subst this
      exact ht x hu rfl

/-- A path returned by the loop of `report_path` has no vertex twice and at most
as many vertices as the store, and `report_path` returns it for every fuel that
covers its length. -/
theorem report_walk_safe {g : CollabGraph} {a b : Artist} (ha : g.is_vertex a = true)
    (hb : g.is_vertex b = true) (hab : a ≠ b) (V : List Artist)
    (hV : ∀ x, g.is_vertex x = true → x ∈ V) {f : Nat} {path : List Artist}
    (h : g.report_path_loop a f (some b.get_name) [] = .ok path) :
    path.head? = some a ∧ path.getLast? = some b ∧
    List.Chain' (fun u w => g.prd w = some u) path ∧ path.Nodup ∧ path.length ≤ V.length ∧
    g.prd b ≠ none ∧ ∀ fuel, path.length ≤ fuel → g.report_path fuel a b = .ok path := by
  obtain ⟨chain, c1, c2, c3, c4, c5, _, c7⟩ := report_path_loop_inv g a f b [] path h
  simp only [List.append_nil] at c1
  subst c1
  have hnd : path.Nodup := prd_chain_nodup g path c4 (fun z hz hh => by
    rw [c2] at hh
    exact c5 z hz (Option.some.inj hh).symm)
  have hlen : path.length ≤ V.length :=
    (hnd.subperm (fun x hx => hV x (c7 x hx))).length_le
  have hpb : g.prd b ≠ none := by
    rcases List.eq_nil_or_concat path with hp | ⟨L, u, hp⟩
    · rw [hp] at c2; simp at c2
    · rw [List.concat_eq_append] at hp
      subst hp
      rw [List.getLast?_concat] at c3
      have hub : u = b := Option.some.inj c3
      subst hub
      rcases List.eq_nil_or_concat L with hL | ⟨L2, w, hL⟩
      · subst hL
        simp only [List.nil_append, List.head?_cons, Option.some.injEq] at c2
        exact absurd c2.symm hab
      · rw [List.concat_eq_append] at hL
        subst hL
        have := (List.chain'_append.1 c4).2.2 w (by simp [List.getLast?_concat]) u (by simp)
        rw [this]; simp
  refine ⟨c2, c3, c4, hnd, hlen, hpb, fun fuel hfu => ?_⟩
  rw [report_path_some ha hb hab hpb]
  have := report_path_loop_chain g a ha path b [] fuel c2 c3 c4 c5 hfu
  simpa using this
theorem walk_safe_of {h : CollabGraph} {a b : Artist} (ha : h.is_vertex a = true)
    (hb : h.is_vertex b = true) (hab : a ≠ b) (V : List Artist)
    (hV : ∀ x, h.is_vertex x = true → x ∈ V)
    (hcase : h.prd b ≠ none →
      ∃ f path, h.report_path_loop a f (some b.get_name) [] = .ok path) :
    ∃ path : List Artist,
      (∀ fuel, V.length ≤ fuel → h.report_path fuel a b = .ok path) ∧
      (h.prd b = none → path = []) ∧
      (h.prd b ≠ none →
        path.head? = some a ∧ path.getLast? = some b ∧
        List.Chain' (fun u w => h.prd w = some u) path ∧
        path.length ≤ V.length ∧ path.Nodup) := by
  cases hp : h.prd b with
  | none =>
    exact ⟨[], fun fuel _ => report_path_none ha hb hp fuel, fun _ => rfl,
      fun hne => absurd rfl hne⟩
  | some q =>
    obtain ⟨f, path, hl⟩ := hcase (by rw [hp]; simp)
    obtain ⟨w1, w2, w3, w4, w5, _, w7⟩ := report_walk_safe ha hb hab V hV hl
    exact ⟨path, fun fuel hfu => w7 fuel (by omega), fun hn => by simp at hn,
      fun _ => ⟨w1, w2, w3, w5, w4⟩⟩

/-- C23. The walk of the path reporter is safe after a traversal.  On a built
store, for existing vertices `a ≠ b` and a list `E` of existing vertices marked
after `clear_metadata`, `bfs(a,b)` and `dfs(a,b)` return, and on the store that
either of them leaves `report_path(a,b)` returns as soon as its loop is allowed
as many iterations as the store has vertices: it never dereferences a null
predecessor.  When `b` has no predecessor the reported path is empty; when it
has one, the path starts at `a`, ends at `b`, every vertex after `a` has the
vertex before it as its predecessor, the path has at most as many vertices as
the store (so the walk takes at most vertex count minus one steps), and no
vertex occurs in it twice. -/
theorem report_walk_after_traversal (calls : List Call) (E : List Artist) (a b : Artist)
    (hE : ∀ e, e ∈ E → (build calls).is_vertex e = true)
    (ha : (build calls).is_vertex a = true) (hb : (build calls).is_vertex b = true)
    (hab : a ≠ b) :
    ∃ (g0 : CollabGraph) (n : Nat) (rb rd : Bool) (gb gd : CollabGraph),
      mark_exclusions (build calls).clear_metadata E = (.ok (), g0) ∧
      (∀ fuel, n ≤ fuel →
        bfs fuel g0 a b = (.ok rb, gb) ∧ dfs fuel g0 a b = (.ok rd, gd)) ∧
      ∀ h, h = gb ∨ h = gd →
        ∃ path : List Artist,
          (∀ fuel, (build calls).graph.length ≤ fuel → h.report_path fuel a b = .ok path) ∧
          (h.prd b = none → path = []) ∧
          (h.prd b ≠ none →
            path.head? = some a ∧ path.getLast? = some b ∧
            List.Chain' (fun u w => h.prd w = some u) path ∧
            path.length ≤ (build calls).graph.length ∧ path.Nodup) := by
  have hw := (build_inv calls).1
  obtain ⟨c1, c2, c3⟩ := (build calls).clear_metadata_spec
  obtain ⟨g0, m1, m2, m3, m4⟩ := mark_exclusions_spec E (build calls).clear_metadata
    (fun e he => by rw [(c1 e).1]; exact hE e he)
  have hs0 : (build calls).SameShape g0 := c1.trans m2
  have hw0 : g0.WellFormed := hs0.wellFormed hw
  have hprd : ∀ v, g0.prd v = none := fun v => by rw [m4]; exact c3 v
  have ha0 : g0.is_vertex a = true := by rw [(hs0 a).1]; exact ha
  have hb0 : g0.is_vertex b = true := by rw [(hs0 b).1]; exact hb
  have hVlen : ((build calls).graph.map (fun v => v.artist)).length =
      (build calls).graph.length := List.length_map _ _
  have hV : ∀ h : CollabGraph, g0.SameShape h → ∀ x, h.is_vertex x = true →
      x ∈ (build calls).graph.map (fun v => v.artist) := fun h hs x hx =>
    mem_graph_of_is_vertex (by rw [← (hs0 x).1, ← (hs x).1]; exact hx)
  -- the depth-first search
  obtain ⟨gd, d1, d2, _⟩ := dfs_total hw0 a b ha0
  have hgd : ∃ path : List Artist,
      (∀ fuel, (build calls).graph.length ≤ fuel → gd.report_path fuel a b = .ok path) ∧
      (gd.prd b = none → path = []) ∧
      (gd.prd b ≠ none →
        path.head? = some a ∧ path.getLast? = some b ∧
        List.Chain' (fun u w => gd.prd w = some u) path ∧
        path.length ≤ (build calls).graph.length ∧ path.Nodup) := by
    have had : gd.is_vertex a = true := by rw [(d2 a).1]; exact ha0
    have hbd : gd.is_vertex b = true := by rw [(d2 b).1]; exact hb0
    have hsim := dfs_sim a b (g0.graph.length + 1) g0 a
    rw [d1 _ (le_refl _)] at hsim
    have hJ : PredLinked a gd :=
      (hsim.2.2.1 (fun v p hvp => by rw [hprd] at hvp; simp at hvp) ⟨0, LinkedN.root⟩).2
    rw [← hVlen]
    apply walk_safe_of had hbd hab _ (hV gd d2)
    intro hne
    cases hp : gd.prd b with
    | none => exact absurd hp hne
    | some q =>
      obtain ⟨h1, k, h2⟩ := hJ b q hp
      obtain ⟨chain, _, _, _, e4⟩ := linked_chain (LinkedN.link hp h1 h2) had
      exact ⟨k + 2, chain, by simpa using e4 (k + 2) [] (by omega)⟩
  -- the breadth-first search
  have hgb : ∃ (n : Nat) (rb : Bool) (gb : CollabGraph),
      (∀ fuel, n ≤ fuel → bfs fuel g0 a b = (.ok rb, gb)) ∧
      ∃ path : List Artist,
        (∀ fuel, (build calls).graph.length ≤ fuel → gb.report_path fuel a b = .ok path) ∧
        (gb.prd b = none → path = []) ∧
        (gb.prd b ≠ none →
          path.head? = some a ∧ path.getLast? = some b ∧
          List.Chain' (fun u w => gb.prd w = some u) path ∧
          path.length ≤ (build calls).graph.length ∧ path.Nodup) := by
    cases hva : g0.vis a with
    | true =>
      refine ⟨0, false, g0, fun fuel _ => by simp [bfs, hab, is_marked_eq ha0, hva], ?_⟩
      rw [← hVlen]
      exact walk_safe_of ha0 hb0 hab _ (hV g0 (SameShape.refl g0))
        (fun hne => absurd (hprd b) hne)
    | false =>
      obtain ⟨n, r, g2, hn, hs2, _, hF, hT⟩ := bfs_main hw0 hprd (b := b) ha0 hab hva
      refine ⟨n, r, g2, hn, ?_⟩
      rw [← hVlen]
      apply walk_safe_of (by rw [(hs2 a).1]; exact ha0) (by rw [(hs2 b).1]; exact hb0) hab _
        (hV g2 hs2)
      intro hne
      cases r with
      | false => exact absurd (hF rfl).2 hne
      | true =>
        obtain ⟨j, chain, _, _, _, _, _, _, _, e8⟩ := hT rfl
        exact ⟨j + 2, chain, e8 (j + 2) (le_refl _)⟩
  obtain ⟨n, rb, gb, hn, hpb⟩ := hgb
  refine ⟨g0, max n (g0.graph.length + 1), rb, _, gb, gd, m1,
    fun fuel hfu => ⟨hn fuel (by omega), d1 fuel (by omega)⟩, ?_⟩
  intro h hh
  rcases hh with hh | hh
  · rw [hh]; exact hpb
  · rw [hh]; exact hgd

/-- C23, on the store with two paths from `X` to `W`, with `Y` excluded: after
either traversal the reporter returns the path through `Z` within four
iterations, the number of vertices. -/
theorem report_walk_after_traversal_witness :
    (∀ e, e ∈ [artistY] → (build callsDiamond).is_vertex e = true) ∧
    (build callsDiamond).is_vertex artistX = true ∧
    (build callsDiamond).is_vertex artistW = true ∧ artistX ≠ artistW ∧
    (∃ (g0 : CollabGraph) (n : Nat) (rb rd : Bool) (gb gd : CollabGraph),
      mark_exclusions (build callsDiamond).clear_metadata [artistY] = (.ok (), g0) ∧
      (∀ fuel, n ≤ fuel →
        bfs fuel g0 artistX artistW = (.ok rb, gb) ∧
        dfs fuel g0 artistX artistW = (.ok rd, gd)) ∧
      ∀ h, h = gb ∨ h = gd →
        ∃ path : List Artist,
          (∀ fuel, (build callsDiamond).graph.length ≤ fuel →
            h.report_path fuel artistX artistW = .ok path) ∧
          (h.prd artistW = none → path = []) ∧
          (h.prd artistW ≠ none →
            path.head? = some artistX ∧ path.getLast? = some artistW ∧
            List.Chain' (fun u w => h.prd w = some u) path ∧
            path.length ≤ (build callsDiamond).graph.length ∧ path.Nodup)) ∧
    (build callsDiamond).graph.length = 4 ∧
    (bfs 10 (mark_exclusions (build callsDiamond).clear_metadata [artistY]).2 artistX
      artistW).2.report_path 4 artistX artistW = .ok [artistX, artistZ, artistW] ∧
    (dfs 10 (mark_exclusions (build callsDiamond).clear_metadata [artistY]).2 artistX
      artistW).2.report_path 4 artistX artistW = .ok [artistX, artistZ, artistW] :=
  ⟨fun e he => by
      simp only [List.mem_singleton] at he
      rw [he]; decide,
    by decide, by decide, by decide,
    report_walk_after_traversal callsDiamond [artistY] artistX artistW
      (fun e he => by
        simp only [List.mem_singleton] at he
        rw [he]; decide)
      (by decide) (by decide) (by decide),
    by decide, by decide, by decide⟩

theorem report_path_is_vertex {g : CollabGraph} {f : Nat} {a b : Artist} {p : List Artist}
    (h : g.report_path f a b = .ok p) : g.is_vertex a = true ∧ g.is_vertex b = true := by
  cases ha : g.is_vertex a with
  | false => simp [report_path, enforce_unknown ha] at h
  | true =>
    cases hb : g.is_vertex b with
    | false => simp [report_path, enforce_ok ha, enforce_unknown hb] at h
    | true => exact ⟨rfl, rfl⟩

/-- A path reported on a store is reported on every store that keeps its
predecessor links. -/
theorem report_path_of_extends {ge gx : CollabGraph} {a b : Artist} {f : Nat}
    {p : List Artist} (he : ge.Extends gx) (hab : a ≠ b) (hpb : ge.prd b ≠ none)
    (h : ge.report_path f a b = .ok p) :
    ∀ fuel, f ≤ fuel → gx.report_path fuel a b = .ok p := by
  obtain ⟨ha, hb⟩ := report_path_is_vertex h
  rw [report_path_some ha hb hab hpb] at h
  obtain ⟨chain, c1, c2, c3, c4, c5, c6, _⟩ := report_path_loop_inv ge a f b [] p h
  simp only [List.append_nil] at c1
  subst c1
  have hax : gx.is_vertex a = true := by rw [(he.1 a).1]; exact ha
  have hbx : gx.is_vertex b = true := by rw [(he.1 b).1]; exact hb
  have hpx : gx.prd b ≠ none := by
    cases hq : ge.prd b with
    | none => exact absurd hq hpb
    | some q => rw [he.2 b q hq]; simp
  intro fuel hfu
  rw [report_path_some hax hbx hab hpx]
  have := report_path_loop_chain gx a hax p b [] fuel c2 c3
    (c4.imp (fun {u w} huw => he.2 w u huw)) c5 (by omega)
  simpa using this

/-- The path that `report_path` returns does not depend on the fuel. -/
theorem report_path_unique {g : CollabGraph} {a b : Artist} {f1 f2 : Nat}
    {p1 p2 : List Artist} (h1 : g.report_path f1 a b = .ok p1)
    (h2 : g.report_path f2 a b = .ok p2) : p1 = p2 := by
  obtain ⟨ha, hb⟩ := report_path_is_vertex h1
  by_cases hab : a = b
  · subst hab
    rw [report_path_same g a ha] at h1 h2
    rw [← Except.ok.inj h1, ← Except.ok.inj h2]
  · cases hp : g.prd b with
    | none =>
      rw [report_path_none ha hb hp] at h1 h2
      rw [← Except.ok.inj h1, ← Except.ok.inj h2]
    | some q =>
      have hpb : g.prd b ≠ none := by rw [hp]; simp
      have k1 := report_path_of_extends (extends_refl g) hab hpb h1 (max f1 f2) (by omega)
      have k2 := report_path_of_extends (extends_refl g) hab hpb h2 (max f1 f2) (by omega)
      rw [k1] at k2
      exact Except.ok.inj k2

/-- On every store, when `dfs` and its early-exit variant both return, the
reporter returns the same path after either. -/
theorem early_exit_same_report (g : CollabGraph) (a b : Artist) (hab : a ≠ b)
    (fuel f1 f2 : Nat) (rx re : Bool) (gx ge : CollabGraph) (p1 p2 : List Artist)
    (hx : dfs fuel g a b = (.ok rx, gx)) (he : dfs_early_exit fuel g a b = (.ok re, ge))
    (h1 : gx.report_path f1 a b = .ok p1) (h2 : ge.report_path f2 a b = .ok p2) :
    p1 = p2 := by
  have hsim := dfs_sim a b fuel g a
  rw [hx, he] at hsim
  obtain ⟨_, _, _, s4, s5⟩ := hsim
  dsimp only at s4 s5
  cases re with
  | false =>
    have := s5 (by simp)
    have hg : gx = ge := congrArg Prod.snd this
    subst hg
    exact report_path_unique h1 h2
  | true =>
    obtain ⟨t1, t2⟩ := s4 rfl
    have hpb : ge.prd b ≠ none := by
      rcases t2 with t2 | t2
      · exact absurd t2 hab
      · exact t2
    have k := report_path_of_extends t1 hab hpb h2 f2 (le_refl _)
    exact report_path_unique h1 k

/-- C24 fails on the code: there is no store on which stopping at the first
discovery of the destination changes the reported path.  For no store, vertices
`a ≠ b` and fuels do `dfs(a,b)` and its early-exit variant both return and
`report_path(a,b)` then report two different paths. -/
theorem early_exit_changes_no_reported_path :
    ¬ ∃ (g : CollabGraph) (a b : Artist) (fuel f1 f2 : Nat) (rx re : Bool)
        (gx ge : CollabGraph) (p1 p2 : List Artist),
      a ≠ b ∧ dfs fuel g a b = (.ok rx, gx) ∧ dfs_early_exit fuel g a b = (.ok re, ge) ∧
      gx.report_path f1 a b = .ok p1 ∧ ge.report_path f2 a b = .ok p2 ∧ p1 ≠ p2 := by
  rintro ⟨g, a, b, fuel, f1, f2, rx, re, gx, ge, p1, p2, hab, hx, he, h1, h2, hne⟩
  exact hne (early_exit_same_report g a b hab fuel f1 f2 rx re gx ge p1 p2 hx he h1 h2)

/-- C24, amended.  Converting `dfs` to early exit does not change the reported
path: on a built store with cleared metadata and existing vertices `a ≠ b`, with
enough fuel `dfs(a,b)` and its early-exit variant (same neighbour order, same
first-write-wins predecessors, stopping as soon as `b` is found) both return,
and `report_path(a,b)` reports the same path after either.  The stores they
leave may differ: `dfs` keeps the vertices, the adjacency lists and every
predecessor link of the store that the early-exit variant leaves. -/
theorem early_exit_reports_same_path (calls : List Call) (a b : Artist)
    (ha : (build calls).is_vertex a = true) (hb : (build calls).is_vertex b = true)
    (hab : a ≠ b) :
    ∃ (n : Nat) (gx : CollabGraph) (path : List Artist),
      ∀ fuel, n ≤ fuel →
        dfs fuel (build calls).clear_metadata a b = (.ok false, gx) ∧
        gx.report_path fuel a b = .ok path ∧
        ∃ (re : Bool) (ge : CollabGraph),
          dfs_early_exit fuel (build calls).clear_metadata a b = (.ok re, ge) ∧
          ge.report_path fuel a b = .ok path ∧ ge.Extends gx := by
  have hw := (build_inv calls).1
  obtain ⟨c1, c2, c3⟩ := (build calls).clear_metadata_spec
  have hw0 : (build calls).clear_metadata.WellFormed := c1.wellFormed hw
  have ha0 : (build calls).clear_metadata.is_vertex a = true := by rw [(c1 a).1]; exact ha
  have hb0 : (build calls).clear_metadata.is_vertex b = true := by rw [(c1 b).1]; exact hb
  obtain ⟨gx, d1, d2, _⟩ := dfs_total hw0 a b ha0
  have hdec : decide (a = b) = false := by simp [hab]
  rw [hdec] at d1
  have hJ0 : PredLinked a (build calls).clear_metadata :=
    fun v p hvp => by rw [c3] at hvp; simp at hvp
  have hV : ∀ h : CollabGraph, (build calls).clear_metadata.SameShape h →
      ∀ x, h.is_vertex x = true →
        x ∈ (build calls).clear_metadata.graph.map (fun v => v.artist) := fun h hs x hx =>
    mem_graph_of_is_vertex (by rw [← (hs x).1]; exact hx)
  -- the path reported after `dfs`
  have hax : gx.is_vertex a = true := by rw [(d2 a).1]; exact ha0
  have hbx : gx.is_vertex b = true := by rw [(d2 b).1]; exact hb0
  have hsx := dfs_sim a b ((build calls).clear_metadata.graph.length + 1)
    (build calls).clear_metadata a
  rw [d1 _ (le_refl _)] at hsx
  have hJx : PredLinked a gx := (hsx.2.2.1 hJ0 ⟨0, LinkedN.root⟩).2
  obtain ⟨path, w1, _, _⟩ := walk_safe_of hax hbx hab _ (hV gx d2) (fun hne => by
    cases hp : gx.prd b with
    | none => exact absurd hp hne
    | some q =>
      obtain ⟨h1, k, h2⟩ := hJx b q hp
      obtain ⟨chain, _, _, _, e4⟩ := linked_chain (LinkedN.link hp h1 h2) hax
      exact ⟨k + 2, chain, by simpa using e4 (k + 2) [] (by omega)⟩)
  simp only [List.length_map] at w1
  refine ⟨(build calls).clear_metadata.graph.length + 1, gx, path, fun fuel hfu => ?_⟩
  have hrx := w1 fuel (by omega)
  refine ⟨d1 fuel hfu, hrx, ?_⟩
  have hsim := dfs_sim a b fuel (build calls).clear_metadata a
  rw [d1 fuel hfu] at hsim
  rcases hre : dfs_early_exit fuel (build calls).clear_metadata a b with ⟨re, ge⟩
  rw [hre] at hsim
  obtain ⟨s1, _, s3, s4, s5⟩ := hsim
  dsimp only at s1 s3 s4 s5
  by_cases hr : re = .ok true
  · subst hr
    obtain ⟨t1, t2⟩ := s4 rfl
    have hpb : ge.prd b ≠ none := by
      rcases t2 with t2 | t2
      · exact absurd t2 hab
      · exact t2
    have hae : ge.is_vertex a = true := by rw [(s1.1 a).1]; exact ha0
    have hbe : ge.is_vertex b = true := by rw [(s1.1 b).1]; exact hb0
    have hJe : PredLinked a ge := (s3 hJ0 ⟨0, LinkedN.root⟩).1
    obtain ⟨pe, v1, _, _⟩ := walk_safe_of hae hbe hab _ (hV ge s1.1) (fun hne => by
      cases hp : ge.prd b with
      | none => exact absurd hp hne
      | some q =>
        obtain ⟨h1, k, h2⟩ := hJe b q hp
        obtain ⟨chain, _, _, _, e4⟩ := linked_chain (LinkedN.link hp h1 h2) hae
        exact ⟨k + 2, chain, by simpa using e4 (k + 2) [] (by omega)⟩)
    simp only [List.length_map] at v1
    have hre2 := v1 fuel (by omega)
    have := report_path_of_extends t1 hab hpb hre2 fuel (le_refl _)
    rw [hrx] at this
    have hpe : path = pe := Except.ok.inj this
    subst hpe
    exact ⟨true, ge, rfl, hre2, t1⟩
  · have := s5 hr
    have h1 : re = .ok false := (congrArg Prod.fst this).symm
    have h2 : ge = gx := (congrArg Prod.snd this).symm
    subst h1 h2
    exact ⟨false, ge, rfl, hrx, extends_refl ge⟩

/-- C24 amended, on the store with two paths from `X` to `W`: the early-exit
variant stops before it marks `Z`, `dfs` goes on and marks `Z`, and the reporter
gives the path through `Y` after either. -/
theorem early_exit_reports_same_path_witness :
    (build callsDiamond).is_vertex artistX = true ∧
    (build callsDiamond).is_vertex artistW = true ∧ artistX ≠ artistW ∧
    (∃ (n : Nat) (gx : CollabGraph) (path : List Artist),
      ∀ fuel, n ≤ fuel →
        dfs fuel (build callsDiamond).clear_metadata artistX artistW = (.ok false, gx) ∧
        gx.report_path fuel artistX artistW = .ok path ∧
        ∃ (re : Bool) (ge : CollabGraph),
          dfs_early_exit fuel (build callsDiamond).clear_metadata artistX artistW =
            (.ok re, ge) ∧
          ge.report_path fuel artistX artistW = .ok path ∧ ge.Extends gx) ∧
    (build callsDiamond).IsPath artistX artistW [artistX, artistY, artistW] ∧
    (build callsDiamond).IsPath artistX artistW [artistX, artistZ, artistW] ∧
    (dfs 10 (build callsDiamond).clear_metadata artistX artistW).2.report_path 4 artistX
      artistW = .ok [artistX, artistY, artistW] ∧
    (dfs_early_exit 10 (build callsDiamond).clear_metadata artistX artistW).2.report_path 4
      artistX artistW = .ok [artistX, artistY, artistW] ∧
    (dfs 10 (build callsDiamond).clear_metadata artistX artistW).2.is_marked artistZ =
      .ok true ∧
    (dfs_early_exit 10 (build callsDiamond).clear_metadata artistX artistW).2.is_marked
      artistZ = .ok false :=
  ⟨by decide, by decide, by decide,
    early_exit_reports_same_path callsDiamond artistX artistW (by decide) (by decide)
      (by decide),
    ⟨by decide, by decide,
      List.Chain'.cons (by decide) (List.Chain'.cons (by decide) (List.chain'_singleton _))⟩,
    ⟨by decide, by decide,
      List.Chain'.cons (by decide) (List.Chain'.cons (by decide) (List.chain'_singleton _))⟩,
    by decide, by decide, by decide, by decide⟩
